import Mathlib

/-!
Verification of the deduplication core of `src/dedupe_digest.py`
(humanoid-robots-monitor).

Python strings are modelled as `List Char` (sequences of Unicode scalar
values).  Machine details that matter are modelled explicitly: `dict`
insertion-order semantics, stable sorting with `reverse=True`, and the
`urllib.parse` machinery (added further below).
-/

namespace DedupeDigest

abbrev Chars := List Char

/-- Lexicographic strict comparison of Python strings (code-point order). -/
def strLt : Chars → Chars → Bool
  | [], [] => false
  | [], _ :: _ => true
  | _ :: _, [] => false
  | a :: as, b :: bs =>
    if a.toNat < b.toNat then true
    else if b.toNat < a.toNat then false
    else strLt as bs

/-- ASCII lowercase, modelling `str.lower()` on ASCII data. -/
def asciiLower (s : Chars) : Chars :=
  s.map (fun c => if 65 ≤ c.toNat ∧ c.toNat ≤ 90 then Char.ofNat (c.toNat + 32) else c)

/-- Boolean prefix test. -/
def isPrefixB : Chars → Chars → Bool
  | [], _ => true
  | _ :: _, [] => false
  | n :: ns, h :: hs => n = h && isPrefixB ns hs

/-- Boolean substring test (Python `needle in hay` on strings). -/
def isSubstr (needle : Chars) : Chars → Bool
  | [] => isPrefixB needle []
  | h :: hs => isPrefixB needle (h :: hs) || isSubstr needle hs

/-- ASCII whitespace, modelling Python's `str.split()` / `\s` on ASCII data. -/
def isWs (c : Char) : Bool :=
  c.toNat = 32 ∨ c.toNat = 9 ∨ c.toNat = 10 ∨ c.toNat = 13 ∨ c.toNat = 11 ∨ c.toNat = 12

/-- `str.strip()`. -/
def pyStrip (s : Chars) : Chars :=
  ((s.dropWhile isWs).reverse.dropWhile isWs).reverse

/-- `str.split()` with no argument: split on whitespace runs, no empty parts. -/
def splitWs : Chars → List Chars
  | [] => []
  | c :: rest =>
    if isWs c then splitWs rest
    else
      match splitWs rest with
      | [] => [[c]]
      | t :: ts =>
        match rest with
        | [] => [[c]]
        | r :: _ => if isWs r then [c] :: t :: ts else (c :: t) :: ts

/-- The normalized-item record of `dedupe_digest.py` (`@dataclass Item`). -/
structure Item where
  entity_id : Chars
  entity_name : Chars
  source_feed : Chars
  title : Chars
  url : Chars
  published : Chars
  summary : Chars
  domain : Chars
deriving DecidableEq, Repr

/-- `PRIMARY_DOMAIN_KEYWORDS` from the source. -/
def PRIMARY_DOMAIN_KEYWORDS : List Chars :=
  ["tesla.com".toList, "bostondynamics.com".toList, "apptronik.com".toList,
   "figure.ai".toList, "sanctuary.ai".toList, "sec.gov".toList,
   "investor".toList, "ir.".toList, "newsroom".toList, "press".toList, "blog".toList]

/-- `is_primary_domain`: any keyword occurs as a substring of the lowercased domain. -/
def is_primary_domain (domain : Chars) : Bool :=
  PRIMARY_DOMAIN_KEYWORDS.any (fun k => isSubstr k (asciiLower domain))

/-- Timestamps are encoded as a single natural number, radix-packed so that the
encoding is strictly monotone in (year, month, day, hour, minute, second). -/
def dtEncode (y mo d h mi s : Nat) : Nat :=
  ((((y * 13 + mo) * 32 + d) * 24 + h) * 60 + mi) * 60 + s

/-- `datetime.min` = 0001-01-01T00:00:00. -/
def datetimeMin : Nat := dtEncode 1 1 1 0 0 0

def isLeapYear (y : Nat) : Bool := y % 4 = 0 ∧ (y % 100 ≠ 0 ∨ y % 400 = 0)

def daysInMonth (y mo : Nat) : Nat :=
  if mo = 2 then (if isLeapYear y then 29 else 28)
  else if mo = 4 ∨ mo = 6 ∨ mo = 9 ∨ mo = 11 then 30
  else 31

def digitVal (c : Char) : Option Nat :=
  if 48 ≤ c.toNat ∧ c.toNat ≤ 57 then some (c.toNat - 48) else none

def num2 (a b : Char) : Option Nat := do
  let x ← digitVal a
  let y ← digitVal b
  pure (x * 10 + y)

def num4 (a b c d : Char) : Option Nat := do
  let x ← num2 a b
  let y ← num2 c d
  pure (x * 100 + y)

def mkDateTime (y mo d h mi s : Nat) : Option Nat :=
  if 1 ≤ y ∧ y ≤ 9999 ∧ 1 ≤ mo ∧ mo ≤ 12 ∧ 1 ≤ d ∧ d ≤ daysInMonth y mo
      ∧ h < 24 ∧ mi < 60 ∧ s < 60 then
    some (dtEncode y mo d h mi s)
  else none

/-- Modelled from the spec: the third-party timestamp parsing
(`dateutil.parser.parse`, not part of this repository) applied to the
ISO-8601 strings the spec stipulates for `published` (§3): a full date
`YYYY-MM-DD`, optionally followed by `THH:MM:SS`.  Returns `none` on any
other input (the parse failure the code maps to the sentinel). -/
def dtparseModel (cs : Chars) : Option Nat :=
  match cs with
  | [y1, y2, y3, y4, '-', m1, m2, '-', d1, d2] => do
    let y ← num4 y1 y2 y3 y4
    let mo ← num2 m1 m2
    let d ← num2 d1 d2
    mkDateTime y mo d 0 0 0
  | [y1, y2, y3, y4, '-', m1, m2, '-', d1, d2, 'T', h1, h2, ':', i1, i2, ':', s1, s2] => do
    let y ← num4 y1 y2 y3 y4
    let mo ← num2 m1 m2
    let d ← num2 d1 d2
    let h ← num2 h1 h2
    let mi ← num2 i1 i2
    let s ← num2 s1 s2
    mkDateTime y mo d h mi s
  | _ => none

/-- `parse_dt_safe`: parse, and on any failure return `datetime.min`. -/
def parse_dt_safe (s : Chars) : Nat := (dtparseModel s).getD datetimeMin

/-- `normalize_title`: strip, lowercase, collapse whitespace runs to one space. -/
def collapseWs : Chars → Chars
  | [] => []
  | [c] => if isWs c then [' '] else [c]
  | c :: d :: rest =>
    if isWs c then
      (if isWs d then collapseWs (d :: rest) else ' ' :: collapseWs (d :: rest))
    else c :: collapseWs (d :: rest)

def normalize_title (t : Chars) : Chars := collapseWs (asciiLower (pyStrip t))

/-- `choose_better`: the tie-break policy, translated line by line. -/
def choose_better (a b : Item) : Item :=
  let a_primary := is_primary_domain a.domain
  let b_primary := is_primary_domain b.domain
  if a_primary ∧ ¬ b_primary then a
  else if b_primary ∧ ¬ a_primary then b
  else if a.url.length ≠ b.url.length then
    (if a.url.length < b.url.length then a else b)
  else
    let adt := parse_dt_safe a.published
    let bdt := parse_dt_safe b.published
    if adt ≠ bdt then (if adt < bdt then a else b) else a

/-- Association-list update with Python `dict` semantics: an existing key keeps
its (first-insertion) position and gets the new value; a new key is appended. -/
def dictSet (k : Chars) (v : Item) : List (Chars × Item) → List (Chars × Item)
  | [] => [(k, v)]
  | q :: rest =>
    if q.1 = k then (q.1, v) :: rest else q :: dictSet k v rest

def dictGet? (m : List (Chars × Item)) (k : Chars) : Option Item :=
  (m.find? (fun kv => kv.1 = k)).map (fun kv => kv.2)

def dedupeExactStep (m : List (Chars × Item)) (it : Item) : List (Chars × Item) :=
  if it.url = [] then m
  else
    match dictGet? m it.url with
    | none => dictSet it.url it m
    | some prev => dictSet it.url (choose_better prev it) m

/-- `dedupe_exact`: fold over the input building the url-keyed dict, then take
the values in insertion order (`list(by_url.values())`). -/
def dedupe_exact (items : List Item) : List Item :=
  (items.foldl dedupeExactStep []).map (fun kv => kv.2)

/-! ### Similarity scoring (rapidfuzz `fuzz.token_set_ratio`)

`rapidfuzz` is third-party library code, not part of this repository.
Modelled from the spec (§4.5: token-set fuzzy similarity on a 0–100 scale,
symmetric, 100 for identical normalized strings), following the published
token-set algorithm: compare the sorted token-set intersection string with
each of (intersection + one-sided difference), and the two combined strings
with each other, by normalized indel similarity, and take the maximum.
Scores are exact rationals (the library computes floats). -/

/-- Longest common subsequence length, via a structural fuel argument
(`fuel ≥ |a| + |b|` suffices, which `lcs` supplies). -/
def lcsF : Nat → Chars → Chars → Nat
  | 0, _, _ => 0
  | _ + 1, [], _ => 0
  | _ + 1, _ :: _, [] => 0
  | f + 1, a :: as, b :: bs =>
    if a = b then lcsF f as bs + 1
    else max (lcsF f (a :: as) bs) (lcsF f as (b :: bs))

def lcs (a b : Chars) : Nat := lcsF (a.length + b.length) a b

/-- Exact non-negative fractions (not normalized; `den` is positive by
construction).  Used for similarity scores so that comparisons are plain
natural-number arithmetic; the library computes the same values as floats. -/
structure Frac where
  num : Nat
  den : Nat
deriving DecidableEq, Repr

def fracLe (a b : Frac) : Bool := a.num * b.den ≤ b.num * a.den

def fracMax (a b : Frac) : Frac := if fracLe a b then b else a

/-- `score >= threshold` for an `int` threshold and a fractional score. -/
def fracGeInt (f : Frac) (t : Int) : Bool := t * (f.den : Int) ≤ (f.num : Int)

/-- Normalized indel similarity, scaled to [0,100]:
`100 * (1 - dist/(|a|+|b|))` with `dist = |a|+|b| - 2*lcs`. -/
def indelSim (a b : Chars) : Frac :=
  if a.length + b.length = 0 then ⟨100, 1⟩
  else ⟨200 * lcs a b, a.length + b.length⟩

/-- Insert into a sorted, duplicate-free list (models a sorted Python `set`). -/
def setInsert (x : Chars) : List Chars → List Chars
  | [] => [x]
  | y :: ys =>
    if x = y then y :: ys
    else if strLt x y then x :: y :: ys
    else y :: setInsert x ys

/-- The sorted set of whitespace-separated tokens of a string. -/
def tokenSet (s : Chars) : List Chars :=
  (splitWs s).foldl (fun acc t => setInsert t acc) []

/-- Join a token list with single spaces (`" ".join`). -/
def joinSp : List Chars → Chars
  | [] => []
  | [t] => t
  | t :: ts => t ++ ' ' :: joinSp ts

/-- `fuzz.token_set_ratio`, on already-normalized inputs, as an exact fraction. -/
def token_set_score (s1 s2 : Chars) : Frac :=
  let ta := tokenSet s1
  let tb := tokenSet s2
  if ta = [] ∨ tb = [] then ⟨0, 1⟩
  else
    let inter := ta.filter (fun t => t ∈ tb)
    let dab := ta.filter (fun t => t ∉ tb)
    let dba := tb.filter (fun t => t ∉ ta)
    if inter ≠ [] ∧ (dab = [] ∨ dba = []) then ⟨100, 1⟩
    else
      let t0 := joinSp inter
      let t1 := joinSp (inter ++ dab)
      let t2 := joinSp (inter ++ dba)
      fracMax (fracMax (indelSim t0 t1) (indelSim t0 t2)) (indelSim t1 t2)

/-! ### Fuzzy dedupe within entity -/

/-- `grouped.setdefault(it.entity_id, []).append(it)`: groups keep first-seen
key order, and each group keeps input order. -/
def groupAdd (m : List (Chars × List Item)) (it : Item) : List (Chars × List Item) :=
  match m with
  | [] => [(it.entity_id, [it])]
  | q :: rest =>
    if q.1 = it.entity_id then (q.1, q.2 ++ [it]) :: rest else q :: groupAdd rest it

def groupByEntity (items : List Item) : List (Chars × List Item) :=
  items.foldl groupAdd []

/-- Stable insert for a descending sort: `x` goes before the first element it
strictly beats, hence after all elements tied with it. -/
def insertDesc (gt : Item → Item → Bool) (x : Item) : List Item → List Item
  | [] => [x]
  | y :: ys => if gt x y then x :: y :: ys else y :: insertDesc gt x ys

/-- `sorted(..., key=k, reverse=True)`: stable descending sort. -/
def sortDesc (gt : Item → Item → Bool) (l : List Item) : List Item :=
  l.foldl (fun acc x => insertDesc gt x acc) []

/-- Scan the accepted list; on the first score ≥ threshold, replace that slot
with the tie-break winner.  `none` means no accepted item matched. -/
def mergeFirst (score : Chars → Chars → Frac) (threshold : Int) (cand : Item) :
    List Item → Option (List Item)
  | [] => none
  | acc :: rest =>
    if fracGeInt (score (normalize_title cand.title) (normalize_title acc.title)) threshold then
      some (choose_better acc cand :: rest)
    else
      (mergeFirst score threshold cand rest).map (fun l => acc :: l)

def fuzzyStep (score : Chars → Chars → Frac) (threshold : Int)
    (accepted : List Item) (cand : Item) : List Item :=
  match mergeFirst score threshold cand accepted with
  | some accepted' => accepted'
  | none => accepted ++ [cand]

def processGroup (score : Chars → Chars → Frac) (threshold : Int) (group : List Item) :
    List Item :=
  (sortDesc (fun x y => parse_dt_safe y.published < parse_dt_safe x.published) group).foldl
    (fuzzyStep score threshold) []

/-- `dedupe_fuzzy_within_entity`, parametrized by the similarity scorer. -/
def dedupeFuzzyWith (score : Chars → Chars → Frac) (threshold : Int)
    (items : List Item) : List Item :=
  (groupByEntity items).foldl (fun kept kg => kept ++ processGroup score threshold kg.2) []

/-- `dedupe_fuzzy_within_entity` with the concrete token-set scorer. -/
def dedupe_fuzzy_within_entity (items : List Item) (threshold : Int) : List Item :=
  dedupeFuzzyWith token_set_score threshold items

/-! ### Digest assembly (the final sort in `main`) -/

/-- The sort key of `main`: `(parse_dt_safe(published), entity_name.lower(), domain)`. -/
def digestKey (it : Item) : Nat × Chars × Chars :=
  (parse_dt_safe it.published, asciiLower it.entity_name, it.domain)

/-- Strict lexicographic comparison of sort keys. -/
def keyLt (a b : Nat × Chars × Chars) : Bool :=
  if a.1 < b.1 then true
  else if b.1 < a.1 then false
  else if strLt a.2.1 b.2.1 then true
  else if strLt b.2.1 a.2.1 then false
  else strLt a.2.2 b.2.2

/-- `sorted(items, key=digestKey, reverse=True)`: stable, all keys descending. -/
def digestSort (items : List Item) : List Item :=
  sortDesc (fun x y => keyLt (digestKey y) (digestKey x)) items

/-- The dedupe-and-sort portion of `main` (threshold 92, as called there). -/
def pipelineDigest (items : List Item) : List Item :=
  digestSort (dedupe_fuzzy_within_entity (dedupe_exact items) 92)

/-! ### Spec-side definitions and concrete instances used by the claims -/

/-- First-occurrence deduplication of a list of strings (order of first
appearance), written against the spec wording for 4.4's key set. -/
def firstDedupAux (seen : List Chars) : List Chars → List Chars
  | [] => []
  | u :: us => if u ∈ seen then firstDedupAux seen us else u :: firstDedupAux (u :: seen) us

def firstDedup (us : List Chars) : List Chars := firstDedupAux [] us

/-- The order the claim for the digest assembler states: published time
descending (strict on the primary key), then entity display name ascending
case-insensitively, then domain ascending; ties admissible in any order
beyond that (resolved by stability). -/
def claimOrderOk (a b : Item) : Bool :=
  let pa := parse_dt_safe a.published
  let pb := parse_dt_safe b.published
  if pa ≠ pb then pb < pa
  else
    let na := asciiLower a.entity_name
    let nb := asciiLower b.entity_name
    if na ≠ nb then strLt na nb
    else if a.domain ≠ b.domain then strLt a.domain b.domain
    else true

/-- The order the code actually produces: all three key components descending. -/
def codeOrderOk (a b : Item) : Bool := ¬ keyLt (digestKey a) (digestKey b)

def mkItem (eid nm t u pub dom : Chars) : Item :=
  { entity_id := eid, entity_name := nm, source_feed := [], title := t,
    url := u, published := pub, summary := [], domain := dom }

/-- Scenario C instance: an investor-relations item (longer URL, later
published time) against a plain aggregator item. -/
def itmInvestor : Item :=
  mkItem ("tesla".toList) ("Tesla".toList) ("Optimus update".toList)
    ("https://investor.tesla.com/news/optimus-update-long-url".toList)
    ("2024-03-02T10:00:00".toList) ("investor.tesla.com".toList)

def itmAggregator : Item :=
  mkItem ("tesla".toList) ("Tesla".toList) ("Optimus update".toList)
    ("https://news-aggregator.example.com/a".toList)
    ("2024-03-01T09:00:00".toList) ("news-aggregator.example.com".toList)

/-- The four-item single-entity input realizing the threshold-monotonicity
counterexample: pairwise token-set scores are
s(0,1)=200/7, s(0,2)=200/3, s(0,3)=100, s(1,2)=100, s(1,3)=0, s(2,3)=0. -/
def fuzA : Item :=
  mkItem ("e".toList) ("E".toList) ("xx y".toList)
    ("http://plain0.example.com/aaaa".toList) ("2024-01-04".toList)
    ("plain0.example.com".toList)

def fuzB : Item :=
  mkItem ("e".toList) ("E".toList) ("c d".toList)
    ("http://plain1.example.com/bb".toList) ("2024-01-03".toList)
    ("plain1.example.com".toList)

def fuzC : Item :=
  mkItem ("e".toList) ("E".toList) ("c d xx".toList)
    ("http://press.example.com/cc".toList) ("2024-01-02".toList)
    ("press.example.com".toList)

def fuzD : Item :=
  mkItem ("e".toList) ("E".toList) ("y".toList)
    ("http://plain3.example.com/dd".toList) ("2024-01-01".toList)
    ("plain3.example.com".toList)

def fuzItems : List Item := [fuzA, fuzB, fuzC, fuzD]

/-- Two items with equal published times and domains but different entity
names, in ascending-name input order (for the digest-order counterexample). -/
def srtA : Item :=
  mkItem ("e1".toList) ("alpha".toList) ("t1".toList)
    ("http://a.example.com/1".toList) ("2024-02-01".toList) ("d.example.com".toList)

def srtB : Item :=
  mkItem ("e2".toList) ("beta".toList) ("t2".toList)
    ("http://b.example.com/2".toList) ("2024-02-01".toList) ("d.example.com".toList)

/-- An item with an unparsable published value, and one whose published value
is valid but parses exactly to `datetime.min`. -/
def tsU : Item :=
  mkItem ("e1".toList) ("same".toList) ("title u".toList)
    ("http://u.example.com/1".toList) ("not-a-date".toList) ("same.example.com".toList)

def tsV : Item :=
  mkItem ("e2".toList) ("same".toList) ("title v".toList)
    ("http://v.example.com/2".toList) ("0001-01-01T00:00:00".toList)
    ("same.example.com".toList)

/-- A small input with an exact URL duplicate and an empty-URL item. -/
def exA : Item :=
  mkItem ("x".toList) ("X".toList) ("first".toList)
    ("http://x.example.com/a".toList) ("2024-01-01".toList) ("x.example.com".toList)

def exB : Item :=
  mkItem ("x".toList) ("X".toList) ("second".toList)
    ("http://x.example.com/a".toList) ("2024-01-02".toList) ("x.example.com".toList)

def exC : Item :=
  mkItem ("x".toList) ("X".toList) ("unparseable".toList)
    ([]) ("2024-01-03".toList) ([])

def exItems : List Item := [exA, exB, exC]

/-- Scenario E instances: identical titles, different entities. -/
def entA : Item :=
  mkItem ("tesla".toList) ("Tesla".toList) ("Humanoid Robot Unveiled".toList)
    ("http://one.example.com/a".toList) ("2024-01-05".toList) ("one.example.com".toList)

def entB : Item :=
  mkItem ("figure".toList) ("Figure".toList) ("Humanoid Robot Unveiled".toList)
    ("http://two.example.com/b".toList) ("2024-01-06".toList) ("two.example.com".toList)

def entItems : List Item := [entA, entB]


/-! ### `urllib.parse` (CPython 3.11.6), modelled at character level

The repository's `canonicalize_url` is built on `urlparse`, `parse_qsl`,
`urlencode` and `urlunparse`.  These are modelled from CPython 3.11.6
faithfully for strings of Unicode scalar values, with two documented
simplifications in the netloc validation: `_check_bracketed_host` (which
additionally validates the contents of square brackets as an IP address)
and `_checknetloc` (which rejects some non-ASCII netlocs under NFKC
normalization) are not modelled beyond the bracket-mismatch check; both
only turn more inputs into parse failures, which `canonicalize_url` maps
to returning the input unchanged. -/

def isAsciiAlphaB (c : Char) : Bool :=
  (65 ≤ c.toNat ∧ c.toNat ≤ 90) ∨ (97 ≤ c.toNat ∧ c.toNat ≤ 122)

def isAsciiDigitB (c : Char) : Bool := 48 ≤ c.toNat ∧ c.toNat ≤ 57

/-- `scheme_chars`. -/
def isSchemeChar (c : Char) : Bool :=
  isAsciiAlphaB c ∨ isAsciiDigitB c ∨ c = '+' ∨ c = '-' ∨ c = '.'

/-- The RFC 3986 unreserved characters (`_ALWAYS_SAFE`). -/
def isAlwaysSafe (c : Char) : Bool :=
  isAsciiAlphaB c ∨ isAsciiDigitB c ∨ c = '_' ∨ c = '.' ∨ c = '-' ∨ c = '~'

def hexVal (c : Char) : Option Nat :=
  if 48 ≤ c.toNat ∧ c.toNat ≤ 57 then some (c.toNat - 48)
  else if 97 ≤ c.toNat ∧ c.toNat ≤ 102 then some (c.toNat - 87)
  else if 65 ≤ c.toNat ∧ c.toNat ≤ 70 then some (c.toNat - 55)
  else none

def hexDigitUpper (n : Nat) : Char :=
  if n < 10 then Char.ofNat (48 + n) else Char.ofNat (55 + n)

/-- UTF-8 encoding of one scalar value, as byte values. -/
def utf8EncodeChar (c : Char) : List Nat :=
  let n := c.toNat
  if n < 128 then [n]
  else if n < 2048 then [192 + n / 64, 128 + n % 64]
  else if n < 65536 then [224 + n / 4096, 128 + (n / 64) % 64, 128 + n % 64]
  else [240 + n / 262144, 128 + (n / 4096) % 64, 128 + (n / 64) % 64, 128 + n % 64]

def isCont (b : Nat) : Bool := 128 ≤ b ∧ b ≤ 191

/-- UTF-8 decoding with U+FFFD replacement of maximal invalid subparts
(the `errors='replace'` behaviour of `bytes.decode`). -/
def utf8DecodeReplace : List Nat → Chars
  | [] => []
  | b :: bs =>
    if b < 128 then Char.ofNat b :: utf8DecodeReplace bs
    else if b < 194 then Char.ofNat 65533 :: utf8DecodeReplace bs
    else if b < 224 then
      match bs with
      | [] => [Char.ofNat 65533]
      | b2 :: bs2 =>
        if isCont b2 then
          Char.ofNat ((b - 192) * 64 + (b2 - 128)) :: utf8DecodeReplace bs2
        else Char.ofNat 65533 :: utf8DecodeReplace (b2 :: bs2)
    else if b < 240 then
      match bs with
      | [] => [Char.ofNat 65533]
      | b2 :: bs2 =>
        if (if b = 224 then 160 ≤ b2 ∧ b2 ≤ 191
            else if b = 237 then 128 ≤ b2 ∧ b2 ≤ 159
            else isCont b2 = true) then
          match bs2 with
          | [] => [Char.ofNat 65533]
          | b3 :: bs3 =>
            if isCont b3 then
              Char.ofNat ((b - 224) * 4096 + (b2 - 128) * 64 + (b3 - 128))
                :: utf8DecodeReplace bs3
            else Char.ofNat 65533 :: utf8DecodeReplace (b3 :: bs3)
        else Char.ofNat 65533 :: utf8DecodeReplace (b2 :: bs2)
    else if b < 245 then
      match bs with
      | [] => [Char.ofNat 65533]
      | b2 :: bs2 =>
        if (if b = 240 then 144 ≤ b2 ∧ b2 ≤ 191
            else if b = 244 then 128 ≤ b2 ∧ b2 ≤ 143
            else isCont b2 = true) then
          match bs2 with
          | [] => [Char.ofNat 65533]
          | b3 :: bs3 =>
            if isCont b3 then
              match bs3 with
              | [] => [Char.ofNat 65533]
              | b4 :: bs4 =>
                if isCont b4 then
                  Char.ofNat ((b - 240) * 262144 + (b2 - 128) * 4096
                    + (b3 - 128) * 64 + (b4 - 128)) :: utf8DecodeReplace bs4
                else Char.ofNat 65533 :: utf8DecodeReplace (b4 :: bs4)
            else Char.ofNat 65533 :: utf8DecodeReplace (b3 :: bs3)
        else Char.ofNat 65533 :: utf8DecodeReplace (b2 :: bs2)
    else Char.ofNat 65533 :: utf8DecodeReplace bs

/-- `quote` of a single character with `safe=''` (percent-encode the UTF-8
bytes of everything not unreserved), uppercase hex. -/
def quoteChar (c : Char) : Chars :=
  if isAlwaysSafe c then [c]
  else ((utf8EncodeChar c).map
    (fun b => ['%', hexDigitUpper (b / 16), hexDigitUpper (b % 16)])).join

/-- `quote_plus` with `safe=''`: like `quote` but a space becomes `+`. -/
def quotePlusChar (c : Char) : Chars := if c = ' ' then ['+'] else quoteChar c

def quotePlus (s : Chars) : Chars := (s.map quotePlusChar).join

/-- `unquote_to_bytes`-style percent scan of one ASCII run: two hex digits
after `%` become a byte, anything else stays literal. -/
def percentBytes : Chars → List Nat
  | [] => []
  | c :: rest =>
    if c = '%' then
      match rest with
      | c1 :: c2 :: rest2 =>
        match hexVal c1, hexVal c2 with
        | some h1, some h2 => (h1 * 16 + h2) :: percentBytes rest2
        | _, _ => 37 :: percentBytes (c1 :: c2 :: rest2)
      | [c1] => 37 :: percentBytes [c1]
      | [] => [37]
    else c.toNat :: percentBytes rest

def isAsciiCharB (c : Char) : Bool := c.toNat < 128

/-- Maximal ASCII prefix and the remainder. -/
def spanAscii : Chars → Chars × Chars
  | [] => ([], [])
  | c :: rest =>
    if isAsciiCharB c then
      let p := spanAscii rest
      (c :: p.1, p.2)
    else ([], c :: rest)

/-- `unquote`: percent-decode each maximal ASCII run as UTF-8 with
replacement; non-ASCII characters pass through.  Structured with a fuel
argument (`fuel ≥ length` suffices, which `unquoteChars` supplies). -/
def unquoteRunsF : Nat → Chars → Chars
  | 0, _ => []
  | _ + 1, [] => []
  | f + 1, c :: rest =>
    if isAsciiCharB c then
      let p := spanAscii (c :: rest)
      utf8DecodeReplace (percentBytes p.1) ++ unquoteRunsF f p.2
    else c :: unquoteRunsF f rest

def unquoteChars (s : Chars) : Chars :=
  if '%' ∈ s then unquoteRunsF s.length s else s

def plusToSpace (s : Chars) : Chars := s.map (fun c => if c = '+' then ' ' else c)

/-- The `replace('+',' ')` + `unquote` applied to each field of `parse_qsl`. -/
def unqField (s : Chars) : Chars := unquoteChars (plusToSpace s)

/-- `str.split(sep)` for a one-character separator. -/
def splitOnChar (sep : Char) : Chars → List Chars
  | [] => [[]]
  | c :: rest =>
    let r := splitOnChar sep rest
    if c = sep then [] :: r
    else
      match r with
      | [] => [[c]]
      | h :: t => (c :: h) :: t

/-- `str.split(sep, 1)`: text before the first separator, and the remainder
(if the separator occurs). -/
def splitOnce (sep : Char) : Chars → Chars × Option Chars
  | [] => ([], none)
  | c :: rest =>
    if c = sep then ([], some rest)
    else
      let p := splitOnce sep rest
      (c :: p.1, p.2)

/-- One `name=value` field of `parse_qsl` with `keep_blank_values=True`. -/
def qslPair (nv : Chars) : Option (Chars × Chars) :=
  if nv = [] then none
  else
    match splitOnce '=' nv with
    | (n, some v) => some (unqField n, unqField v)
    | (n, none) => some (unqField n, [])

/-- `parse_qsl(qs, keep_blank_values=True)`. -/
def parse_qsl (qs : Chars) : List (Chars × Chars) :=
  (if qs = [] then [] else splitOnChar '&' qs).filterMap qslPair

def joinChar (sep : Char) : List Chars → Chars
  | [] => []
  | [t] => t
  | t :: ts => t ++ sep :: joinChar sep ts

/-- `urlencode(pairs, doseq=True)` on string pairs. -/
def urlencode (pairs : List (Chars × Chars)) : Chars :=
  joinChar '&' (pairs.map (fun kv => quotePlus kv.1 ++ '=' :: quotePlus kv.2))

/-- Python-`dict` insertion for the query mapping (first position, last value). -/
def qdictInsert (k v : Chars) : List (Chars × Chars) → List (Chars × Chars)
  | [] => [(k, v)]
  | q :: rest =>
    if q.1 = k then (q.1, v) :: rest else q :: qdictInsert k v rest

/-- `dict(parse_qsl(...))`. -/
def toDict (pairs : List (Chars × Chars)) : List (Chars × Chars) :=
  pairs.foldl (fun m kv => qdictInsert kv.1 kv.2 m) []

/-- `TRACKING_KEYS_EXACT` membership or a `TRACKING_PREFIXES` prefix. -/
def isTrackingKey (k : Chars) : Bool :=
  k = "ref".toList ∨ k = "fbclid".toList ∨ k = "gclid".toList
    ∨ isPrefixB ("utm_".toList) k

/-- The key-popping loop over the dict. -/
def dropTracking (m : List (Chars × Chars)) : List (Chars × Chars) :=
  m.filter (fun kv => ¬ isTrackingKey kv.1)

structure UrlParts where
  scheme : Chars
  netloc : Chars
  path : Chars
  params : Chars
  query : Chars
  fragment : Chars
deriving DecidableEq, Repr

/-- Strip `\t`, `\r`, `\n` anywhere (`_UNSAFE_URL_BYTES_TO_REMOVE`). -/
def removeUnsafe (s : Chars) : Chars :=
  s.filter (fun c => ¬ (c.toNat = 9 ∨ c.toNat = 13 ∨ c.toNat = 10))

/-- `lstrip` of WHATWG C0-control-or-space. -/
def lstripC0 (s : Chars) : Chars := s.dropWhile (fun c => c.toNat ≤ 32)

def validSchemeStr (s : Chars) : Bool :=
  match s with
  | [] => false
  | c :: _ => isAsciiAlphaB c ∧ s.all isSchemeChar

/-- The scheme sniff of `urlsplit`: take `url[:i]` at the first `:` when it
is a valid scheme (lowercased), else leave the url alone. -/
def splitScheme (url : Chars) : Chars × Chars :=
  match splitOnce ':' url with
  | (before, some after) =>
    if validSchemeStr before then (asciiLower before, after) else ([], url)
  | (_, none) => ([], url)

def isNetlocDelim (c : Char) : Bool := c = '/' ∨ c = '?' ∨ c = '#'

/-- `_splitnetloc(url, 2)` on the part after the leading `//`. -/
def splitNetloc (rest2 : Chars) : Chars × Chars :=
  (rest2.takeWhile (fun c => ¬ isNetlocDelim c),
   rest2.dropWhile (fun c => ¬ isNetlocDelim c))

def bracketMismatch (netloc : Chars) : Bool :=
  ('[' ∈ netloc ∧ ']' ∉ netloc) ∨ (']' ∈ netloc ∧ '[' ∉ netloc)

/-- The netloc step of `urlsplit`: split off the netloc after a leading `//`. -/
def netlocSplit (r1 : Chars) : Chars × Chars :=
  if isPrefixB ("//".toList) r1 then splitNetloc (r1.drop 2) else ([], r1)

/-- The final step of `urlsplit`: split the fragment at the first `#`, then the
query at the first `?`, returning `(path, query, fragment)`. -/
def urlsplitTail (r2 : Chars) : Chars × Chars × Chars :=
  ((splitOnce '?' (splitOnce '#' r2).1).1,
   ((splitOnce '?' (splitOnce '#' r2).1).2).getD [],
   ((splitOnce '#' r2).2).getD [])

/-- `urlsplit` after the scheme has been removed:
netloc split, bracket validation, fragment and query splits. -/
def urlsplitWith (sp : Chars × Chars) : Option (Chars × Chars × Chars × Chars × Chars) :=
  if bracketMismatch (netlocSplit sp.2).1 then none
  else
    some (sp.1, (netlocSplit sp.2).1, (urlsplitTail (netlocSplit sp.2).2).1,
      (urlsplitTail (netlocSplit sp.2).2).2.1, (urlsplitTail (netlocSplit sp.2).2).2.2)

/-- `urlsplit` (3.11.6): returns `(scheme, netloc, path, query, fragment)`,
or `none` where CPython raises `ValueError`. -/
def urlsplitModel (url0 : Chars) : Option (Chars × Chars × Chars × Chars × Chars) :=
  urlsplitWith (splitScheme (removeUnsafe (lstripC0 url0)))

def uses_params : List Chars :=
  [[], "ftp".toList, "hdl".toList, "prospero".toList, "http".toList,
   "imap".toList, "https".toList, "shttp".toList, "rtsp".toList,
   "rtspu".toList, "sip".toList, "sips".toList, "mms".toList,
   "sftp".toList, "tel".toList]

def uses_netloc : List Chars :=
  [[], "ftp".toList, "http".toList, "gopher".toList, "nntp".toList,
   "telnet".toList, "imap".toList, "wais".toList, "file".toList,
   "mms".toList, "https".toList, "shttp".toList, "snews".toList,
   "prospero".toList, "rtsp".toList, "rtsps".toList, "rtspu".toList,
   "rsync".toList, "svn".toList, "svn+ssh".toList, "sftp".toList,
   "nfs".toList, "git".toList, "git+ssh".toList, "ws".toList, "wss".toList]

/-- Split `url = before ++ '/' :: after` at the last slash. -/
def splitAtLastSlash : Chars → Option (Chars × Chars)
  | [] => none
  | c :: rest =>
    match splitAtLastSlash rest with
    | some p => some (c :: p.1, p.2)
    | none => if c = '/' then some ([], rest) else none

/-- `_splitparams`. -/
def splitParams (url : Chars) : Chars × Chars :=
  match splitAtLastSlash url with
  | some p =>
    match splitOnce ';' p.2 with
    | (a1, some a2) => (p.1 ++ '/' :: a1, a2)
    | (_, none) => (url, [])
  | none =>
    match splitOnce ';' url with
    | (u1, some u2) => (u1, u2)
    | (_, none) => (url, [])

/-- `urlparse` (3.11.6). -/
def urlparseModel (url : Chars) : Option UrlParts :=
  match urlsplitModel url with
  | none => none
  | some (scheme, netloc, path0, query, fragment) =>
    if scheme ∈ uses_params ∧ ';' ∈ path0 then
      let pp := splitParams path0
      some ⟨scheme, netloc, pp.1, pp.2, query, fragment⟩
    else
      some ⟨scheme, netloc, path0, [], query, fragment⟩

/-- The slash `urlunsplit` prepends to a relative path emitted after a netloc. -/
def addSlash (url : Chars) : Chars :=
  if url ≠ [] ∧ ¬ isPrefixB ("/".toList) url then '/' :: url else url

/-- The `//`-emitting branch condition and body of `urlunsplit` (3.11.6 form). -/
def unsplitBase (scheme netloc url : Chars) : Chars :=
  if netloc ≠ [] ∨ (scheme ≠ [] ∧ scheme ∈ uses_netloc ∧ ¬ isPrefixB ("//".toList) url)
  then '/' :: '/' :: (netloc ++ addSlash url)
  else url

/-- Prefix with `scheme:` when a scheme is present. -/
def withScheme (scheme u : Chars) : Chars :=
  if scheme ≠ [] then scheme ++ ':' :: u else u

/-- `urlunsplit` (3.11.6). -/
def urlunsplitModel (scheme netloc url query fragment : Chars) : Chars :=
  let url2 := withScheme scheme (unsplitBase scheme netloc url)
  let url3 := if query ≠ [] then url2 ++ '?' :: query else url2
  if fragment ≠ [] then url3 ++ '#' :: fragment else url3

/-- `urlunparse`. -/
def urlunparseModel (p : UrlParts) : Chars :=
  urlunsplitModel p.scheme p.netloc
    (if p.params ≠ [] then p.path ++ ';' :: p.params else p.path) p.query p.fragment

/-- The query transformation of `canonicalize_url`:
`urlencode(dict(parse_qsl(q, keep_blank_values=True)) minus tracking keys, doseq=True)`. -/
def processQuery (q : Chars) : Chars :=
  urlencode (dropTracking (toDict (parse_qsl q)))

/-- `canonicalize_url`: parse, drop tracking query parameters, reassemble;
on parse failure return the input unchanged. -/
def canonicalize_url (url : Chars) : Chars :=
  match urlparseModel url with
  | none => url
  | some p => urlunparseModel { p with query := processQuery p.query }

/-- The canonicalizer the claim describes: same parse and reassembly, but the
query keeps duplicate keys (all occurrences, original relative order) and
only the tracking pairs are removed. -/
def specCanonClaim (url : Chars) : Chars :=
  match urlparseModel url with
  | none => url
  | some p =>
    let q' := urlencode ((parse_qsl p.query).filter (fun kv => ¬ isTrackingKey kv.1))
    urlunparseModel { p with query := q' }

/-- The amended canonicalizer: remove tracking pairs, then collapse each
remaining duplicated key to its last value at its first-occurrence position. -/
def specCanonAmended (url : Chars) : Chars :=
  match urlparseModel url with
  | some p =>
    let q' := urlencode (toDict ((parse_qsl p.query).filter (fun kv => ¬ isTrackingKey kv.1)))
    urlunparseModel { p with query := q' }
  | none => url

/-- The per-character lowercase map used by `asciiLower`. -/
def lowChar (c : Char) : Char :=
  if 65 ≤ c.toNat ∧ c.toNat ≤ 90 then Char.ofNat (c.toNat + 32) else c

/-- The path/params join performed by `urlunparse`. -/
def joinParams (path par : Chars) : Chars :=
  if par ≠ [] then path ++ ';' :: par else path

/-- The scheme sniff finds nothing: no colon, or an invalid candidate before
the first colon. -/
def noSchemeSniffB (x : Chars) : Bool :=
  match splitOnce ':' x with
  | (_, none) => true
  | (pre, some _) => ¬ validSchemeStr pre

/-- The params split of `urlparse` as a function of scheme and unsplit path. -/
def pathParams (scheme path0 : Chars) : Chars × Chars :=
  if scheme ∈ uses_params ∧ ';' ∈ path0 then splitParams path0 else (path0, [])

/-! ## Theorems -/

theorem choose_better_eq_or (a b : Item) :
    choose_better a b = a ∨ choose_better a b = b := by
  unfold choose_better
  dsimp only
  split_ifs <;> tauto

theorem choose_better_self (a : Item) : choose_better a a = a := by
  rcases choose_better_eq_or a a with h | h <;> exact h

/-- C5.  The tie-break function applies its criteria strictly in order:
primary-domain match first (a sole match wins outright), then shorter
canonical URL, then strictly earlier parsed published time (failures parse
to the minimum), and finally the left-hand argument. -/
theorem C5_tie_break_policy (a b : Item) :
    ((is_primary_domain a.domain = true ∧ is_primary_domain b.domain = false) →
      choose_better a b = a)
    ∧ ((is_primary_domain b.domain = true ∧ is_primary_domain a.domain = false) →
      choose_better a b = b)
    ∧ (is_primary_domain a.domain = is_primary_domain b.domain →
      a.url.length ≠ b.url.length →
      choose_better a b = (if a.url.length < b.url.length then a else b))
    ∧ (is_primary_domain a.domain = is_primary_domain b.domain →
      a.url.length = b.url.length →
      parse_dt_safe a.published ≠ parse_dt_safe b.published →
      choose_better a b =
        (if parse_dt_safe a.published < parse_dt_safe b.published then a else b))
    ∧ (is_primary_domain a.domain = is_primary_domain b.domain →
      a.url.length = b.url.length →
      parse_dt_safe a.published = parse_dt_safe b.published →
      choose_better a b = a) := by
  refine ⟨?_, ?_, ?_, ?_, ?_⟩
  · rintro ⟨h1, h2⟩
    unfold choose_better
    simp [h1, h2]
  · rintro ⟨h1, h2⟩
    unfold choose_better
    simp [h1, h2]
  · intro h1 h2
    unfold choose_better
    rcases Bool.eq_false_or_eq_true (is_primary_domain a.domain) with ha | ha <;>
      simp [ha, ← h1, h2]
  · intro h1 h2 h3
    unfold choose_better
    rcases Bool.eq_false_or_eq_true (is_primary_domain a.domain) with ha | ha <;>
      simp [ha, ← h1, h2, h3]
  · intro h1 h2 h3
    unfold choose_better
    rcases Bool.eq_false_or_eq_true (is_primary_domain a.domain) with ha | ha <;>
      simp [ha, ← h1, h2, h3]

/-- Witness for C5: the `investor.tesla.com` item beats the
`news-aggregator.example.com` item although its URL is longer and its
published time later. -/
theorem C5_tie_break_policy_witness :
    choose_better itmInvestor itmAggregator = itmInvestor ∧
    itmAggregator.url.length < itmInvestor.url.length ∧
    parse_dt_safe itmAggregator.published < parse_dt_safe itmInvestor.published :=
  ⟨(C5_tie_break_policy itmInvestor itmAggregator).1 (by decide), by decide, by decide⟩

/-- C7 fails on the code: raising the threshold from 50 to 90 increases the
number of merges from 1 to 2 (the four-item input shrinks to three items at
threshold 50 but to two items at threshold 90). -/
theorem C7_threshold_monotonicity_fails :
    (50 : Int) ≤ 90
    ∧ fuzItems.length = 4
    ∧ (dedupe_fuzzy_within_entity fuzItems 50).length = 3
    ∧ (dedupe_fuzzy_within_entity fuzItems 90).length = 2 := by
  refine ⟨by decide, by decide, by decide, by decide⟩

/-- C7, amended: monotonicity does hold for each single accept-or-merge
decision — against a fixed accepted list, a candidate that merges at the
higher threshold also merges at any lower threshold. -/
theorem C7_single_decision_monotone (score : Chars → Chars → Frac)
    (t1 t2 : Int) (h12 : t1 ≤ t2) (cand : Item) (acc : List Item)
    (h : (mergeFirst score t2 cand acc).isSome) :
    (mergeFirst score t1 cand acc).isSome := by
  have mono : ∀ f : Frac, fracGeInt f t2 = true → fracGeInt f t1 = true := by
    intro f hf
    unfold fracGeInt at hf ⊢
    simp only [decide_eq_true_eq] at hf ⊢
    have h0 : t1 * (f.den : Int) ≤ t2 * (f.den : Int) :=
      mul_le_mul_of_nonneg_right h12 (Int.natCast_nonneg _)
    omega
  induction acc with
  | nil => simp [mergeFirst] at h
  | cons a rest ih =>
    unfold mergeFirst at h ⊢
    cases hEq : fracGeInt (score (normalize_title cand.title) (normalize_title a.title)) t2 with
    | true => simp [mono _ hEq]
    | false =>
      have h' : (mergeFirst score t2 cand rest).isSome := by
        rw [hEq] at h
        simp only [Bool.false_eq_true, if_false] at h
        cases hm : mergeFirst score t2 cand rest with
        | none => rw [hm] at h; simp at h
        | some l2 => rfl
      have h1' := ih h'
      cases hEq1 : fracGeInt (score (normalize_title cand.title) (normalize_title a.title)) t1 with
      | true => simp
      | false =>
        simp only [Bool.false_eq_true, if_false]
        cases hm1 : mergeFirst score t1 cand rest with
        | none => rw [hm1] at h1'; simp at h1'
        | some l1 => rfl

/-- Witness for the amended C7. -/
theorem C7_single_decision_monotone_witness :
    (mergeFirst token_set_score 50 fuzD [fuzA]).isSome :=
  C7_single_decision_monotone token_set_score 50 90 (by decide) fuzD [fuzA] (by decide)

/-! ### Order facts for the sort keys -/

theorem strLt_irrefl : ∀ a : Chars, strLt a a = false := by
  intro a
  induction a with
  | nil => rfl
  | cons x xs ih => simp [strLt, ih]

theorem strLt_asymm : ∀ a b : Chars, strLt a b = true → strLt b a = false := by
  intro a
  induction a with
  | nil =>
    intro b hab
    cases b with
    | nil => simp [strLt] at hab
    | cons y ys => simp [strLt]
  | cons x xs ih =>
    intro b hab
    cases b with
    | nil => simp [strLt] at hab
    | cons y ys =>
      unfold strLt at hab ⊢
      split_ifs at hab ⊢ <;> try omega
      · rfl
      · exact ih ys hab

theorem strLt_trans : ∀ a b c : Chars, strLt a b = true → strLt b c = true → strLt a c = true := by
  intro a
  induction a with
  | nil =>
    intro b c hab hbc
    cases b <;> cases c <;> simp_all [strLt]
  | cons x xs ih =>
    intro b c hab hbc
    cases b with
    | nil => simp [strLt] at hab
    | cons y ys =>
      cases c with
      | nil => simp [strLt] at hbc
      | cons z zs =>
        unfold strLt at hab hbc ⊢
        split_ifs at hab hbc ⊢ <;>
          first | rfl | omega | exact ih ys zs hab hbc | simp_all

theorem strLt_eq_of_false_false :
    ∀ a b : Chars, strLt a b = false → strLt b a = false → a = b := by
  intro a
  induction a with
  | nil =>
    intro b hab _
    cases b with
    | nil => rfl
    | cons y ys => simp [strLt] at hab
  | cons x xs ih =>
    intro b hab hba
    cases b with
    | nil => simp [strLt] at hba
    | cons y ys =>
      unfold strLt at hab hba
      simp only [Char.toNat] at hab hba
      split_ifs at hab hba <;> try omega
      have hxy : x = y := Char.eq_of_val_eq (UInt32.toNat.inj (by omega))
      rw [hxy, ih ys hab hba]

theorem keyLt_eq_true_iff (a b : Nat × Chars × Chars) :
    keyLt a b = true ↔
      a.1 < b.1
      ∨ (a.1 = b.1 ∧ strLt a.2.1 b.2.1 = true)
      ∨ (a.1 = b.1 ∧ a.2.1 = b.2.1 ∧ strLt a.2.2 b.2.2 = true) := by
  unfold keyLt
  split_ifs with h1 h2 h3 h4
  · simp [h1]
  · simp only [Bool.false_eq_true, false_iff]
    push_neg
    exact ⟨by omega, fun h => absurd h (by omega), fun h => absurd h (by omega)⟩
  · simp only [true_iff]
    exact Or.inr (Or.inl ⟨by omega, h3⟩)
  · simp only [Bool.false_eq_true, false_iff]
    push_neg
    refine ⟨by omega, fun _ => by simpa using h3, fun _ h => ?_⟩
    rw [h] at h4
    exact absurd h4 (by simp [strLt_irrefl])
  · constructor
    · intro h
      exact Or.inr (Or.inr ⟨by omega,
        strLt_eq_of_false_false _ _ (by simpa using h3) (by simpa using h4), h⟩)
    · intro h
      rcases h with h | ⟨_, h⟩ | ⟨_, _, h⟩
      · omega
      · exact absurd h h3
      · exact h

theorem keyLt_trans {a b c : Nat × Chars × Chars}
    (hab : keyLt a b = true) (hbc : keyLt b c = true) : keyLt a c = true := by
  rw [keyLt_eq_true_iff] at hab hbc ⊢
  rcases hab with h | ⟨h1, h2⟩ | ⟨h1, h2, h3⟩ <;>
    rcases hbc with g | ⟨g1, g2⟩ | ⟨g1, g2, g3⟩
  · left; omega
  · left; omega
  · left; omega
  · left; omega
  · right; left; exact ⟨by omega, strLt_trans _ _ _ h2 g2⟩
  · right; left; exact ⟨by omega, by rw [← g2]; exact h2⟩
  · left; omega
  · right; left; exact ⟨by omega, by rw [h2]; exact g2⟩
  · right; right; exact ⟨by omega, by rw [h2, g2], strLt_trans _ _ _ h3 g3⟩

theorem keyLt_eq_of_false_false {a b : Nat × Chars × Chars}
    (hab : keyLt a b = false) (hba : keyLt b a = false) : a = b := by
  have hab' : ¬ (keyLt a b = true) := by simp [hab]
  have hba' : ¬ (keyLt b a = true) := by simp [hba]
  rw [keyLt_eq_true_iff] at hab' hba'
  push_neg at hab' hba'
  have h1 : a.1 = b.1 := by
    rcases hab' with ⟨h, _, _⟩
    rcases hba' with ⟨h', _, _⟩
    omega
  have h2 : a.2.1 = b.2.1 := by
    rcases hab' with ⟨_, h, _⟩
    rcases hba' with ⟨_, h', _⟩
    exact strLt_eq_of_false_false _ _
      (by simpa using h h1) (by simpa using h' h1.symm)
  have h3 : a.2.2 = b.2.2 := by
    rcases hab' with ⟨_, _, h⟩
    rcases hba' with ⟨_, _, h'⟩
    exact strLt_eq_of_false_false _ _
      (by simpa using h h1 h2) (by simpa using h' h1.symm h2.symm)
  exact Prod.ext h1 (Prod.ext h2 h3)

theorem keyLt_irrefl (a : Nat × Chars × Chars) : keyLt a a = false := by
  rw [← Bool.not_eq_true, keyLt_eq_true_iff]
  push_neg
  exact ⟨le_refl _, fun _ => by simp [strLt_irrefl], fun _ _ => by simp [strLt_irrefl]⟩

theorem keyLt_asymm {a b : Nat × Chars × Chars} (h : keyLt a b = true) :
    keyLt b a = false := by
  rw [← Bool.not_eq_true, keyLt_eq_true_iff]
  rw [keyLt_eq_true_iff] at h
  push_neg
  rcases h with h | ⟨h1, h2⟩ | ⟨h1, h2, h3⟩
  · exact ⟨by omega, fun h' => absurd h' (by omega), fun h' => absurd h' (by omega)⟩
  · refine ⟨by omega, fun _ => ?_, fun _ h' => ?_⟩
    · simpa using strLt_asymm _ _ h2
    · rw [← h'] at h2; simp [strLt_irrefl] at h2
  · refine ⟨by omega, fun _ => ?_, fun _ _ => ?_⟩
    · rw [h2]; simp [strLt_irrefl]
    · simpa using strLt_asymm _ _ h3

/-! ### The stable descending sort -/

theorem insertDesc_perm (gt : Item → Item → Bool) (x : Item) :
    ∀ l : List Item, (insertDesc gt x l).Perm (x :: l) := by
  intro l
  induction l with
  | nil => exact List.Perm.refl _
  | cons y ys ih =>
    unfold insertDesc
    split_ifs with h
    · exact List.Perm.refl _
    · exact (List.Perm.cons y ih).trans (List.Perm.swap x y ys)

theorem mem_insertDesc (gt : Item → Item → Bool) (x z : Item) (l : List Item) :
    z ∈ insertDesc gt x l ↔ z = x ∨ z ∈ l := by
  rw [(insertDesc_perm gt x l).mem_iff]
  simp

theorem sortDesc_go_perm (gt : Item → Item → Bool) :
    ∀ (l acc : List Item),
      (l.foldl (fun acc x => insertDesc gt x acc) acc).Perm (acc ++ l) := by
  intro l
  induction l with
  | nil => intro acc; simp [List.Perm.refl]
  | cons x rest ih =>
    intro acc
    have h1 := ih (insertDesc gt x acc)
    have hp : (insertDesc gt x acc).Perm (x :: acc) := insertDesc_perm gt x acc
    have h2 : ((insertDesc gt x acc) ++ rest).Perm (acc ++ x :: rest) :=
      (hp.append_right rest).trans List.perm_middle.symm
    exact h1.trans h2

theorem sortDesc_perm (gt : Item → Item → Bool) (l : List Item) :
    (sortDesc gt l).Perm l :=
  (sortDesc_go_perm gt l []).trans (by simp [List.Perm.refl])

theorem insertDesc_sorted (K : Item → Nat × Chars × Chars) (x : Item) :
    ∀ l : List Item,
      l.Pairwise (fun a b => keyLt (K a) (K b) = false) →
      (insertDesc (fun u v => keyLt (K v) (K u)) x l).Pairwise
        (fun a b => keyLt (K a) (K b) = false) := by
  intro l
  induction l with
  | nil => intro _; simp [insertDesc, List.Pairwise.nil]
  | cons y ys ih =>
    intro hs
    rw [List.pairwise_cons] at hs
    obtain ⟨hy, hys⟩ := hs
    unfold insertDesc
    split_ifs with h
    · rw [List.pairwise_cons]
      constructor
      · intro z hz
        rcases List.mem_cons.mp hz with rfl | hz'
        · exact keyLt_asymm h
        · by_contra hxz
          rw [Bool.not_eq_false] at hxz
          have : keyLt (K y) (K z) = true := keyLt_trans h hxz
          rw [hy z hz'] at this
          exact absurd this (by simp)
      · rw [List.pairwise_cons]
        exact ⟨hy, hys⟩
    · rw [List.pairwise_cons]
      constructor
      · intro z hz
        rcases (mem_insertDesc _ x z ys).mp hz with rfl | hz'
        · exact Bool.not_eq_true _ |>.mp h
        · exact hy z hz'
      · exact ih hys

theorem insertDesc_filter_ne (K : Item → Nat × Chars × Chars) (x : Item)
    (k : Nat × Chars × Chars) (hx : ¬ (K x = k)) :
    ∀ l : List Item,
      (insertDesc (fun u v => keyLt (K v) (K u)) x l).filter (fun z => K z = k) =
        l.filter (fun z => K z = k) := by
  intro l
  induction l with
  | nil => simp [insertDesc, hx]
  | cons y ys ih =>
    unfold insertDesc
    split_ifs with h
    · simp [List.filter_cons, hx]
    · simp only [List.filter_cons]
      rw [ih]

theorem insertDesc_filter_eq (K : Item → Nat × Chars × Chars) (x : Item)
    (k : Nat × Chars × Chars) (hx : K x = k) :
    ∀ l : List Item,
      l.Pairwise (fun a b => keyLt (K a) (K b) = false) →
      (insertDesc (fun u v => keyLt (K v) (K u)) x l).filter (fun z => K z = k) =
        l.filter (fun z => K z = k) ++ [x] := by
  intro l
  induction l with
  | nil => intro _; simp [insertDesc, hx]
  | cons y ys ih =>
    intro hs
    rw [List.pairwise_cons] at hs
    obtain ⟨hy, hys⟩ := hs
    unfold insertDesc
    split_ifs with h
    · have hemp : ∀ z ∈ y :: ys, ¬ (K z = k) := by
        intro z hz hzk
        rcases List.mem_cons.mp hz with rfl | hz'
        · rw [hzk, ← hx] at h
          rw [keyLt_irrefl] at h
          exact absurd h (by simp)
        · have h2 : keyLt (K y) (K z) = false := hy z hz'
          rw [hzk, ← hx] at h2
          rw [h2] at h
          exact absurd h (by simp)
      have h1 : (y :: ys).filter (fun z => K z = k) = [] := by
        rw [List.filter_eq_nil]
        intro z hz
        simpa using hemp z hz
      rw [List.filter_cons_of_pos (by simpa using hx), h1]
      simp
    · simp only [List.filter_cons]
      rw [ih hys]
      split <;> simp

theorem sortDesc_go_sorted_filter (K : Item → Nat × Chars × Chars) :
    ∀ (l acc : List Item),
      acc.Pairwise (fun a b => keyLt (K a) (K b) = false) →
      (l.foldl (fun acc x => insertDesc (fun u v => keyLt (K v) (K u)) x acc)
          acc).Pairwise (fun a b => keyLt (K a) (K b) = false)
      ∧ ∀ k, (l.foldl (fun acc x => insertDesc (fun u v => keyLt (K v) (K u)) x acc)
          acc).filter (fun z => K z = k) =
          acc.filter (fun z => K z = k) ++ l.filter (fun z => K z = k) := by
  intro l
  induction l with
  | nil => intro acc hs; exact ⟨hs, by simp⟩
  | cons x rest ih =>
    intro acc hs
    have hs' := insertDesc_sorted K x acc hs
    obtain ⟨ih1, ih2⟩ := ih (insertDesc (fun u v => keyLt (K v) (K u)) x acc) hs'
    refine ⟨by simpa only [List.foldl_cons] using ih1, ?_⟩
    intro k
    simp only [List.foldl_cons]
    rw [ih2 k]
    by_cases hx : K x = k
    · rw [insertDesc_filter_eq K x k hx acc hs,
        List.filter_cons_of_pos (by simpa using hx), List.append_assoc]
      simp
    · rw [insertDesc_filter_ne K x k hx acc,
        List.filter_cons_of_neg (by simpa using hx)]

theorem digestSort_sorted (l : List Item) :
    (digestSort l).Pairwise
      (fun a b => keyLt (digestKey a) (digestKey b) = false) :=
  (sortDesc_go_sorted_filter digestKey l [] List.Pairwise.nil).1

theorem digestSort_filter (l : List Item) (k : Nat × Chars × Chars) :
    (digestSort l).filter (fun z => digestKey z = k) =
      l.filter (fun z => digestKey z = k) := by
  have h := (sortDesc_go_sorted_filter digestKey l [] List.Pairwise.nil).2 k
  simpa using h

theorem digestSort_perm (l : List Item) : (digestSort l).Perm l :=
  sortDesc_perm _ l

/-- C2 fails as stated: with equal parsed published times and equal domains,
the final sort orders entity names descending, not ascending.  On the input
`[srtA, srtB]` (names "alpha", "beta", everything else tied) the code puts
`srtB` first, and that adjacent pair violates the claimed order. -/
theorem C2_claimed_order_fails :
    digestSort [srtA, srtB] = [srtB, srtA]
    ∧ claimOrderOk srtB srtA = false
    ∧ parse_dt_safe srtA.published = parse_dt_safe srtB.published
    ∧ srtA.domain = srtB.domain :=
  ⟨by decide, by decide, by decide, by decide⟩

/-- C2, amended: the digest assembler returns a stable permutation of its
input that is sorted with *all three* key components descending — published
time descending (unparsable parsing to the minimum sentinel and sorting
last), then entity display name *descending* case-insensitively, then domain
*descending*; ties on the full key keep their original relative order
(stability, stated as preservation of every fiber of the sort key). -/
theorem C2_digest_sort_amended (l : List Item) :
    (digestSort l).Perm l
    ∧ (digestSort l).Pairwise
        (fun a b => keyLt (digestKey a) (digestKey b) = false)
    ∧ ∀ k, (digestSort l).filter (fun z => digestKey z = k) =
        l.filter (fun z => digestKey z = k) :=
  ⟨digestSort_perm l, digestSort_sorted l, digestSort_filter l⟩

/-! ### Facts about the url-keyed dict fold of `dedupe_exact` -/

theorem mem_dictSet_elim {k : Chars} {v : Item} {p : Chars × Item} :
    ∀ {m : List (Chars × Item)}, p ∈ dictSet k v m → p = (k, v) ∨ p ∈ m := by
  intro m
  induction m with
  | nil => intro h; simpa [dictSet] using h
  | cons q rest ih =>
    intro h
    rw [show dictSet k v (q :: rest) =
        (if q.1 = k then (q.1, v) :: rest else q :: dictSet k v rest) from rfl] at h
    split_ifs at h with hq
    · rcases List.mem_cons.mp h with rfl | h'
      · left; rw [hq]
      · right; exact List.mem_cons_of_mem _ h'
    · rcases List.mem_cons.mp h with rfl | h'
      · right; exact List.mem_cons_self _ _
      · rcases ih h' with h'' | h''
        · left; exact h''
        · right; exact List.mem_cons_of_mem _ h''

theorem dictSet_fst_mem {k : Chars} {v : Item} :
    ∀ {m : List (Chars × Item)}, k ∈ m.map Prod.fst →
      (dictSet k v m).map Prod.fst = m.map Prod.fst := by
  intro m
  induction m with
  | nil => intro h; simp at h
  | cons q rest ih =>
    intro h
    rw [show dictSet k v (q :: rest) =
        (if q.1 = k then (q.1, v) :: rest else q :: dictSet k v rest) from rfl]
    split_ifs with hq
    · simp
    · simp only [List.map_cons]
      have h2 : k = q.1 ∨ k ∈ rest.map Prod.fst := by
        rw [List.map_cons] at h
        exact List.mem_cons.mp h
      rcases h2 with h' | h'
      · exact absurd h'.symm hq
      · rw [ih h']

theorem dictSet_fst_new {k : Chars} {v : Item} :
    ∀ {m : List (Chars × Item)}, k ∉ m.map Prod.fst →
      (dictSet k v m).map Prod.fst = m.map Prod.fst ++ [k] := by
  intro m
  induction m with
  | nil => intro _; simp [dictSet]
  | cons q rest ih =>
    intro h
    rw [show dictSet k v (q :: rest) =
        (if q.1 = k then (q.1, v) :: rest else q :: dictSet k v rest) from rfl]
    split_ifs with hq
    · refine absurd ?_ h
      rw [List.map_cons, hq]
      exact List.mem_cons_self _ _
    · simp only [List.map_cons]
      have h' : k ∉ rest.map Prod.fst := by
        intro hc
        rw [List.map_cons] at h
        exact h (List.mem_cons_of_mem _ hc)
      rw [ih h']
      simp

theorem dictGet?_none_iff {k : Chars} :
    ∀ {m : List (Chars × Item)}, dictGet? m k = none ↔ k ∉ m.map Prod.fst := by
  intro m
  unfold dictGet?
  rw [Option.map_eq_none', List.find?_eq_none]
  constructor
  · intro h hk
    rcases List.mem_map.mp hk with ⟨p, hp, hpk⟩
    exact absurd (by simpa using hpk) (by simpa using h p hp)
  · intro h p hp
    simp only [decide_eq_true_eq]
    intro hpk
    exact h (List.mem_map.mpr ⟨p, hp, hpk⟩)

theorem dictGet?_some_mem {k : Chars} {v : Item} {m : List (Chars × Item)}
    (h : dictGet? m k = some v) : (k, v) ∈ m := by
  unfold dictGet? at h
  rcases Option.map_eq_some'.mp h with ⟨p, hp, hpv⟩
  have h1 := List.mem_of_find?_eq_some hp
  have h2 := List.find?_some hp
  simp only [decide_eq_true_eq] at h2
  have : p = (k, v) := by
    cases p
    simp_all
  rwa [this] at h1

theorem mem_filter_map_ne {l : List Item} {u : Chars}
    (h : u ∈ ((l.map (fun x => x.url)).filter (fun w => ¬ w = []))) :
    ¬ u = [] ∧ u ∈ l.map (fun x => x.url) := by
  have h' := List.mem_filter.mp h
  exact ⟨by simpa using h'.2, h'.1⟩

theorem mem_firstDedupAux {u : Chars} :
    ∀ (us : List Chars) (seen : List Chars),
      u ∈ firstDedupAux seen us ↔ u ∉ seen ∧ u ∈ us := by
  intro us
  induction us with
  | nil => intro seen; simp [firstDedupAux]
  | cons w ws ih =>
    intro seen
    unfold firstDedupAux
    split_ifs with hw
    · rw [ih seen]
      constructor
      · rintro ⟨h1, h2⟩
        exact ⟨h1, List.mem_cons_of_mem _ h2⟩
      · rintro ⟨h1, h2⟩
        rcases List.mem_cons.mp h2 with rfl | h2'
        · exact absurd hw h1
        · exact ⟨h1, h2'⟩
    · constructor
      · intro h
        rcases List.mem_cons.mp h with rfl | h'
        · exact ⟨hw, List.mem_cons_self _ _⟩
        · have := (ih (w :: seen)).mp h'
          refine ⟨fun hc => this.1 (List.mem_cons_of_mem _ hc), List.mem_cons_of_mem _ this.2⟩
      · rintro ⟨h1, h2⟩
        rcases List.mem_cons.mp h2 with rfl | h2'
        · exact List.mem_cons_self _ _
        · by_cases hu : u = w
          · rw [hu]; exact List.mem_cons_self _ _
          · exact List.mem_cons_of_mem _
              ((ih (w :: seen)).mpr ⟨by simp [hu, h1], h2'⟩)

theorem firstDedupAux_congr :
    ∀ (us : List Chars) (s1 s2 : List Chars),
      (∀ u, u ∈ s1 ↔ u ∈ s2) → firstDedupAux s1 us = firstDedupAux s2 us := by
  intro us
  induction us with
  | nil => intro _ _ _; rfl
  | cons w ws ih =>
    intro s1 s2 hs
    unfold firstDedupAux
    by_cases hw : w ∈ s1
    · rw [if_pos hw, if_pos ((hs w).mp hw)]
      exact ih s1 s2 hs
    · rw [if_neg hw, if_neg (fun hc => hw ((hs w).mpr hc))]
      congr 1
      refine ih _ _ ?_
      intro u
      simp [hs u]

theorem firstDedupAux_nodup :
    ∀ (us : List Chars) (seen : List Chars), (firstDedupAux seen us).Nodup := by
  intro us
  induction us with
  | nil => intro _; simp [firstDedupAux]
  | cons w ws ih =>
    intro seen
    unfold firstDedupAux
    split_ifs with hw
    · exact ih seen
    · refine List.nodup_cons.mpr ⟨?_, ih _⟩
      intro hc
      exact ((mem_firstDedupAux ws (w :: seen)).mp hc).1 (List.mem_cons_self _ _)

theorem dictSet_mem_self {k : Chars} {v : Item} :
    ∀ m : List (Chars × Item), (k, v) ∈ dictSet k v m := by
  intro m
  induction m with
  | nil => simp [dictSet]
  | cons q rest ih =>
    rw [show dictSet k v (q :: rest) =
        (if q.1 = k then (q.1, v) :: rest else q :: dictSet k v rest) from rfl]
    split_ifs with hq
    · rw [hq]; exact List.mem_cons_self _ _
    · exact List.mem_cons_of_mem _ ih

theorem dictSet_preserve {k k' : Chars} {v v' : Item} (hne : ¬ k' = k) :
    ∀ m : List (Chars × Item), (k, v) ∈ m → (k, v) ∈ dictSet k' v' m := by
  intro m
  induction m with
  | nil => intro h; simp at h
  | cons q rest ih =>
    intro h
    rw [show dictSet k' v' (q :: rest) =
        (if q.1 = k' then (q.1, v') :: rest else q :: dictSet k' v' rest) from rfl]
    rcases List.mem_cons.mp h with rfl | h'
    · rw [if_neg (fun h => hne (h.symm))]
      exact List.mem_cons_self _ _
    · split_ifs with hq
      · exact List.mem_cons_of_mem _ h'
      · exact List.mem_cons_of_mem _ (ih h')

theorem dictGet?_dictSet_ne {k k' : Chars} {v' : Item} (hne : ¬ k' = k) :
    ∀ m : List (Chars × Item), dictGet? (dictSet k' v' m) k = dictGet? m k := by
  intro m
  induction m with
  | nil =>
    show dictGet? [(k', v')] k = dictGet? [] k
    unfold dictGet?
    rw [List.find?_cons_of_neg _ (by simpa using hne)]
  | cons q rest ih =>
    rw [show dictSet k' v' (q :: rest) =
        (if q.1 = k' then (q.1, v') :: rest else q :: dictSet k' v' rest) from rfl]
    split_ifs with hq
    · have hqk : ¬ q.1 = k := by rw [hq]; exact hne
      unfold dictGet?
      rw [List.find?_cons_of_neg _ (by simpa using hqk),
        List.find?_cons_of_neg _ (by simpa using hqk)]
    · by_cases hqk : q.1 = k
      · unfold dictGet?
        rw [List.find?_cons_of_pos _ (by simpa using hqk),
          List.find?_cons_of_pos _ (by simpa using hqk)]
      · unfold dictGet?
        rw [List.find?_cons_of_neg _ (by simpa using hqk),
          List.find?_cons_of_neg _ (by simpa using hqk)]
        unfold dictGet? at ih
        exact ih

/-- The full invariant of the url-keyed dict fold. -/
theorem exact_fold_inv :
    ∀ (l : List Item) (m : List (Chars × Item)),
      (m.map Prod.fst).Nodup →
      (∀ p ∈ m, p.2.url = p.1 ∧ ¬ p.1 = []) →
      ((l.foldl dedupeExactStep m).map Prod.fst).Nodup
      ∧ (∀ p ∈ l.foldl dedupeExactStep m, p.2.url = p.1 ∧ ¬ p.1 = [])
      ∧ (l.foldl dedupeExactStep m).map Prod.fst =
          m.map Prod.fst ++
            firstDedupAux (m.map Prod.fst)
              ((l.map (fun x => x.url)).filter (fun u => ¬ u = []))
      ∧ (∀ p ∈ l.foldl dedupeExactStep m, p ∈ m ∨ p.2 ∈ l) := by
  intro l
  induction l with
  | nil =>
    intro m h1 h2
    exact ⟨h1, h2, by simp [firstDedupAux], fun p hp => Or.inl hp⟩
  | cons x rest ih =>
    intro m h1 h2
    rw [List.foldl_cons]
    by_cases hurl : x.url = []
    · have hstep : dedupeExactStep m x = m := by
        unfold dedupeExactStep; rw [if_pos hurl]
      rw [hstep]
      obtain ⟨g1, g2, g3, g4⟩ := ih m h1 h2
      refine ⟨g1, g2, ?_, fun p hp => ?_⟩
      · rw [g3, List.map_cons, List.filter_cons_of_neg (by simpa using hurl)]
      · rcases g4 p hp with h | h
        · exact Or.inl h
        · exact Or.inr (List.mem_cons_of_mem _ h)
    · cases hget : dictGet? m x.url with
      | none =>
        have hks : x.url ∉ m.map Prod.fst := dictGet?_none_iff.mp hget
        have hstep : dedupeExactStep m x = dictSet x.url x m := by
          unfold dedupeExactStep; rw [if_neg hurl, hget]
        rw [hstep]
        have hfst : (dictSet x.url x m).map Prod.fst = m.map Prod.fst ++ [x.url] :=
          dictSet_fst_new hks
        have h1' : ((dictSet x.url x m).map Prod.fst).Nodup := by
          rw [hfst]
          refine List.Nodup.append h1 (by simp) ?_
          intro a ha hb
          rw [List.mem_singleton] at hb
          exact hks (hb ▸ ha)
        have h2' : ∀ p ∈ dictSet x.url x m, p.2.url = p.1 ∧ ¬ p.1 = [] := by
          intro p hp
          rcases mem_dictSet_elim hp with rfl | hp'
          · exact ⟨rfl, hurl⟩
          · exact h2 p hp'
        obtain ⟨g1, g2, g3, g4⟩ := ih (dictSet x.url x m) h1' h2'
        refine ⟨g1, g2, ?_, fun p hp => ?_⟩
        · rw [g3, hfst, List.map_cons, List.filter_cons_of_pos (by simpa using hurl)]
          rw [firstDedupAux_congr
            ((rest.map (fun x => x.url)).filter (fun u => ¬ u = []))
            (m.map Prod.fst ++ [x.url]) (x.url :: m.map Prod.fst)
            (by intro u; rw [List.mem_append, List.mem_singleton, List.mem_cons, or_comm])]
          rw [show firstDedupAux (m.map Prod.fst)
              (x.url :: (rest.map (fun x => x.url)).filter (fun u => ¬ u = [])) =
              (if x.url ∈ m.map Prod.fst then
                firstDedupAux (m.map Prod.fst)
                  ((rest.map (fun x => x.url)).filter (fun u => ¬ u = []))
              else x.url :: firstDedupAux (x.url :: m.map Prod.fst)
                  ((rest.map (fun x => x.url)).filter (fun u => ¬ u = []))) from rfl]
          rw [if_neg hks]
          simp
        · rcases g4 p hp with h | h
          · rcases mem_dictSet_elim h with rfl | h'
            · exact Or.inr (List.mem_cons_self _ _)
            · exact Or.inl h'
          · exact Or.inr (List.mem_cons_of_mem _ h)
      | some prev =>
        have hks : x.url ∈ m.map Prod.fst := by
          by_contra hc
          rw [← dictGet?_none_iff, hget] at hc
          exact Option.noConfusion hc
        have hprev : (x.url, prev) ∈ m := dictGet?_some_mem hget
        have hprevurl : prev.url = x.url := (h2 _ hprev).1
        have hstep : dedupeExactStep m x = dictSet x.url (choose_better prev x) m := by
          unfold dedupeExactStep; rw [if_neg hurl, hget]
        rw [hstep]
        have hfst : (dictSet x.url (choose_better prev x) m).map Prod.fst = m.map Prod.fst :=
          dictSet_fst_mem hks
        have h1' : ((dictSet x.url (choose_better prev x) m).map Prod.fst).Nodup := by
          rw [hfst]; exact h1
        have h2' : ∀ p ∈ dictSet x.url (choose_better prev x) m,
            p.2.url = p.1 ∧ ¬ p.1 = [] := by
          intro p hp
          rcases mem_dictSet_elim hp with rfl | hp'
          · refine ⟨?_, hurl⟩
            rcases choose_better_eq_or prev x with h | h
            · rw [h]; exact hprevurl
            · rw [h]
          · exact h2 p hp'
        obtain ⟨g1, g2, g3, g4⟩ := ih _ h1' h2'
        refine ⟨g1, g2, ?_, fun p hp => ?_⟩
        · rw [g3, hfst, List.map_cons, List.filter_cons_of_pos (by simpa using hurl)]
          rw [show firstDedupAux (m.map Prod.fst)
              (x.url :: (rest.map (fun x => x.url)).filter (fun u => ¬ u = [])) =
              (if x.url ∈ m.map Prod.fst then
                firstDedupAux (m.map Prod.fst)
                  ((rest.map (fun x => x.url)).filter (fun u => ¬ u = []))
              else x.url :: firstDedupAux (x.url :: m.map Prod.fst)
                  ((rest.map (fun x => x.url)).filter (fun u => ¬ u = []))) from rfl]
          rw [if_pos hks]
        · rcases g4 p hp with h | h
          · rcases mem_dictSet_elim h with rfl | h'
            · rcases choose_better_eq_or prev x with h | h
              · rw [h]; exact Or.inl hprev
              · rw [h]; exact Or.inr (List.mem_cons_self _ _)
            · exact Or.inl h'
          · exact Or.inr (List.mem_cons_of_mem _ h)

theorem dedupe_exact_map_url (l : List Item) :
    (dedupe_exact l).map (fun o => o.url) =
      ((l.foldl dedupeExactStep []).map Prod.fst) := by
  obtain ⟨_, g2, _, _⟩ := exact_fold_inv l [] (by simp) (by simp)
  unfold dedupe_exact
  rw [List.map_map]
  exact List.map_congr_left (fun p hp => (g2 p hp).1)

/-- C10.  The exact deduplicator's output order is the order of first
occurrence: the i-th output item carries the i-th distinct non-empty
canonical url appearing in the input. -/
theorem C10_exact_output_first_occurrence_order (l : List Item) :
    (dedupe_exact l).map (fun o => o.url) =
      firstDedup ((l.map (fun o => o.url)).filter (fun u => ¬ u = [])) := by
  obtain ⟨_, _, g3, _⟩ := exact_fold_inv l [] (by simp) (by simp)
  rw [dedupe_exact_map_url l, g3]
  simp [firstDedup]

/-- C3.  The exact deduplicator drops exactly the empty-url items and keeps
one item per distinct non-empty canonical url: every output item has a
non-empty url, output urls are pairwise distinct, a url appears in the
output iff it is a non-empty input url, and hence the number of distinct
urls in the output equals the number of output items. -/
theorem C3_exact_dedupe_completeness (l : List Item) :
    (∀ o ∈ dedupe_exact l, ¬ o.url = [])
    ∧ ((dedupe_exact l).map (fun o => o.url)).Nodup
    ∧ (∀ u, u ∈ (dedupe_exact l).map (fun o => o.url) ↔
        (¬ u = [] ∧ u ∈ l.map (fun o => o.url)))
    ∧ ((dedupe_exact l).map (fun o => o.url)).dedup.length =
        (dedupe_exact l).length := by
  obtain ⟨g1, g2, g3, _⟩ := exact_fold_inv l [] (by simp) (by simp)
  have hmap := dedupe_exact_map_url l
  have hnd : ((dedupe_exact l).map (fun o => o.url)).Nodup := by rw [hmap]; exact g1
  refine ⟨?_, hnd, ?_, ?_⟩
  · intro o ho
    unfold dedupe_exact at ho
    rcases List.mem_map.mp ho with ⟨p, hp, rfl⟩
    intro hc
    exact (g2 p hp).2 (by rw [← (g2 p hp).1]; exact hc)
  · intro u
    rw [hmap, g3]
    simp only [List.map_nil, List.nil_append]
    rw [show firstDedupAux ([] : List Chars)
        ((l.map (fun x => x.url)).filter (fun u => ¬ u = [])) =
        firstDedup ((l.map (fun x => x.url)).filter (fun u => ¬ u = [])) from rfl]
    unfold firstDedup
    rw [mem_firstDedupAux]
    simp only [List.not_mem_nil, not_false_iff, true_and]
    constructor
    · intro h
      exact mem_filter_map_ne h
    · intro ⟨h1, h2⟩
      exact List.mem_filter.mpr ⟨h2, by simpa using h1⟩
  · rw [List.dedup_eq_self.mpr hnd, List.length_map]

/-- Witness for C3 on a concrete input: `exA`/`exB` share a url (exA is the
tie-break survivor), `exC` has an empty url and is dropped. -/
theorem C3_exact_dedupe_completeness_witness :
    ¬ exA.url = []
    ∧ exB.url ∈ (dedupe_exact exItems).map (fun o => o.url)
    ∧ dedupe_exact exItems = [exA] :=
  ⟨(C3_exact_dedupe_completeness exItems).1 exA (by decide),
   ((C3_exact_dedupe_completeness exItems).2.2.1 exB.url).mpr ⟨by decide, by decide⟩,
   by decide⟩

/-! ### Membership facts for the fuzzy pass -/

theorem mergeFirst_some_mem {score : Chars → Chars → Frac} {t : Int} {cand : Item} :
    ∀ {acc acc' : List Item}, mergeFirst score t cand acc = some acc' →
      ∀ z ∈ acc', z ∈ acc ∨ z = cand := by
  intro acc
  induction acc with
  | nil => intro acc' h; simp [mergeFirst] at h
  | cons a rest ih =>
    intro acc' h z hz
    unfold mergeFirst at h
    split_ifs at h with hsc
    · rcases Option.some.inj h ▸ hz with hz'
      rw [← Option.some.inj h] at hz
      rcases List.mem_cons.mp hz with rfl | hz2
      · rcases choose_better_eq_or a cand with hcb | hcb
        · rw [hcb]; exact Or.inl (List.mem_cons_self _ _)
        · rw [hcb]; exact Or.inr rfl
      · exact Or.inl (List.mem_cons_of_mem _ hz2)
    · cases hm : mergeFirst score t cand rest with
      | none => rw [hm] at h; simp at h
      | some l' =>
        rw [hm] at h
        simp only [Option.map_some'] at h
        rw [← Option.some.inj h] at hz
        rcases List.mem_cons.mp hz with rfl | hz2
        · exact Or.inl (List.mem_cons_self _ _)
        · rcases ih hm z hz2 with h' | h'
          · exact Or.inl (List.mem_cons_of_mem _ h')
          · exact Or.inr h'

theorem fuzzyStep_mem {score : Chars → Chars → Frac} {t : Int}
    {acc : List Item} {cand z : Item} (hz : z ∈ fuzzyStep score t acc cand) :
    z ∈ acc ∨ z = cand := by
  unfold fuzzyStep at hz
  cases hm : mergeFirst score t cand acc with
  | none =>
    rw [hm] at hz
    rcases List.mem_append.mp hz with h | h
    · exact Or.inl h
    · exact Or.inr (List.mem_singleton.mp h)
  | some acc' =>
    rw [hm] at hz
    exact mergeFirst_some_mem hm z hz

theorem fuzzy_foldl_mem {score : Chars → Chars → Frac} {t : Int} {z : Item} :
    ∀ (gs acc : List Item), z ∈ gs.foldl (fuzzyStep score t) acc →
      z ∈ acc ∨ z ∈ gs := by
  intro gs
  induction gs with
  | nil => intro acc h; exact Or.inl h
  | cons x rest ih =>
    intro acc h
    rw [List.foldl_cons] at h
    rcases ih _ h with h' | h'
    · rcases fuzzyStep_mem h' with h'' | h''
      · exact Or.inl h''
      · exact Or.inr (h'' ▸ List.mem_cons_self _ _)
    · exact Or.inr (List.mem_cons_of_mem _ h')

theorem processGroup_sub {score : Chars → Chars → Frac} {t : Int}
    {g : List Item} {z : Item} (hz : z ∈ processGroup score t g) : z ∈ g := by
  unfold processGroup at hz
  rcases fuzzy_foldl_mem _ _ hz with h | h
  · simp at h
  · exact (sortDesc_perm _ g).mem_iff.mp h

theorem mergeFirst_some_ne_nil {score : Chars → Chars → Frac} {t : Int} {cand : Item} :
    ∀ {acc acc' : List Item}, mergeFirst score t cand acc = some acc' → acc' ≠ [] := by
  intro acc
  induction acc with
  | nil => intro acc' h; simp [mergeFirst] at h
  | cons a rest ih =>
    intro acc' h
    unfold mergeFirst at h
    split_ifs at h with hsc
    · rw [← Option.some.inj h]; simp
    · cases hm : mergeFirst score t cand rest with
      | none => rw [hm] at h; simp at h
      | some l' =>
        rw [hm] at h
        simp only [Option.map_some'] at h
        rw [← Option.some.inj h]
        simp

theorem fuzzyStep_ne_nil {score : Chars → Chars → Frac} {t : Int}
    (acc : List Item) (x : Item) : fuzzyStep score t acc x ≠ [] := by
  unfold fuzzyStep
  cases hm : mergeFirst score t x acc with
  | none => simp
  | some acc' => exact mergeFirst_some_ne_nil hm

theorem fuzzy_foldl_ne_nil {score : Chars → Chars → Frac} {t : Int} :
    ∀ (gs acc : List Item), acc ≠ [] → gs.foldl (fuzzyStep score t) acc ≠ [] := by
  intro gs
  induction gs with
  | nil => intro acc h; exact h
  | cons x rest ih =>
    intro acc _
    rw [List.foldl_cons]
    exact ih _ (fuzzyStep_ne_nil acc x)

theorem processGroup_ne_nil {score : Chars → Chars → Frac} {t : Int}
    {g : List Item} (hg : g ≠ []) : processGroup score t g ≠ [] := by
  unfold processGroup
  cases hs : sortDesc (fun x y => parse_dt_safe y.published < parse_dt_safe x.published) g with
  | nil =>
    exfalso
    have hp := (sortDesc_perm (fun x y => parse_dt_safe y.published < parse_dt_safe x.published) g)
    rw [hs] at hp
    exact hg (List.Perm.nil_eq hp).symm
  | cons x rest =>
    rw [List.foldl_cons]
    exact fuzzy_foldl_ne_nil rest _ (fuzzyStep_ne_nil [] x)

/-! ### The entity grouping is a partition by `entity_id` -/

theorem groupAdd_keys (x : Item) :
    ∀ m : List (Chars × List Item),
      (groupAdd m x).map Prod.fst =
        if x.entity_id ∈ m.map Prod.fst then m.map Prod.fst
        else m.map Prod.fst ++ [x.entity_id] := by
  intro m
  induction m with
  | nil => simp [groupAdd]
  | cons q rest ih =>
    rw [show groupAdd (q :: rest) x =
        (if q.1 = x.entity_id then (q.1, q.2 ++ [x]) :: rest else q :: groupAdd rest x)
        from rfl]
    split_ifs with hq h1 h2
    · simp
    · exact absurd (by rw [List.map_cons, hq]; exact List.mem_cons_self _ _) h1
    · simp only [List.map_cons, ih]
      rw [if_pos]
      rcases List.mem_cons.mp (by rw [List.map_cons] at h2; exact h2) with h | h
      · exact absurd h.symm hq
      · exact h
    · simp only [List.map_cons, ih]
      rw [if_neg]
      · simp
      · intro hc
        rw [List.map_cons] at h2
        exact h2 (List.mem_cons_of_mem _ hc)

theorem groupAdd_keys_sub (x : Item) (m : List (Chars × List Item)) {k : Chars}
    (h : k ∈ m.map Prod.fst) : k ∈ (groupAdd m x).map Prod.fst := by
  rw [groupAdd_keys]
  split_ifs
  · exact h
  · exact List.mem_append.mpr (Or.inl h)

theorem groupAdd_keys_self (x : Item) (m : List (Chars × List Item)) :
    x.entity_id ∈ (groupAdd m x).map Prod.fst := by
  rw [groupAdd_keys]
  split_ifs with h
  · exact h
  · exact List.mem_append.mpr (Or.inr (List.mem_singleton.mpr rfl))

theorem groupAdd_nodup (x : Item) (m : List (Chars × List Item))
    (h : (m.map Prod.fst).Nodup) : ((groupAdd m x).map Prod.fst).Nodup := by
  rw [groupAdd_keys]
  split_ifs with hx
  · exact h
  · refine List.Nodup.append h (by simp) ?_
    intro a ha hb
    rw [List.mem_singleton] at hb
    exact hx (hb ▸ ha)

theorem mem_groupAdd_elim {x : Item} {kg : Chars × List Item} :
    ∀ {m : List (Chars × List Item)}, (m.map Prod.fst).Nodup →
      kg ∈ groupAdd m x →
        (kg ∈ m ∧ ¬ kg.1 = x.entity_id)
        ∨ (kg.1 = x.entity_id ∧ x.entity_id ∉ m.map Prod.fst ∧ kg.2 = [x])
        ∨ (kg.1 = x.entity_id ∧ ∃ g0, (x.entity_id, g0) ∈ m ∧ kg.2 = g0 ++ [x]) := by
  intro m
  induction m with
  | nil =>
    intro _ h
    rcases List.mem_singleton.mp (by simpa [groupAdd] using h) with rfl
    exact Or.inr (Or.inl ⟨rfl, by simp, rfl⟩)
  | cons q rest ih =>
    intro hnd h
    rw [List.map_cons, List.nodup_cons] at hnd
    obtain ⟨hq1, hq2⟩ := hnd
    rw [show groupAdd (q :: rest) x =
        (if q.1 = x.entity_id then (q.1, q.2 ++ [x]) :: rest else q :: groupAdd rest x)
        from rfl] at h
    split_ifs at h with hq
    · rcases List.mem_cons.mp h with rfl | h'
      · refine Or.inr (Or.inr ⟨hq, q.2, ?_, rfl⟩)
        have : (x.entity_id, q.2) = q := by
          rw [← hq]
        rw [this]
        exact List.mem_cons_self _ _
      · refine Or.inl ⟨List.mem_cons_of_mem _ h', ?_⟩
        intro hc
        apply hq1
        rw [hq, ← hc]
        exact List.mem_map.mpr ⟨kg, h', rfl⟩
    · rcases List.mem_cons.mp h with rfl | h'
      · exact Or.inl ⟨List.mem_cons_self _ _, hq⟩
      · rcases ih hq2 h' with ⟨h1, h2⟩ | ⟨h1, h2, h3⟩ | ⟨h1, g0, h2, h3⟩
        · exact Or.inl ⟨List.mem_cons_of_mem _ h1, h2⟩
        · refine Or.inr (Or.inl ⟨h1, ?_, h3⟩)
          intro hc
          rcases List.mem_cons.mp (by rw [List.map_cons] at hc; exact hc) with h4 | h4
          · exact hq h4.symm
          · exact h2 h4
        · exact Or.inr (Or.inr ⟨h1, g0, List.mem_cons_of_mem _ h2, h3⟩)

theorem groupByEntity_inv :
    ∀ (l P : List Item) (m : List (Chars × List Item)),
      (m.map Prod.fst).Nodup →
      (∀ kg ∈ m, kg.2 = P.filter (fun x => x.entity_id = kg.1)) →
      (∀ x ∈ P, x.entity_id ∈ m.map Prod.fst) →
      ((l.foldl groupAdd m).map Prod.fst).Nodup
      ∧ (∀ kg ∈ l.foldl groupAdd m,
          kg.2 = (P ++ l).filter (fun x => x.entity_id = kg.1))
      ∧ (∀ x ∈ P ++ l, x.entity_id ∈ (l.foldl groupAdd m).map Prod.fst) := by
  intro l
  induction l with
  | nil =>
    intro P m h1 h2 h3
    refine ⟨h1, ?_, ?_⟩
    · intro kg hkg
      rw [List.append_nil]
      exact h2 kg hkg
    · intro x hx
      rw [List.append_nil] at hx
      exact h3 x hx
  | cons x rest ih =>
    intro P m h1 h2 h3
    rw [List.foldl_cons]
    have h1' := groupAdd_nodup x m h1
    have h2' : ∀ kg ∈ groupAdd m x,
        kg.2 = (P ++ [x]).filter (fun y => y.entity_id = kg.1) := by
      intro kg hkg
      rcases mem_groupAdd_elim h1 hkg with ⟨hm, hne⟩ | ⟨hk, hnotin, hval⟩ | ⟨hk, g0, hg0, hval⟩
      · rw [List.filter_append, ← h2 kg hm]
        rw [show List.filter (fun y => y.entity_id = kg.1) [x] = [] from by
          simp only [List.filter_cons, List.filter_nil]
          rw [if_neg]
          simpa using fun hc => hne (by rw [← hc])]
        simp
      · rw [hval, List.filter_append]
        rw [show P.filter (fun y => y.entity_id = kg.1) = [] from by
          rw [List.filter_eq_nil]
          intro y hy
          simp only [decide_eq_true_eq]
          intro hc
          exact hnotin (by rw [← hk, ← hc]; exact h3 y hy)]
        simp only [List.nil_append, List.filter_cons, List.filter_nil]
        rw [if_pos (by simpa using hk.symm)]
      · rw [hval, List.filter_append, hk]
        have hg0' : g0 = List.filter (fun y => decide (y.entity_id = x.entity_id)) P :=
          h2 (x.entity_id, g0) hg0
        rw [← hg0']
        simp only [List.filter_cons, List.filter_nil]
        rw [if_pos (by simp)]
    have h3' : ∀ y ∈ P ++ [x], y.entity_id ∈ (groupAdd m x).map Prod.fst := by
      intro y hy
      rcases List.mem_append.mp hy with hy' | hy'
      · exact groupAdd_keys_sub x m (h3 y hy')
      · rw [List.mem_singleton.mp hy']
        exact groupAdd_keys_self x m
    obtain ⟨g1, g2, g3⟩ := ih (P ++ [x]) (groupAdd m x) h1' h2' h3'
    refine ⟨g1, ?_, ?_⟩
    · intro kg hkg
      have := g2 kg hkg
      rwa [List.append_assoc, List.singleton_append] at this
    · intro y hy
      refine g3 y ?_
      rw [List.append_assoc, List.singleton_append]
      exact hy

theorem groupByEntity_spec (l : List Item) :
    ((groupByEntity l).map Prod.fst).Nodup
    ∧ (∀ kg ∈ groupByEntity l, kg.2 = l.filter (fun x => x.entity_id = kg.1))
    ∧ (∀ x ∈ l, x.entity_id ∈ (groupByEntity l).map Prod.fst) := by
  obtain ⟨g1, g2, g3⟩ := groupByEntity_inv l [] [] (by simp) (by simp) (by simp)
  refine ⟨g1, ?_, ?_⟩
  · intro kg hkg
    simpa using g2 kg hkg
  · intro x hx
    exact g3 x (by simpa using hx)

theorem mem_dedupeFuzzyWith {score : Chars → Chars → Frac} {t : Int}
    {l : List Item} {z : Item} :
    z ∈ dedupeFuzzyWith score t l ↔
      ∃ kg ∈ groupByEntity l, z ∈ processGroup score t kg.2 := by
  unfold dedupeFuzzyWith
  have gen : ∀ (gs : List (Chars × List Item)) (acc : List Item),
      z ∈ gs.foldl (fun kept kg => kept ++ processGroup score t kg.2) acc ↔
        z ∈ acc ∨ ∃ kg ∈ gs, z ∈ processGroup score t kg.2 := by
    intro gs
    induction gs with
    | nil => intro acc; simp
    | cons kg rest ih =>
      intro acc
      rw [List.foldl_cons, ih]
      constructor
      · rintro (h | h)
        · rcases List.mem_append.mp h with h' | h'
          · exact Or.inl h'
          · exact Or.inr ⟨kg, List.mem_cons_self _ _, h'⟩
        · rcases h with ⟨kg', hkg', hz⟩
          exact Or.inr ⟨kg', List.mem_cons_of_mem _ hkg', hz⟩
      · rintro (h | ⟨kg', hkg', hz⟩)
        · exact Or.inl (List.mem_append.mpr (Or.inl h))
        · rcases List.mem_cons.mp hkg' with rfl | h'
          · exact Or.inl (List.mem_append.mpr (Or.inr hz))
          · exact Or.inr ⟨kg', h', hz⟩
  rw [gen]
  simp

/-- C9.  Duplicate resolution never constructs new or merged items: the
tie-break function returns one of its two arguments, and every output item
of the exact and of the fuzzy deduplication passes is an item of the input
(for any scorer and threshold). -/
theorem C9_no_construction :
    (∀ a b : Item, choose_better a b = a ∨ choose_better a b = b)
    ∧ (∀ l : List Item, ∀ o ∈ dedupe_exact l, o ∈ l)
    ∧ (∀ (score : Chars → Chars → Frac) (t : Int) (l : List Item),
        ∀ o ∈ dedupeFuzzyWith score t l, o ∈ l) := by
  refine ⟨choose_better_eq_or, ?_, ?_⟩
  · intro l o ho
    obtain ⟨_, _, _, g4⟩ := exact_fold_inv l [] (by simp) (by simp)
    unfold dedupe_exact at ho
    rcases List.mem_map.mp ho with ⟨p, hp, rfl⟩
    rcases g4 p hp with h | h
    · simp at h
    · exact h
  · intro score t l o ho
    rcases mem_dedupeFuzzyWith.mp ho with ⟨kg, hkg, hz⟩
    have := processGroup_sub hz
    rw [(groupByEntity_spec l).2.1 kg hkg] at this
    exact (List.mem_filter.mp this).1

/-- Witness for C9. -/
theorem C9_no_construction_witness :
    (choose_better exA exB = exA ∨ choose_better exA exB = exB)
    ∧ exA ∈ exItems
    ∧ entA ∈ entItems :=
  ⟨C9_no_construction.1 exA exB,
   C9_no_construction.2.1 exItems exA (by decide),
   C9_no_construction.2.2 token_set_score 92 entItems entA (by decide)⟩

/-- C4.  The fuzzy deduplicator never merges across entities: every input
item is either kept or eliminated in favour of an input item with the same
`entity_id` — for any scorer and any threshold. -/
theorem C4_entity_isolation (score : Chars → Chars → Frac) (t : Int)
    (l : List Item) (it : Item) (hit : it ∈ l) :
    ∃ o, o ∈ dedupeFuzzyWith score t l ∧ o.entity_id = it.entity_id ∧ o ∈ l := by
  obtain ⟨hnd, hfil, hcov⟩ := groupByEntity_spec l
  have hk := hcov it hit
  rcases List.mem_map.mp hk with ⟨kg, hkg, hkgk⟩
  have hg : kg.2 = l.filter (fun x => x.entity_id = kg.1) := hfil kg hkg
  have hne : kg.2 ≠ [] := by
    rw [hg]
    intro hc
    rw [List.filter_eq_nil] at hc
    have h6 := hc it hit
    simp only [decide_eq_true_eq] at h6
    exact h6 hkgk.symm
  have hpne : processGroup score t kg.2 ≠ [] := processGroup_ne_nil hne
  rcases List.exists_mem_of_ne_nil _ hpne with ⟨o, ho⟩
  have ho2 := processGroup_sub ho
  rw [hg] at ho2
  have ho3 := List.mem_filter.mp ho2
  refine ⟨o, mem_dedupeFuzzyWith.mpr ⟨kg, hkg, ho⟩, ?_, ho3.1⟩
  have h5 : o.entity_id = kg.1 := by simpa using ho3.2
  rw [h5, hkgk]

/-- Witness for C4 (scenario E: identical titles, different entities — both
items are retained, and the fuzzy pass leaves the two-entity input intact). -/
theorem C4_entity_isolation_witness :
    (∃ o, o ∈ dedupeFuzzyWith token_set_score 92 entItems
      ∧ o.entity_id = entA.entity_id ∧ o ∈ entItems)
    ∧ dedupeFuzzyWith token_set_score 92 entItems = entItems :=
  ⟨C4_entity_isolation token_set_score 92 entItems entA (by decide), by decide⟩

/-! ### Retention of uniquely-keyed items through the pipeline -/

theorem dictGet?_of_mem_nodup {k : Chars} {v : Item} :
    ∀ {m : List (Chars × Item)}, (m.map Prod.fst).Nodup → (k, v) ∈ m →
      dictGet? m k = some v := by
  intro m
  induction m with
  | nil => intro _ h; simp at h
  | cons q rest ih =>
    intro hnd h
    rw [List.map_cons, List.nodup_cons] at hnd
    obtain ⟨hq1, hq2⟩ := hnd
    by_cases hqk : q.1 = k
    · have hq : q = (k, v) := by
        rcases List.mem_cons.mp h with h' | h'
        · exact h'.symm
        · exact absurd (hqk ▸ List.mem_map.mpr ⟨(k, v), h', rfl⟩) hq1
      unfold dictGet?
      rw [List.find?_cons_of_pos _ (by simpa using hqk), hq]
      rfl
    · have h' : (k, v) ∈ rest := by
        rcases List.mem_cons.mp h with h'' | h''
        · exact absurd (congrArg Prod.fst h''.symm) hqk
        · exact h''
      unfold dictGet?
      rw [List.find?_cons_of_neg _ (by simpa using hqk)]
      unfold dictGet? at ih
      exact ih hq2 h'

theorem dedupeExactStep_nodup {m : List (Chars × Item)} {x : Item}
    (h : (m.map Prod.fst).Nodup) : ((dedupeExactStep m x).map Prod.fst).Nodup := by
  unfold dedupeExactStep
  split_ifs with hurl
  · exact h
  · cases hget : dictGet? m x.url with
    | none =>
      rw [dictSet_fst_new (dictGet?_none_iff.mp hget)]
      refine List.Nodup.append h (by simp) ?_
      intro a ha hb
      rw [List.mem_singleton] at hb
      exact (dictGet?_none_iff.mp hget) (hb ▸ ha)
    | some prev =>
      rw [dictSet_fst_mem]
      · exact h
      · by_contra hc
        rw [← dictGet?_none_iff, hget] at hc
        exact Option.noConfusion hc

theorem dedupe_exact_keeps_unique {it : Item} (hurl : ¬ it.url = []) :
    ∀ (l : List Item) (m : List (Chars × Item)),
      (m.map Prod.fst).Nodup →
      (∀ x ∈ l, x.url = it.url → x = it) →
      ((it ∈ l ∧ (dictGet? m it.url = none ∨ dictGet? m it.url = some it))
        ∨ (it.url, it) ∈ m) →
      (it.url, it) ∈ l.foldl dedupeExactStep m := by
  intro l
  induction l with
  | nil =>
    intro m _ _ h
    rcases h with ⟨h, _⟩ | h
    · simp at h
    · exact h
  | cons x rest ih =>
    intro m hnd huniq hstate
    rw [List.foldl_cons]
    have hnd' : ((dedupeExactStep m x).map Prod.fst).Nodup := dedupeExactStep_nodup hnd
    have huniq' : ∀ y ∈ rest, y.url = it.url → y = it := by
      intro y hy
      exact huniq y (List.mem_cons_of_mem _ hy)
    rcases hstate with ⟨hin, hget⟩ | hmem
    · by_cases hx : x = it
      · subst hx
        have hstep : (x.url, x) ∈ dedupeExactStep m x := by
          unfold dedupeExactStep
          rw [if_neg hurl]
          rcases hget with hg | hg
          · rw [hg]
            exact dictSet_mem_self m
          · rw [hg]
            show (x.url, x) ∈ dictSet x.url (choose_better x x) m
            rw [choose_better_self]
            exact dictSet_mem_self m
        exact ih _ hnd' huniq' (Or.inr hstep)
      · have hxurl : ¬ x.url = it.url := fun hc =>
          hx (huniq x (List.mem_cons_self _ _) hc)
        have hin' : it ∈ rest := by
          rcases List.mem_cons.mp hin with h' | h'
          · exact absurd h'.symm hx
          · exact h'
        have hget' : dictGet? (dedupeExactStep m x) it.url = dictGet? m it.url := by
          unfold dedupeExactStep
          split_ifs with h0
          · rfl
          · cases hg : dictGet? m x.url with
            | none => exact dictGet?_dictSet_ne hxurl m
            | some prev => exact dictGet?_dictSet_ne hxurl m
        refine ih _ hnd' huniq' (Or.inl ⟨hin', ?_⟩)
        rw [hget']
        exact hget
    · have hmem' : (it.url, it) ∈ dedupeExactStep m x := by
        unfold dedupeExactStep
        split_ifs with h0
        · exact hmem
        · by_cases hxurl : x.url = it.url
          · have hx : x = it := huniq x (List.mem_cons_self _ _) hxurl
            have hgv : dictGet? m x.url = some it := by
              rw [hxurl]
              exact dictGet?_of_mem_nodup hnd hmem
            rw [hgv]
            show (it.url, it) ∈ dictSet x.url (choose_better it x) m
            rw [hx, choose_better_self]
            exact dictSet_mem_self m
          · cases hg : dictGet? m x.url with
            | none => exact dictSet_preserve hxurl m hmem
            | some prev => exact dictSet_preserve hxurl m hmem
      exact ih _ hnd' huniq' (Or.inr hmem')

theorem filter_eq_singleton {it : Item} {p : Item → Bool} (hp : p it = true) :
    ∀ l' : List Item, l'.Nodup → it ∈ l' → (∀ x ∈ l', p x = true → x = it) →
      l'.filter p = [it] := by
  intro l'
  induction l' with
  | nil => intro _ h _; simp at h
  | cons y ys ih =>
    intro hnd hin huniq
    rw [List.nodup_cons] at hnd
    obtain ⟨hy1, hy2⟩ := hnd
    by_cases hy : y = it
    · subst hy
      rw [List.filter_cons_of_pos hp]
      have : ys.filter p = [] := by
        rw [List.filter_eq_nil]
        intro z hz hc
        exact hy1 ((huniq z (List.mem_cons_of_mem _ hz) hc) ▸ hz)
      rw [this]
    · have hpy : ¬ p y = true := fun hc => hy (huniq y (List.mem_cons_self _ _) hc)
      rw [List.filter_cons_of_neg (by simpa using hpy)]
      have hin' : it ∈ ys := by
        rcases List.mem_cons.mp hin with h' | h'
        · exact absurd h'.symm hy
        · exact h'
      exact ih hy2 hin' (fun x hx => huniq x (List.mem_cons_of_mem _ hx))

theorem fuzzy_keeps_unique_entity {score : Chars → Chars → Frac} {t : Int}
    {l' : List Item} {it : Item} (hit : it ∈ l')
    (hfil : l'.filter (fun x => x.entity_id = it.entity_id) = [it]) :
    it ∈ dedupeFuzzyWith score t l' := by
  obtain ⟨hnd, hflt, hcov⟩ := groupByEntity_spec l'
  have hk := hcov it hit
  rcases List.mem_map.mp hk with ⟨kg, hkg, hkgk⟩
  have hg : kg.2 = [it] := by
    rw [hflt kg hkg, hkgk]
    exact hfil
  refine mem_dedupeFuzzyWith.mpr ⟨kg, hkg, ?_⟩
  rw [hg]
  show it ∈ processGroup score t [it]
  have : processGroup score t [it] = [it] := rfl
  rw [this]
  exact List.mem_singleton.mpr rfl

theorem pairwise_get?_of_lt {R : Item → Item → Prop} {l : List Item}
    (h : l.Pairwise R) {i j : Nat} {a b : Item} (hij : i < j)
    (ha : l.get? i = some a) (hb : l.get? j = some b) : R a b := by
  rcases List.get?_eq_some.mp ha with ⟨hi, rfl⟩
  rcases List.get?_eq_some.mp hb with ⟨hj, rfl⟩
  exact List.pairwise_iff_get.mp h ⟨i, hi⟩ ⟨j, hj⟩ hij

/-- C8 fails as stated at one corner: a published value that parses exactly to
`datetime.min` (`0001-01-01T00:00:00`) ties with the unparsable sentinel, so
an unparsable item need not sort after it.  Here the unparsable `tsU` comes
out *before* the validly-timestamped `tsV`. -/
theorem C8_unparsable_sorts_last_fails :
    pipelineDigest [tsU, tsV] = [tsU, tsV]
    ∧ dtparseModel tsU.published = none
    ∧ dtparseModel tsV.published = some datetimeMin :=
  ⟨by decide, by decide, by decide⟩

/-- C8, amended.  Timestamp parsing is total and yields the minimum sentinel
on failure; an item with an unparsable published value is retained through
the whole pipeline whenever it is not eliminated for other reasons (here:
unique url and unique entity); and in the final sort an unparsable item
comes after every item whose published value parses *strictly above* the
sentinel (an item whose valid timestamp equals the sentinel ties instead). -/
theorem C8_sentinel_timestamps :
    (∀ s : Chars, dtparseModel s = none → parse_dt_safe s = datetimeMin)
    ∧ (∀ (l : List Item) (i j : Nat) (a b : Item) (tb : Nat),
        (digestSort l).get? i = some a → (digestSort l).get? j = some b →
        dtparseModel a.published = none →
        dtparseModel b.published = some tb → datetimeMin < tb →
        j < i)
    ∧ (∀ (l : List Item) (it : Item), it ∈ l → ¬ it.url = [] →
        (∀ x ∈ l, x.url = it.url → x = it) →
        (∀ x ∈ l, x ∈ dedupe_exact l → x.entity_id = it.entity_id → x = it) →
        it ∈ pipelineDigest l) := by
  refine ⟨?_, ?_, ?_⟩
  · intro s hs
    unfold parse_dt_safe
    rw [hs]
    rfl
  · intro l i j a b tb ha hb hpa hpb htb
    have hka : (digestKey a).1 = datetimeMin := by
      unfold digestKey parse_dt_safe
      rw [hpa]
      rfl
    have hkb : (digestKey b).1 = tb := by
      unfold digestKey parse_dt_safe
      rw [hpb]
      rfl
    have hne : ¬ i = j := by
      intro hc
      rw [hc, hb] at ha
      have : a = b := Option.some.inj ha.symm
      rw [this, hpb] at hpa
      exact Option.noConfusion hpa
    by_contra hc
    have hij : i < j := by omega
    have hR := pairwise_get?_of_lt (digestSort_sorted l) hij ha hb
    have : keyLt (digestKey a) (digestKey b) = true := by
      rw [keyLt_eq_true_iff]
      left
      rw [hka, hkb]
      exact htb
    rw [hR] at this
    exact Bool.noConfusion this
  · intro l it hit hurl huniq hent
    have h1 : (it.url, it) ∈ l.foldl dedupeExactStep [] :=
      dedupe_exact_keeps_unique hurl l [] (by simp) huniq
        (Or.inl ⟨hit, Or.inl (by unfold dictGet?; simp)⟩)
    have h2 : it ∈ dedupe_exact l := by
      unfold dedupe_exact
      exact List.mem_map.mpr ⟨(it.url, it), h1, rfl⟩
    obtain ⟨hnn, hnd, _, _⟩ := exact_fold_inv l [] (by simp) (by simp)
    have hnd2 : (dedupe_exact l).Nodup := by
      have hmap := dedupe_exact_map_url l
      have : ((dedupe_exact l).map (fun o => o.url)).Nodup := by
        rw [hmap]
        exact hnn
      exact this.of_map
    have hsub : ∀ o ∈ dedupe_exact l, o ∈ l := C9_no_construction.2.1 l
    have hfil : (dedupe_exact l).filter (fun x => x.entity_id = it.entity_id) = [it] := by
      refine filter_eq_singleton (by simp) _ hnd2 h2 ?_
      intro x hx hpx
      exact hent x (hsub x hx) hx (by simpa using hpx)
    have h3 : it ∈ dedupe_fuzzy_within_entity (dedupe_exact l) 92 :=
      fuzzy_keeps_unique_entity h2 hfil
    unfold pipelineDigest
    exact (digestSort_perm _).mem_iff.mpr h3

/-- Witness for the amended C8: the unparsable `tsU` sorts after the
2024-dated `itmInvestor`, and a unique unparsable-timestamp item survives
the whole pipeline. -/
theorem C8_sentinel_timestamps_witness :
    parse_dt_safe ("not-a-date".toList) = datetimeMin
    ∧ (0 : Nat) < 1
    ∧ tsU ∈ pipelineDigest [tsU] :=
  ⟨C8_sentinel_timestamps.1 ("not-a-date".toList) (by decide),
   C8_sentinel_timestamps.2.1 [tsU, itmInvestor] 1 0 tsU itmInvestor
     (dtEncode 2024 3 2 10 0 0) (by decide) (by decide) (by decide) (by decide) (by decide),
   C8_sentinel_timestamps.2.2 [tsU] tsU (by decide) (by decide) (by decide) (by decide)⟩



/-! ### C1: duplicate query keys -/

theorem dropTracking_nil : dropTracking [] = [] := rfl

theorem dropTracking_cons (q : Chars × Chars) (rest : List (Chars × Chars)) :
    dropTracking (q :: rest) =
      if isTrackingKey q.1 = true then dropTracking rest
      else q :: dropTracking rest := by
  unfold dropTracking
  rw [List.filter_cons]
  by_cases h : isTrackingKey q.1 = true
  · simp [h]
  · simp [h]

theorem qdictInsert_cons (k v : Chars) (q : Chars × Chars) (rest : List (Chars × Chars)) :
    qdictInsert k v (q :: rest) =
      (if q.1 = k then (q.1, v) :: rest else q :: qdictInsert k v rest) := rfl

theorem dropTracking_insert_tracking {k v : Chars} (hk : isTrackingKey k = true) :
    ∀ m : List (Chars × Chars), dropTracking (qdictInsert k v m) = dropTracking m := by
  intro m
  induction m with
  | nil =>
    show dropTracking [(k, v)] = dropTracking []
    rw [dropTracking_cons]
    simp [hk]
  | cons q rest ih =>
    rw [qdictInsert_cons]
    split_ifs with hq
    · have hqt : isTrackingKey q.1 = true := by rw [hq]; exact hk
      rw [dropTracking_cons, dropTracking_cons]
      simp [hqt]
    · rw [dropTracking_cons, dropTracking_cons q rest]
      by_cases ht : isTrackingKey q.1 = true
      · simp [ht, ih]
      · simp [ht, ih]

theorem dropTracking_insert_keep {k v : Chars} (hk : isTrackingKey k = false) :
    ∀ m : List (Chars × Chars),
      dropTracking (qdictInsert k v m) = qdictInsert k v (dropTracking m) := by
  intro m
  induction m with
  | nil =>
    show dropTracking [(k, v)] = qdictInsert k v (dropTracking [])
    rw [dropTracking_cons]
    simp only [hk, Bool.false_eq_true, if_false, dropTracking_nil]
    rfl
  | cons q rest ih =>
    rw [qdictInsert_cons]
    split_ifs with hq
    · have hqt : isTrackingKey q.1 = false := by rw [hq]; exact hk
      rw [dropTracking_cons, dropTracking_cons q rest]
      simp only [hqt, Bool.false_eq_true, if_false]
      rw [qdictInsert_cons, if_pos hq]
    · rw [dropTracking_cons, dropTracking_cons q rest]
      by_cases ht : isTrackingKey q.1 = true
      · simp [ht, ih]
      · simp only [ht, Bool.false_eq_true, if_false]
        rw [qdictInsert_cons, if_neg hq, ih]

theorem dropTracking_fold :
    ∀ (pairs : List (Chars × Chars)) (m : List (Chars × Chars)),
      dropTracking (pairs.foldl (fun m kv => qdictInsert kv.1 kv.2 m) m)
        = (pairs.filter (fun kv => ¬ isTrackingKey kv.1)).foldl
            (fun m kv => qdictInsert kv.1 kv.2 m) (dropTracking m) := by
  intro pairs
  induction pairs with
  | nil => intro m; rfl
  | cons kv rest ih =>
    intro m
    rw [List.foldl_cons, List.filter_cons]
    by_cases hk : isTrackingKey kv.1 = true
    · have hcond : (decide ¬ isTrackingKey kv.1 = true) = false := by simp [hk]
      rw [hcond]
      simp only [Bool.false_eq_true, if_false]
      rw [ih, dropTracking_insert_tracking hk]
    · have hk' : isTrackingKey kv.1 = false := by simpa using hk
      have hcond : (decide ¬ isTrackingKey kv.1 = true) = true := by simp [hk']
      rw [hcond]
      simp only [if_true]
      rw [ih, List.foldl_cons, dropTracking_insert_keep hk']

theorem dropTracking_toDict (pairs : List (Chars × Chars)) :
    dropTracking (toDict pairs)
      = toDict (pairs.filter (fun kv => ¬ isTrackingKey kv.1)) := by
  unfold toDict
  rw [dropTracking_fold pairs []]
  rfl

/-- C1 fails as stated: `dict(parse_qsl(...))` collapses duplicate query keys
to their last value, so `?a=1&a=2` canonicalizes to `?a=2`, while the claimed
duplicate-preserving behaviour keeps both pairs. -/
theorem C1_duplicate_keys_collapse :
    canonicalize_url ("http://e.com/p?a=1&a=2&utm_x=9".toList)
      = "http://e.com/p?a=2".toList
    ∧ specCanonClaim ("http://e.com/p?a=1&a=2&utm_x=9".toList)
      = "http://e.com/p?a=1&a=2".toList
    ∧ ¬ canonicalize_url ("http://e.com/p?a=1&a=2&utm_x=9".toList)
        = specCanonClaim ("http://e.com/p?a=1&a=2&utm_x=9".toList) :=
  ⟨by decide, by decide, by decide⟩

/-- C1, amended: the canonicalizer parses the query into key/value pairs,
removes exactly the tracking pairs (key in {ref, fbclid, gclid} or prefixed
`utm_`), and additionally collapses each remaining duplicated key to its
*last* value placed at the key's *first*-occurrence position; scheme, host,
path, params and fragment are passed through from the parser (which
lowercases the scheme) unchanged.  Equality with the code holds for every
URL string. -/
theorem C1_canonicalizer_amended (url : Chars) :
    canonicalize_url url = specCanonAmended url := by
  unfold canonicalize_url specCanonAmended
  cases urlparseModel url with
  | none => rfl
  | some p =>
    have h : processQuery p.query
        = urlencode (toDict ((parse_qsl p.query).filter (fun kv => ¬ isTrackingKey kv.1))) := by
      unfold processQuery
      rw [dropTracking_toDict]
    simp only [h]

/-! ### C6: idempotence -/

/-- C6 fails as stated: under the 3.11 `urlunsplit`, an empty-netloc parse
whose path starts with `//` loses two slashes per pass: `////` canonicalizes
to `//`, which canonicalizes to the empty string. -/
theorem C6_idempotence_fails :
    canonicalize_url ("////".toList) = "//".toList
    ∧ canonicalize_url ("//".toList) = []
    ∧ ¬ canonicalize_url (canonicalize_url ("////".toList))
        = canonicalize_url ("////".toList) :=
  ⟨by decide, by decide, by decide⟩

/-! String utilities for the idempotence proof. -/

theorem splitOnce_append {sep : Char} :
    ∀ {a : Chars} (b : Chars), sep ∉ a → splitOnce sep (a ++ sep :: b) = (a, some b) := by
  intro a
  induction a with
  | nil => intro b _; simp [splitOnce]
  | cons c rest ih =>
    intro b h
    rw [List.cons_append]
    show splitOnce sep (c :: (rest ++ sep :: b)) = (c :: rest, some b)
    unfold splitOnce
    rw [if_neg (fun hc => h (List.mem_cons.mpr (Or.inl hc.symm)))]
    rw [ih b (fun hc => h (List.mem_cons_of_mem _ hc))]

theorem splitOnce_no_sep {sep : Char} :
    ∀ {a : Chars}, sep ∉ a → splitOnce sep a = (a, none) := by
  intro a
  induction a with
  | nil => intro _; rfl
  | cons c rest ih =>
    intro h
    unfold splitOnce
    rw [if_neg (fun hc => h (List.mem_cons.mpr (Or.inl hc.symm)))]
    rw [ih (fun hc => h (List.mem_cons_of_mem _ hc))]

theorem splitOnce_spec {sep : Char} :
    ∀ (s : Chars),
      (∀ a b, splitOnce sep s = (a, some b) → s = a ++ sep :: b ∧ sep ∉ a)
      ∧ (∀ a, splitOnce sep s = (a, none) → s = a ∧ sep ∉ a) := by
  intro s
  induction s with
  | nil =>
    refine ⟨fun a b h => ?_, fun a h => ?_⟩
    · exact absurd h (by simp [splitOnce])
    · injection h with h1 h2
      subst h1
      exact ⟨rfl, List.not_mem_nil _⟩
  | cons c rest ih =>
    by_cases hc : c = sep
    · subst hc
      refine ⟨fun a b h => ?_, fun a h => ?_⟩
      · unfold splitOnce at h
        rw [if_pos rfl] at h
        injection h with h1 h2
        injection h2 with h2
        subst h1
        subst h2
        exact ⟨rfl, List.not_mem_nil _⟩
      · unfold splitOnce at h
        rw [if_pos rfl] at h
        injection h with h1 h2
        exact absurd h2 (by simp)
    · have key : splitOnce sep (c :: rest)
          = (c :: (splitOnce sep rest).1, (splitOnce sep rest).2) := by
        conv_lhs => unfold splitOnce
        rw [if_neg hc]
      refine ⟨fun a b h => ?_, fun a h => ?_⟩
      · rw [key] at h
        injection h with h1 h2
        have hr : splitOnce sep rest = ((splitOnce sep rest).1, some b) := by
          rw [← h2]
        obtain ⟨h3, h4⟩ := ih.1 _ b hr
        subst h1
        constructor
        · rw [List.cons_append, ← h3]
        · intro hm
          rcases List.mem_cons.mp hm with hme | hm'
          · exact hc hme.symm
          · exact h4 hm'
      · rw [key] at h
        injection h with h1 h2
        have hr : splitOnce sep rest = ((splitOnce sep rest).1, none) := by
          rw [← h2]
        obtain ⟨h3, h4⟩ := ih.2 _ hr
        subst h1
        constructor
        · rw [← h3]
        · intro hm
          rcases List.mem_cons.mp hm with hme | hm'
          · exact hc hme.symm
          · exact h4 hm'

theorem takeWhile_all {p : Char → Bool} :
    ∀ {a : Chars}, (∀ c ∈ a, p c = true) → a.takeWhile p = a := by
  intro a
  induction a with
  | nil => intro _; rfl
  | cons c rest ih =>
    intro h
    rw [List.takeWhile_cons, h c (List.mem_cons_self _ _), if_pos rfl]
    rw [ih (fun d hd => h d (List.mem_cons_of_mem _ hd))]

theorem dropWhile_all {p : Char → Bool} :
    ∀ {a : Chars}, (∀ c ∈ a, p c = true) → a.dropWhile p = [] := by
  intro a
  induction a with
  | nil => intro _; rfl
  | cons c rest ih =>
    intro h
    rw [List.dropWhile_cons]
    rw [h c (List.mem_cons_self _ _)]
    simp only [if_true]
    exact ih (fun d hd => h d (List.mem_cons_of_mem _ hd))

theorem takeWhile_append_stop {p : Char → Bool} {c : Char} (hc : p c = false) :
    ∀ {a : Chars} (b : Chars), (∀ d ∈ a, p d = true) →
      (a ++ c :: b).takeWhile p = a := by
  intro a
  induction a with
  | nil => intro b _; simp [List.takeWhile_cons, hc]
  | cons d rest ih =>
    intro b h
    rw [List.cons_append, List.takeWhile_cons, h d (List.mem_cons_self _ _), if_pos rfl]
    rw [ih b (fun e he => h e (List.mem_cons_of_mem _ he))]

theorem dropWhile_append_stop {p : Char → Bool} {c : Char} (hc : p c = false) :
    ∀ {a : Chars} (b : Chars), (∀ d ∈ a, p d = true) →
      (a ++ c :: b).dropWhile p = c :: b := by
  intro a
  induction a with
  | nil => intro b _; simp [List.dropWhile_cons, hc]
  | cons d rest ih =>
    intro b h
    rw [List.cons_append, List.dropWhile_cons]
    rw [h d (List.mem_cons_self _ _)]
    simp only [if_true]
    exact ih b (fun e he => h e (List.mem_cons_of_mem _ he))

theorem splitOnce_cons_ne {sep c : Char} (rest : Chars) (hc : ¬ c = sep) :
    splitOnce sep (c :: rest) = (c :: (splitOnce sep rest).1, (splitOnce sep rest).2) := by
  conv_lhs => unfold splitOnce
  rw [if_neg hc]

theorem splitOnce_append_left {sep : Char} :
    ∀ {a : Chars} (y : Chars), sep ∉ a →
      splitOnce sep (a ++ y) = (a ++ (splitOnce sep y).1, (splitOnce sep y).2) := by
  intro a
  induction a with
  | nil => intro y _; simp
  | cons c rest ih =>
    intro y h
    have hc : ¬ c = sep := fun hc => h (List.mem_cons.mpr (Or.inl hc.symm))
    rw [List.cons_append, splitOnce_cons_ne _ hc,
      ih y (fun hm => h (List.mem_cons_of_mem _ hm))]
    rfl

theorem splitOnChar_no_sep {sep : Char} :
    ∀ {x : Chars}, sep ∉ x → splitOnChar sep x = [x] := by
  intro x
  induction x with
  | nil => intro _; rfl
  | cons c rest ih =>
    intro h
    show (if c = sep then [] :: splitOnChar sep rest
          else match splitOnChar sep rest with
               | [] => [[c]]
               | hh :: t => (c :: hh) :: t) = [c :: rest]
    rw [if_neg (fun hc => h (List.mem_cons.mpr (Or.inl hc.symm)))]
    rw [ih (fun hc => h (List.mem_cons_of_mem _ hc))]

theorem splitOnChar_cons_append {sep : Char} :
    ∀ {a : Chars} (r : Chars), sep ∉ a →
      splitOnChar sep (a ++ sep :: r) = a :: splitOnChar sep r := by
  intro a
  induction a with
  | nil =>
    intro r _
    rw [List.nil_append]
    show (if sep = sep then [] :: splitOnChar sep r
          else match splitOnChar sep r with
               | [] => [[sep]]
               | hh :: t => (sep :: hh) :: t) = [] :: splitOnChar sep r
    rw [if_pos rfl]
  | cons c a ih =>
    intro r h
    rw [List.cons_append]
    show (if c = sep then [] :: splitOnChar sep (a ++ sep :: r)
          else match splitOnChar sep (a ++ sep :: r) with
               | [] => [[c]]
               | hh :: t => (c :: hh) :: t) = (c :: a) :: splitOnChar sep r
    rw [if_neg (fun hc => h (List.mem_cons.mpr (Or.inl hc.symm)))]
    rw [ih r (fun hc => h (List.mem_cons_of_mem _ hc))]

theorem joinChar_cons_cons {sep : Char} (t t2 : Chars) (ts : List Chars) :
    joinChar sep (t :: t2 :: ts) = t ++ sep :: joinChar sep (t2 :: ts) := rfl

theorem splitOnChar_joinChar {sep : Char} :
    ∀ (fs : List Chars), fs ≠ [] → (∀ f ∈ fs, sep ∉ f) →
      splitOnChar sep (joinChar sep fs) = fs := by
  intro fs
  induction fs with
  | nil => intro h _; exact absurd rfl h
  | cons f fs ih =>
    intro _ hmem
    cases fs with
    | nil => exact splitOnChar_no_sep (hmem f (List.mem_cons_self _ _))
    | cons f2 fs2 =>
      rw [joinChar_cons_cons]
      rw [splitOnChar_cons_append _ (hmem f (List.mem_cons_self _ _))]
      rw [ih (List.cons_ne_nil _ _) (fun g hg => hmem g (List.mem_cons_of_mem _ hg))]

theorem splitAtLastSlash_cons (c : Char) (rest : Chars) :
    splitAtLastSlash (c :: rest)
      = match splitAtLastSlash rest with
        | some p => some (c :: p.1, p.2)
        | none => if c = '/' then some ([], rest) else none := rfl

theorem splitAtLastSlash_none : ∀ {x : Chars}, splitAtLastSlash x = none → '/' ∉ x := by
  intro x
  induction x with
  | nil => intro _; exact List.not_mem_nil _
  | cons c rest ih =>
    intro h
    cases hsp : splitAtLastSlash rest with
    | some p =>
      have key : splitAtLastSlash (c :: rest) = some (c :: p.1, p.2) := by
        rw [splitAtLastSlash_cons, hsp]
      rw [key] at h
      exact Option.noConfusion h
    | none =>
      have key : splitAtLastSlash (c :: rest)
          = if c = '/' then some ([], rest) else none := by
        rw [splitAtLastSlash_cons, hsp]
      by_cases hc : c = '/'
      · rw [key, if_pos hc] at h
        exact Option.noConfusion h
      · intro hm
        rcases List.mem_cons.mp hm with hme | hm'
        · exact hc hme.symm
        · exact ih hsp hm'

theorem splitAtLastSlash_eq_none : ∀ {x : Chars}, '/' ∉ x → splitAtLastSlash x = none := by
  intro x
  induction x with
  | nil => intro _; rfl
  | cons c rest ih =>
    intro h
    rw [splitAtLastSlash_cons, ih (fun hm => h (List.mem_cons_of_mem _ hm))]
    exact if_neg (fun hc => h (List.mem_cons.mpr (Or.inl hc.symm)))

theorem splitAtLastSlash_some :
    ∀ {x a b : Chars}, splitAtLastSlash x = some (a, b) →
      x = a ++ '/' :: b ∧ '/' ∉ b := by
  intro x
  induction x with
  | nil => intro a b h; exact Option.noConfusion h
  | cons c rest ih =>
    intro a b h
    cases hsp : splitAtLastSlash rest with
    | some p =>
      have key : splitAtLastSlash (c :: rest) = some (c :: p.1, p.2) := by
        rw [splitAtLastSlash_cons, hsp]
      rw [key] at h
      injection h with h1
      injection h1 with h1 h2
      have hp : splitAtLastSlash rest = some (p.1, p.2) := by rw [hsp]
      obtain ⟨h3, h4⟩ := ih hp
      subst h1
      subst h2
      exact ⟨by rw [h3, List.cons_append], h4⟩
    | none =>
      have key : splitAtLastSlash (c :: rest)
          = if c = '/' then some ([], rest) else none := by
        rw [splitAtLastSlash_cons, hsp]
      by_cases hc : c = '/'
      · rw [key, if_pos hc] at h
        injection h with h1
        injection h1 with h1 h2
        subst h1
        subst h2
        subst hc
        exact ⟨rfl, splitAtLastSlash_none hsp⟩
      · rw [key, if_neg hc] at h
        exact Option.noConfusion h

theorem splitAtLastSlash_mk :
    ∀ (a : Chars) {b : Chars}, '/' ∉ b → splitAtLastSlash (a ++ '/' :: b) = some (a, b) := by
  intro a
  induction a with
  | nil =>
    intro b hb
    rw [List.nil_append, splitAtLastSlash_cons, splitAtLastSlash_eq_none hb]
    rfl
  | cons c a ih =>
    intro b hb
    rw [List.cons_append, splitAtLastSlash_cons, ih hb]

theorem dropWhile_head_false {p : Char → Bool} :
    ∀ {x : Chars} {c : Char} {r : Chars}, x.dropWhile p = c :: r → p c = false := by
  intro x
  induction x with
  | nil => intro c r h; exact absurd h (by simp)
  | cons d rest ih =>
    intro c r h
    rw [List.dropWhile_cons] at h
    split_ifs at h with hd
    · exact ih h
    · injection h with h1 _
      subst h1
      exact Bool.of_not_eq_true hd

theorem toNat_ofNat_lt {n : Nat} (h : n < 55296) : (Char.ofNat n).toNat = n := by
  have hv : n.isValidChar := Or.inl h
  simp [Char.ofNat, hv, Char.ofNatAux, Char.toNat, UInt32.toNat, BitVec.toNat_ofNatLt]

theorem char_valid_cases (c : Char) :
    c.toNat < 55296 ∨ (57344 ≤ c.toNat ∧ c.toNat < 1114112) := by
  show c.val.toNat < 55296 ∨ _
  rcases c.valid with h | ⟨h1, h2⟩
  · exact Or.inl h
  · exact Or.inr ⟨h1, h2⟩

theorem isAsciiAlphaB_iff (c : Char) :
    isAsciiAlphaB c = true
      ↔ (65 ≤ c.toNat ∧ c.toNat ≤ 90) ∨ (97 ≤ c.toNat ∧ c.toNat ≤ 122) := by
  unfold isAsciiAlphaB
  simp only [decide_eq_true_eq]

theorem isAsciiDigitB_iff (c : Char) :
    isAsciiDigitB c = true ↔ 48 ≤ c.toNat ∧ c.toNat ≤ 57 := by
  unfold isAsciiDigitB
  simp only [decide_eq_true_eq]

theorem isSchemeChar_iff (c : Char) :
    isSchemeChar c = true
      ↔ isAsciiAlphaB c = true ∨ isAsciiDigitB c = true
        ∨ c = '+' ∨ c = '-' ∨ c = '.' := by
  unfold isSchemeChar
  simp only [decide_eq_true_eq]

theorem lowChar_eq_map (s : Chars) : asciiLower s = s.map lowChar := rfl

theorem lowChar_toNat (c : Char) :
    (lowChar c).toNat = if 65 ≤ c.toNat ∧ c.toNat ≤ 90 then c.toNat + 32 else c.toNat := by
  unfold lowChar
  split_ifs with h
  · exact toNat_ofNat_lt (by omega)
  · rfl

theorem lowChar_of_not_upper {c : Char} (h : ¬ (65 ≤ c.toNat ∧ c.toNat ≤ 90)) :
    lowChar c = c := by
  unfold lowChar
  rw [if_neg h]

theorem lowChar_idem (c : Char) : lowChar (lowChar c) = lowChar c := by
  by_cases h : 65 ≤ c.toNat ∧ c.toNat ≤ 90
  · refine lowChar_of_not_upper ?_
    rw [lowChar_toNat, if_pos h]
    omega
  · rw [lowChar_of_not_upper h]
    exact lowChar_of_not_upper h

theorem asciiLower_idem (s : Chars) : asciiLower (asciiLower s) = asciiLower s := by
  rw [lowChar_eq_map, lowChar_eq_map, List.map_map]
  exact List.map_congr_left (fun c _ => lowChar_idem c)

theorem isAsciiAlphaB_lowChar {c : Char} (h : isAsciiAlphaB c = true) :
    isAsciiAlphaB (lowChar c) = true := by
  rcases (isAsciiAlphaB_iff c).mp h with hu | hl
  · refine (isAsciiAlphaB_iff _).mpr (Or.inr ?_)
    rw [lowChar_toNat, if_pos hu]
    omega
  · rw [lowChar_of_not_upper (by omega)]
    exact h

theorem isSchemeChar_lowChar {c : Char} (h : isSchemeChar c = true) :
    isSchemeChar (lowChar c) = true := by
  rcases (isSchemeChar_iff c).mp h with ha | hd | hp | hm | hdot
  · exact (isSchemeChar_iff _).mpr (Or.inl (isAsciiAlphaB_lowChar ha))
  · have hb := (isAsciiDigitB_iff c).mp hd
    rw [lowChar_of_not_upper (by omega)]
    exact h
  · subst hp; decide
  · subst hm; decide
  · subst hdot; decide

theorem validSchemeStr_spec {s : Chars} (h : validSchemeStr s = true) :
    (∃ c cs, s = c :: cs ∧ isAsciiAlphaB c = true) ∧ ∀ c ∈ s, isSchemeChar c = true := by
  cases s with
  | nil => exact absurd h (by decide)
  | cons d ds =>
    unfold validSchemeStr at h
    simp only [decide_eq_true_eq] at h
    obtain ⟨h1, h2⟩ := h
    exact ⟨⟨d, ds, rfl, h1⟩, fun c hc => (List.all_eq_true.mp h2) c hc⟩

theorem validSchemeStr_intro {c : Char} {cs : Chars} (h1 : isAsciiAlphaB c = true)
    (h2 : ∀ d ∈ c :: cs, isSchemeChar d = true) : validSchemeStr (c :: cs) = true := by
  unfold validSchemeStr
  simp only [decide_eq_true_eq]
  exact ⟨h1, List.all_eq_true.mpr (fun d hd => h2 d hd)⟩

theorem validSchemeStr_false_of_mem {s : Chars} {c : Char} (hm : c ∈ s)
    (h : isSchemeChar c = false) : validSchemeStr s = false := by
  cases hb : validSchemeStr s
  · rfl
  · obtain ⟨_, hall⟩ := validSchemeStr_spec hb
    rw [hall c hm] at h
    exact Bool.noConfusion h

theorem validSchemeStr_cons_false {c : Char} (cs : Chars) (h : isAsciiAlphaB c = false) :
    validSchemeStr (c :: cs) = false := by
  cases hb : validSchemeStr (c :: cs)
  · rfl
  · obtain ⟨⟨d, ds, hds, hd⟩, _⟩ := validSchemeStr_spec hb
    injection hds with h1 _
    subst h1
    rw [h] at hd
    exact Bool.noConfusion hd

theorem validSchemeStr_asciiLower {s : Chars} (h : validSchemeStr s = true) :
    validSchemeStr (asciiLower s) = true := by
  obtain ⟨⟨c, cs, hcs, hc⟩, hall⟩ := validSchemeStr_spec h
  subst hcs
  rw [lowChar_eq_map, List.map_cons]
  refine validSchemeStr_intro (isAsciiAlphaB_lowChar hc) ?_
  intro d hd
  rcases List.mem_cons.mp hd with rfl | hd'
  · exact isSchemeChar_lowChar (hall c (List.mem_cons_self _ _))
  · obtain ⟨e, he, rfl⟩ := List.mem_map.mp hd'
    exact isSchemeChar_lowChar (hall e (List.mem_cons_of_mem _ he))

theorem colon_not_mem_of_valid {s : Chars} (h : validSchemeStr s = true) : ':' ∉ s := by
  intro hm
  obtain ⟨_, hall⟩ := validSchemeStr_spec h
  have := hall ':' hm
  exact absurd this (by decide)

theorem splitOnce_cons_self {sep : Char} (rest : Chars) :
    splitOnce sep (sep :: rest) = ([], some rest) := by
  unfold splitOnce
  rw [if_pos rfl]

theorem splitScheme_eq_of_none {x pre : Chars} (h : splitOnce ':' x = (pre, none)) :
    splitScheme x = ([], x) := by
  unfold splitScheme
  rw [h]

theorem splitScheme_eq_of_invalid {x pre af : Chars} (h : splitOnce ':' x = (pre, some af))
    (hv : validSchemeStr pre = false) : splitScheme x = ([], x) := by
  unfold splitScheme
  rw [h]
  show (if validSchemeStr pre then (asciiLower pre, af) else ([], x)) = ([], x)
  rw [hv]
  rfl

theorem splitScheme_eq_of_valid {x pre af : Chars} (h : splitOnce ':' x = (pre, some af))
    (hv : validSchemeStr pre = true) : splitScheme x = (asciiLower pre, af) := by
  unfold splitScheme
  rw [h]
  show (if validSchemeStr pre then (asciiLower pre, af) else ([], x)) = _
  rw [hv]
  rfl

theorem noSchemeSniffB_eq_true_of_none {x pre : Chars} (h : splitOnce ':' x = (pre, none)) :
    noSchemeSniffB x = true := by
  unfold noSchemeSniffB
  rw [h]

theorem noSchemeSniffB_eq_true_of_invalid {x pre af : Chars}
    (h : splitOnce ':' x = (pre, some af)) (hv : validSchemeStr pre = false) :
    noSchemeSniffB x = true := by
  unfold noSchemeSniffB
  rw [h]
  show decide (¬ validSchemeStr pre = true) = true
  rw [hv]
  decide

theorem noSchemeSniff_invalid_extract {x af : Chars}
    (heq : splitOnce ':' x = ((splitOnce ':' x).1, some af))
    (h : noSchemeSniffB x = true) : validSchemeStr (splitOnce ':' x).1 = false := by
  unfold noSchemeSniffB at h
  rw [heq] at h
  have h' : ¬ (validSchemeStr (splitOnce ':' x).1 = true) := of_decide_eq_true h
  cases hb : validSchemeStr (splitOnce ':' x).1
  · rfl
  · exact absurd hb h'

theorem splitScheme_of_noSniff {x : Chars} (h : noSchemeSniffB x = true) :
    splitScheme x = ([], x) := by
  cases hsp2 : (splitOnce ':' x).2 with
  | none => exact splitScheme_eq_of_none (by rw [← hsp2])
  | some af =>
    have heq : splitOnce ':' x = ((splitOnce ':' x).1, some af) := by rw [← hsp2]
    exact splitScheme_eq_of_invalid heq (noSchemeSniff_invalid_extract heq h)

theorem noSchemeSniffB_head {c : Char} (rest : Chars) (h : isAsciiAlphaB c = false) :
    noSchemeSniffB (c :: rest) = true := by
  by_cases hc : c = ':'
  · subst hc
    exact noSchemeSniffB_eq_true_of_invalid (splitOnce_cons_self rest) (by decide)
  · have hsp : splitOnce ':' (c :: rest)
        = (c :: (splitOnce ':' rest).1, (splitOnce ':' rest).2) := splitOnce_cons_ne rest hc
    cases hsp2 : (splitOnce ':' rest).2 with
    | none =>
      refine noSchemeSniffB_eq_true_of_none
        (show splitOnce ':' (c :: rest) = (c :: (splitOnce ':' rest).1, none) from ?_)
      rw [hsp, hsp2]
    | some af =>
      refine noSchemeSniffB_eq_true_of_invalid
        (show splitOnce ':' (c :: rest) = (c :: (splitOnce ':' rest).1, some af) from ?_)
        (validSchemeStr_cons_false _ h)
      rw [hsp, hsp2]

theorem noSchemeSniffB_append_sep {a : Chars} (b : Chars) {sep : Char}
    (hsep : ¬ sep = ':') (hsc : isSchemeChar sep = false)
    (h : noSchemeSniffB a = true) : noSchemeSniffB (a ++ sep :: b) = true := by
  cases hsp2 : (splitOnce ':' a).2 with
  | some af =>
    have heq : splitOnce ':' a = ((splitOnce ':' a).1, some af) := by rw [← hsp2]
    obtain ⟨hdec, hnm⟩ := (splitOnce_spec a).1 _ af heq
    have hv := noSchemeSniff_invalid_extract heq h
    have hsp : splitOnce ':' (a ++ sep :: b)
        = ((splitOnce ':' a).1, some (af ++ sep :: b)) := by
      conv_lhs => rw [hdec]
      rw [List.append_assoc, List.cons_append]
      exact splitOnce_append _ hnm
    exact noSchemeSniffB_eq_true_of_invalid hsp hv
  | none =>
    have heq : splitOnce ':' a = ((splitOnce ':' a).1, none) := by rw [← hsp2]
    obtain ⟨hda, hnm⟩ := (splitOnce_spec a).2 _ heq
    have hnm' : ':' ∉ a := by
      rw [← hda] at hnm
      exact hnm
    cases hsb2 : (splitOnce ':' (sep :: b)).2 with
    | none =>
      refine noSchemeSniffB_eq_true_of_none
        (show splitOnce ':' (a ++ sep :: b) = (a ++ (splitOnce ':' (sep :: b)).1, none) from ?_)
      rw [splitOnce_append_left _ hnm', hsb2]
    | some af =>
      have hsepmem : sep ∈ a ++ (splitOnce ':' (sep :: b)).1 := by
        have : (splitOnce ':' (sep :: b)).1 = sep :: (splitOnce ':' b).1 := by
          rw [splitOnce_cons_ne _ hsep]
        rw [this]
        exact List.mem_append.mpr (Or.inr (List.mem_cons_self _ _))
      refine noSchemeSniffB_eq_true_of_invalid
        (show splitOnce ':' (a ++ sep :: b)
          = (a ++ (splitOnce ':' (sep :: b)).1, some af) from ?_)
        (validSchemeStr_false_of_mem hsepmem hsc)
      rw [splitOnce_append_left _ hnm', hsb2]

theorem noSchemeSniffB_of_fst_nil {x : Chars} (h : (splitScheme x).1 = []) :
    noSchemeSniffB x = true := by
  cases hsp2 : (splitOnce ':' x).2 with
  | none => exact noSchemeSniffB_eq_true_of_none (by rw [← hsp2])
  | some af =>
    have heq : splitOnce ':' x = ((splitOnce ':' x).1, some af) := by rw [← hsp2]
    by_cases hv : validSchemeStr (splitOnce ':' x).1 = true
    · exfalso
      rw [splitScheme_eq_of_valid heq hv] at h
      have hpre : (splitOnce ':' x).1 = [] := by
        have := List.map_eq_nil.mp (by rw [← lowChar_eq_map]; exact h)
        exact this
      rw [hpre] at hv
      exact absurd hv (by decide)
    · have hvf : validSchemeStr (splitOnce ':' x).1 = false := by
        cases hb : validSchemeStr (splitOnce ':' x).1
        · rfl
        · exact absurd hb hv
      exact noSchemeSniffB_eq_true_of_invalid heq hvf

theorem joinParams_pos (a : Chars) {b : Chars} (h : b ≠ []) :
    joinParams a b = a ++ ';' :: b := by
  unfold joinParams
  rw [if_pos h]

theorem joinParams_nil (a : Chars) : joinParams a [] = a := by
  unfold joinParams
  simp

theorem urlunparseModel_eq_join (p : UrlParts) :
    urlunparseModel p
      = urlunsplitModel p.scheme p.netloc (joinParams p.path p.params) p.query p.fragment := rfl

theorem splitParams_eq_a {x d seg a1 a2 : Chars}
    (h1 : splitAtLastSlash x = some (d, seg))
    (h2 : splitOnce ';' seg = (a1, some a2)) :
    splitParams x = (d ++ '/' :: a1, a2) := by
  simp only [splitParams, h1, h2]

theorem splitParams_eq_b {x d seg q1 : Chars}
    (h1 : splitAtLastSlash x = some (d, seg))
    (h2 : splitOnce ';' seg = (q1, none)) :
    splitParams x = (x, []) := by
  simp only [splitParams, h1, h2]

theorem splitParams_eq_c {x u1 u2 : Chars}
    (h1 : splitAtLastSlash x = none)
    (h2 : splitOnce ';' x = (u1, some u2)) :
    splitParams x = (u1, u2) := by
  simp only [splitParams, h1, h2]

theorem splitParams_eq_d {x u1 : Chars}
    (h1 : splitAtLastSlash x = none)
    (h2 : splitOnce ';' x = (u1, none)) :
    splitParams x = (x, []) := by
  simp only [splitParams, h1, h2]

theorem pathParams_pos {s path0 : Chars} (h : s ∈ uses_params ∧ ';' ∈ path0) :
    pathParams s path0 = splitParams path0 := by
  unfold pathParams
  rw [if_pos h]

theorem pathParams_neg {s path0 : Chars} (h : ¬ (s ∈ uses_params ∧ ';' ∈ path0)) :
    pathParams s path0 = (path0, []) := by
  unfold pathParams
  rw [if_neg h]

theorem joinParams_pathParams_prefix (s path0 : Chars) :
    joinParams (pathParams s path0).1 (pathParams s path0).2 = path0
    ∨ joinParams (pathParams s path0).1 (pathParams s path0).2 ++ [';'] = path0 := by
  by_cases hb : s ∈ uses_params ∧ ';' ∈ path0
  · rw [pathParams_pos hb]
    cases hsl : splitAtLastSlash path0 with
    | some p =>
      obtain ⟨hdec, hnsl⟩ :=
        splitAtLastSlash_some ((by rw [hsl]) : splitAtLastSlash path0 = some (p.1, p.2))
      rcases hso : splitOnce ';' p.2 with ⟨a1, o⟩
      cases o with
      | none =>
        have key := splitParams_eq_b ((by rw [hsl]) : splitAtLastSlash path0 = some (p.1, p.2)) hso
        have k1 : (splitParams path0).1 = path0 := by rw [key]
        have k2 : (splitParams path0).2 = [] := by rw [key]
        rw [k1, k2, joinParams_nil]
        exact Or.inl rfl
      | some a2 =>
        have key := splitParams_eq_a ((by rw [hsl]) : splitAtLastSlash path0 = some (p.1, p.2)) hso
        have k1 : (splitParams path0).1 = p.1 ++ '/' :: a1 := by rw [key]
        have k2 : (splitParams path0).2 = a2 := by rw [key]
        obtain ⟨hseg, hna⟩ := (splitOnce_spec p.2).1 a1 a2 hso
        rw [k1, k2]
        by_cases ha2 : a2 = []
        · subst ha2
          rw [joinParams_nil]
          refine Or.inr ?_
          rw [hdec, hseg]
          simp
        · rw [joinParams_pos _ ha2]
          refine Or.inl ?_
          rw [hdec, hseg]
          simp
    | none =>
      rcases hso : splitOnce ';' path0 with ⟨u1, o⟩
      cases o with
      | none =>
        have key := splitParams_eq_d hsl hso
        have k1 : (splitParams path0).1 = path0 := by rw [key]
        have k2 : (splitParams path0).2 = [] := by rw [key]
        rw [k1, k2, joinParams_nil]
        exact Or.inl rfl
      | some u2 =>
        have key := splitParams_eq_c hsl hso
        have k1 : (splitParams path0).1 = u1 := by rw [key]
        have k2 : (splitParams path0).2 = u2 := by rw [key]
        obtain ⟨hdec, hnu⟩ := (splitOnce_spec path0).1 u1 u2 hso
        rw [k1, k2]
        by_cases hu2 : u2 = []
        · subst hu2
          rw [joinParams_nil]
          refine Or.inr ?_
          rw [hdec]
        · rw [joinParams_pos _ hu2]
          exact Or.inl hdec.symm
  · rw [pathParams_neg hb]
    have k1 : ((path0, []) : Chars × Chars).1 = path0 := rfl
    have k2 : ((path0, []) : Chars × Chars).2 = ([] : Chars) := rfl
    rw [k1, k2, joinParams_nil]
    exact Or.inl rfl

theorem pathParams_stable (s path0 u : Chars)
    (hu : u = joinParams (pathParams s path0).1 (pathParams s path0).2
        ∨ u = '/' :: joinParams (pathParams s path0).1 (pathParams s path0).2) :
    joinParams (pathParams s u).1 (pathParams s u).2 = u := by
  by_cases hs : s ∈ uses_params
  case neg =>
    rw [pathParams_neg (fun hc => hs hc.1)]
    exact joinParams_nil u
  case pos =>
  by_cases hsemi : ';' ∈ u
  case neg =>
    rw [pathParams_neg (fun hc => hsemi hc.2)]
    exact joinParams_nil u
  case pos =>
  rw [pathParams_pos ⟨hs, hsemi⟩]
  by_cases hb : s ∈ uses_params ∧ ';' ∈ path0
  case neg =>
    exfalso
    have hnosemi : ';' ∉ path0 := fun hm => hb ⟨hs, hm⟩
    rw [pathParams_neg hb] at hu
    have hj : joinParams (((path0, []) : Chars × Chars)).1 (((path0, []) : Chars × Chars)).2
        = path0 := joinParams_nil path0
    rw [hj] at hu
    rcases hu with rfl | rfl
    · exact hnosemi hsemi
    · rcases List.mem_cons.mp hsemi with h1 | h1
      · exact absurd h1 (by decide)
      · exact hnosemi h1
  case pos =>
  rw [pathParams_pos hb] at hu
  cases hsl : splitAtLastSlash path0 with
  | some p =>
    have hsl' : splitAtLastSlash path0 = some (p.1, p.2) := by rw [hsl]
    obtain ⟨hdec, hnsl⟩ := splitAtLastSlash_some hsl'
    rcases hso : splitOnce ';' p.2 with ⟨a1, o⟩
    cases o with
    | some a2 =>
      have key := splitParams_eq_a hsl' hso
      obtain ⟨hseg, hna⟩ := (splitOnce_spec p.2).1 a1 a2 hso
      have hna1 : '/' ∉ a1 := fun hm => hnsl (by rw [hseg]; exact List.mem_append.mpr (Or.inl hm))
      have hna2 : '/' ∉ a2 := fun hm => hnsl
        (by rw [hseg]; exact List.mem_append.mpr (Or.inr (List.mem_cons_of_mem _ hm)))
      have hnoseg : '/' ∉ a1 ++ ';' :: a2 := by
        intro hm
        rcases List.mem_append.mp hm with hm1 | hm2
        · exact hna1 hm1
        · rcases List.mem_cons.mp hm2 with hm3 | hm4
          · exact absurd hm3 (by decide)
          · exact hna2 hm4
      by_cases ha2 : a2 = []
      · subst ha2
        have hjv : joinParams (splitParams path0).1 (splitParams path0).2
            = p.1 ++ '/' :: a1 := by
          rw [key]
          exact joinParams_nil _
        rw [hjv] at hu
        rcases hu with rfl | rfl
        · have h1 := splitAtLastSlash_mk p.1 hna1
          have key2 := splitParams_eq_b h1 (splitOnce_no_sep hna)
          rw [key2]
          exact joinParams_nil _
        · have h1 : splitAtLastSlash ('/' :: (p.1 ++ '/' :: a1)) = some ('/' :: p.1, a1) := by
            have h0 := splitAtLastSlash_mk ('/' :: p.1) hna1
            rw [List.cons_append] at h0
            exact h0
          have key2 := splitParams_eq_b h1 (splitOnce_no_sep hna)
          rw [key2]
          exact joinParams_nil _
      · have hjv : joinParams (splitParams path0).1 (splitParams path0).2
            = (p.1 ++ '/' :: a1) ++ ';' :: a2 := by
          rw [key]
          exact joinParams_pos _ ha2
        rw [hjv] at hu
        rcases hu with rfl | rfl
        · rw [List.append_assoc, List.cons_append]
          have h1 := splitAtLastSlash_mk p.1 hnoseg
          have key2 := splitParams_eq_a h1 (splitOnce_append a2 hna)
          rw [key2, joinParams_pos _ ha2, List.append_assoc, List.cons_append]
        · rw [List.append_assoc, List.cons_append]
          have h1 : splitAtLastSlash ('/' :: (p.1 ++ '/' :: (a1 ++ ';' :: a2)))
              = some ('/' :: p.1, a1 ++ ';' :: a2) := by
            have h0 := splitAtLastSlash_mk ('/' :: p.1) hnoseg
            rw [List.cons_append] at h0
            exact h0
          have key2 := splitParams_eq_a h1 (splitOnce_append a2 hna)
          rw [key2, joinParams_pos _ ha2]
          simp
    | none =>
      have key := splitParams_eq_b hsl' hso
      obtain ⟨hq, hnq⟩ := (splitOnce_spec p.2).2 a1 hso
      have hnq2 : ';' ∉ p.2 := by
        rw [hq]
        exact hnq
      have hjv : joinParams (splitParams path0).1 (splitParams path0).2 = path0 := by
        rw [key]
        exact joinParams_nil _
      rw [hjv] at hu
      rcases hu with rfl | rfl
      · rw [hdec]
        have h1 := splitAtLastSlash_mk p.1 hnsl
        have key2 := splitParams_eq_b h1 (splitOnce_no_sep hnq2)
        rw [key2]
        exact joinParams_nil _
      · rw [hdec]
        have h1 : splitAtLastSlash ('/' :: (p.1 ++ '/' :: p.2)) = some ('/' :: p.1, p.2) := by
          have h0 := splitAtLastSlash_mk ('/' :: p.1) hnsl
          rw [List.cons_append] at h0
          exact h0
        have key2 := splitParams_eq_b h1 (splitOnce_no_sep hnq2)
        rw [key2]
        exact joinParams_nil _
  | none =>
    have hnsl0 : '/' ∉ path0 := splitAtLastSlash_none hsl
    rcases hso : splitOnce ';' path0 with ⟨u1, o⟩
    cases o with
    | some u2 =>
      have key := splitParams_eq_c hsl hso
      obtain ⟨hdec, hnu⟩ := (splitOnce_spec path0).1 u1 u2 hso
      have hnu1 : '/' ∉ u1 := fun hm => hnsl0 (by rw [hdec]; exact List.mem_append.mpr (Or.inl hm))
      have hnu2 : '/' ∉ u2 := fun hm => hnsl0
        (by rw [hdec]; exact List.mem_append.mpr (Or.inr (List.mem_cons_of_mem _ hm)))
      have hnoj : '/' ∉ u1 ++ ';' :: u2 := by
        rw [← hdec]
        exact hnsl0
      by_cases hu2 : u2 = []
      · exfalso
        subst hu2
        have hjv : joinParams (splitParams path0).1 (splitParams path0).2 = u1 := by
          rw [key]
          exact joinParams_nil _
        rw [hjv] at hu
        rcases hu with rfl | rfl
        · exact hnu hsemi
        · rcases List.mem_cons.mp hsemi with h1 | h1
          · exact absurd h1 (by decide)
          · exact hnu h1
      · have hjv : joinParams (splitParams path0).1 (splitParams path0).2 = u1 ++ ';' :: u2 := by
          rw [key]
          exact joinParams_pos _ hu2
        rw [hjv] at hu
        rcases hu with rfl | rfl
        · have h1 := splitAtLastSlash_eq_none hnoj
          have key2 := splitParams_eq_c h1 (splitOnce_append u2 hnu)
          rw [key2]
          exact joinParams_pos _ hu2
        · have h1 : splitAtLastSlash ('/' :: (u1 ++ ';' :: u2)) = some ([], u1 ++ ';' :: u2) := by
            have h0 := splitAtLastSlash_mk [] hnoj
            rw [List.nil_append] at h0
            exact h0
          have key2 := splitParams_eq_a h1 (splitOnce_append u2 hnu)
          rw [key2, joinParams_pos _ hu2]
          rw [List.nil_append, List.cons_append]
    | none =>
      exfalso
      obtain ⟨hq, hnq⟩ := (splitOnce_spec path0).2 u1 hso
      rw [← hq] at hnq
      exact hnq hb.2

theorem isAlwaysSafe_iff (c : Char) :
    isAlwaysSafe c = true
      ↔ isAsciiAlphaB c = true ∨ isAsciiDigitB c = true
        ∨ c = '_' ∨ c = '.' ∨ c = '-' ∨ c = '~' := by
  unfold isAlwaysSafe
  simp only [decide_eq_true_eq]

theorem isAlwaysSafe_toNat {c : Char} (h : isAlwaysSafe c = true) :
    c.toNat = 45 ∨ c.toNat = 46 ∨ (48 ≤ c.toNat ∧ c.toNat ≤ 57)
      ∨ (65 ≤ c.toNat ∧ c.toNat ≤ 90) ∨ c.toNat = 95
      ∨ (97 ≤ c.toNat ∧ c.toNat ≤ 122) ∨ c.toNat = 126 := by
  rcases (isAlwaysSafe_iff c).mp h with ha | hd | rfl | rfl | rfl | rfl
  · rcases (isAsciiAlphaB_iff c).mp ha with h1 | h1
    · omega
    · omega
  · have h1 := (isAsciiDigitB_iff c).mp hd
    omega
  · decide
  · decide
  · decide
  · decide

theorem hexDigitUpper_toNat {n : Nat} (h : n < 16) :
    (hexDigitUpper n).toNat = if n < 10 then 48 + n else 55 + n := by
  unfold hexDigitUpper
  split_ifs with h1
  · exact toNat_ofNat_lt (by omega)
  · exact toNat_ofNat_lt (by omega)

theorem hexVal_hexDigitUpper {n : Nat} (h : n < 16) : hexVal (hexDigitUpper n) = some n := by
  by_cases h1 : n < 10
  · have ht : (hexDigitUpper n).toNat = 48 + n := by
      rw [hexDigitUpper_toNat h, if_pos h1]
    unfold hexVal
    rw [ht, if_pos (by omega)]
    congr 1
    omega
  · have ht : (hexDigitUpper n).toNat = 55 + n := by
      rw [hexDigitUpper_toNat h, if_neg h1]
    unfold hexVal
    rw [ht, if_neg (by omega), if_neg (by omega), if_pos (by omega)]
    congr 1
    omega

theorem isAlwaysSafe_hexDigitUpper {n : Nat} (h : n < 16) :
    isAlwaysSafe (hexDigitUpper n) = true := by
  refine (isAlwaysSafe_iff _).mpr ?_
  by_cases h1 : n < 10
  · refine Or.inr (Or.inl ((isAsciiDigitB_iff _).mpr ?_))
    rw [hexDigitUpper_toNat h, if_pos h1]
    omega
  · refine Or.inl ((isAsciiAlphaB_iff _).mpr (Or.inl ?_))
    rw [hexDigitUpper_toNat h, if_neg h1]
    omega

theorem utf8EncodeChar_toNat_lt (c : Char) : c.toNat < 1114112 := by
  rcases char_valid_cases c with h | ⟨_, h2⟩
  · omega
  · exact h2

theorem utf8EncodeChar_ascii {c : Char} (h : c.toNat < 128) : utf8EncodeChar c = [c.toNat] := by
  unfold utf8EncodeChar
  rw [if_pos h]

theorem utf8EncodeChar_two {c : Char} (h1 : 128 ≤ c.toNat) (h2 : c.toNat < 2048) :
    utf8EncodeChar c = [192 + c.toNat / 64, 128 + c.toNat % 64] := by
  unfold utf8EncodeChar
  rw [if_neg (by omega), if_pos (by omega)]

theorem utf8EncodeChar_three {c : Char} (h1 : 2048 ≤ c.toNat) (h2 : c.toNat < 65536) :
    utf8EncodeChar c
      = [224 + c.toNat / 4096, 128 + (c.toNat / 64) % 64, 128 + c.toNat % 64] := by
  unfold utf8EncodeChar
  rw [if_neg (by omega), if_neg (by omega), if_pos (by omega)]

theorem utf8EncodeChar_four {c : Char} (h1 : 65536 ≤ c.toNat) :
    utf8EncodeChar c
      = [240 + c.toNat / 262144, 128 + (c.toNat / 4096) % 64,
         128 + (c.toNat / 64) % 64, 128 + c.toNat % 64] := by
  unfold utf8EncodeChar
  rw [if_neg (by omega), if_neg (by omega), if_neg (by omega)]

theorem utf8EncodeChar_lt_256 (c : Char) : ∀ b ∈ utf8EncodeChar c, b < 256 := by
  intro b hb
  have hlt := utf8EncodeChar_toNat_lt c
  by_cases h1 : c.toNat < 128
  · rw [utf8EncodeChar_ascii h1] at hb
    simp only [List.mem_singleton] at hb
    omega
  · by_cases h2 : c.toNat < 2048
    · rw [utf8EncodeChar_two (by omega) h2] at hb
      simp only [List.mem_cons, List.not_mem_nil, or_false] at hb
      rcases hb with rfl | rfl <;> omega
    · by_cases h3 : c.toNat < 65536
      · rw [utf8EncodeChar_three (by omega) h3] at hb
        simp only [List.mem_cons, List.not_mem_nil, or_false] at hb
        rcases hb with rfl | rfl | rfl <;> omega
      · rw [utf8EncodeChar_four (by omega)] at hb
        simp only [List.mem_cons, List.not_mem_nil, or_false] at hb
        rcases hb with rfl | rfl | rfl | rfl <;> omega

theorem utf8EncodeChar_ne_nil (c : Char) : utf8EncodeChar c ≠ [] := by
  by_cases h1 : c.toNat < 128
  · rw [utf8EncodeChar_ascii h1]
    simp
  · by_cases h2 : c.toNat < 2048
    · rw [utf8EncodeChar_two (by omega) h2]
      simp
    · by_cases h3 : c.toNat < 65536
      · rw [utf8EncodeChar_three (by omega) h3]
        simp
      · rw [utf8EncodeChar_four (by omega)]
        simp

theorem quoteChar_safe {c : Char} (h : isAlwaysSafe c = true) : quoteChar c = [c] := by
  unfold quoteChar
  rw [if_pos h]

theorem quoteChar_escaped {c : Char} (h : isAlwaysSafe c = false) :
    quoteChar c = ((utf8EncodeChar c).map
      (fun b => ['%', hexDigitUpper (b / 16), hexDigitUpper (b % 16)])).join := by
  unfold quoteChar
  rw [if_neg (by simp [h])]

theorem quotePlus_nil : quotePlus [] = [] := rfl

theorem quotePlus_cons (c : Char) (s : Chars) :
    quotePlus (c :: s) = quotePlusChar c ++ quotePlus s := rfl

theorem mem_quotePlusChar {c d : Char} (h : d ∈ quotePlusChar c) :
    isAlwaysSafe d = true ∨ d = '+' ∨ d = '%' := by
  unfold quotePlusChar at h
  split_ifs at h with h1
  · simp only [List.mem_singleton] at h
    exact Or.inr (Or.inl h)
  · unfold quoteChar at h
    split_ifs at h with h2
    · simp only [List.mem_singleton] at h
      subst h
      exact Or.inl h2
    · obtain ⟨l, hl, hd⟩ := List.mem_join.mp h
      obtain ⟨b, hb, rfl⟩ := List.mem_map.mp hl
      have h256 := utf8EncodeChar_lt_256 c b hb
      rcases List.mem_cons.mp hd with rfl | hd2
      · exact Or.inr (Or.inr rfl)
      rcases List.mem_cons.mp hd2 with rfl | hd3
      · exact Or.inl (isAlwaysSafe_hexDigitUpper (by omega))
      rcases List.mem_cons.mp hd3 with rfl | hd4
      · exact Or.inl (isAlwaysSafe_hexDigitUpper (by omega))
      · exact absurd hd4 (List.not_mem_nil _)

theorem mem_quotePlus {s : Chars} {d : Char} (h : d ∈ quotePlus s) :
    isAlwaysSafe d = true ∨ d = '+' ∨ d = '%' := by
  unfold quotePlus at h
  obtain ⟨l, hl, hd⟩ := List.mem_join.mp h
  obtain ⟨c, _, rfl⟩ := List.mem_map.mp hl
  exact mem_quotePlusChar hd

theorem quotePlus_char_bounds {d : Char} (h : isAlwaysSafe d = true ∨ d = '+' ∨ d = '%') :
    32 < d.toNat ∧ d.toNat < 128 := by
  rcases h with hs | rfl | rfl
  · have := isAlwaysSafe_toNat hs
    omega
  · decide
  · decide

theorem quotePlus_char_ne {d : Char} (h : isAlwaysSafe d = true ∨ d = '+' ∨ d = '%') :
    ¬ d = '&' ∧ ¬ d = '=' ∧ ¬ d = '#' ∧ ¬ d = '?' ∧ ¬ d = ':' ∧ ¬ d = ';' ∧ ¬ d = '/' := by
  rcases h with hs | rfl | rfl
  · have ht := isAlwaysSafe_toNat hs
    refine ⟨?_, ?_, ?_, ?_, ?_, ?_, ?_⟩ <;>
      · intro he
        subst he
        revert ht
        decide
  · decide
  · decide

theorem percentBytes_cons_ne {c : Char} (rest : Chars) (h : ¬ c = '%') :
    percentBytes (c :: rest) = c.toNat :: percentBytes rest := by
  conv_lhs => unfold percentBytes
  rw [if_neg h]

theorem isCont_iff (b : Nat) : isCont b = true ↔ 128 ≤ b ∧ b ≤ 191 := by
  unfold isCont
  simp only [decide_eq_true_eq]

theorem utf8Decode_one {b : Nat} (bs : List Nat) (h : b < 128) :
    utf8DecodeReplace (b :: bs) = Char.ofNat b :: utf8DecodeReplace bs := by
  conv_lhs => unfold utf8DecodeReplace
  rw [if_pos h]

theorem utf8Decode_two {b b2 : Nat} (bs : List Nat)
    (h1 : 194 ≤ b) (h2 : b < 224) (hc : isCont b2 = true) :
    utf8DecodeReplace (b :: b2 :: bs)
      = Char.ofNat ((b - 192) * 64 + (b2 - 128)) :: utf8DecodeReplace bs := by
  conv_lhs => unfold utf8DecodeReplace
  rw [if_neg (by omega), if_neg (by omega), if_pos h2]
  show (if isCont b2 = true
        then Char.ofNat ((b - 192) * 64 + (b2 - 128)) :: utf8DecodeReplace bs
        else Char.ofNat 65533 :: utf8DecodeReplace (b2 :: bs)) = _
  rw [if_pos hc]

theorem utf8Decode_three {b b2 b3 : Nat} (bs : List Nat)
    (h1 : 224 ≤ b) (h2 : b < 240)
    (hg : if b = 224 then 160 ≤ b2 ∧ b2 ≤ 191
          else if b = 237 then 128 ≤ b2 ∧ b2 ≤ 159
          else isCont b2 = true)
    (hc3 : isCont b3 = true) :
    utf8DecodeReplace (b :: b2 :: b3 :: bs)
      = Char.ofNat ((b - 224) * 4096 + (b2 - 128) * 64 + (b3 - 128))
          :: utf8DecodeReplace bs := by
  conv_lhs => unfold utf8DecodeReplace
  rw [if_neg (by omega), if_neg (by omega), if_neg (by omega), if_pos h2]
  show (if (if b = 224 then 160 ≤ b2 ∧ b2 ≤ 191
            else if b = 237 then 128 ≤ b2 ∧ b2 ≤ 159
            else isCont b2 = true)
        then match b3 :: bs with
             | [] => [Char.ofNat 65533]
             | b3 :: bs3 =>
               if isCont b3 then
                 Char.ofNat ((b - 224) * 4096 + (b2 - 128) * 64 + (b3 - 128))
                   :: utf8DecodeReplace bs3
               else Char.ofNat 65533 :: utf8DecodeReplace (b3 :: bs3)
        else Char.ofNat 65533 :: utf8DecodeReplace (b2 :: b3 :: bs)) = _
  rw [if_pos hg]
  show (if isCont b3 = true
        then Char.ofNat ((b - 224) * 4096 + (b2 - 128) * 64 + (b3 - 128))
               :: utf8DecodeReplace bs
        else Char.ofNat 65533 :: utf8DecodeReplace (b3 :: bs)) = _
  rw [if_pos hc3]

theorem utf8Decode_four {b b2 b3 b4 : Nat} (bs : List Nat)
    (h1 : 240 ≤ b) (h2 : b < 245)
    (hg : if b = 240 then 144 ≤ b2 ∧ b2 ≤ 191
          else if b = 244 then 128 ≤ b2 ∧ b2 ≤ 143
          else isCont b2 = true)
    (hc3 : isCont b3 = true) (hc4 : isCont b4 = true) :
    utf8DecodeReplace (b :: b2 :: b3 :: b4 :: bs)
      = Char.ofNat ((b - 240) * 262144 + (b2 - 128) * 4096 + (b3 - 128) * 64 + (b4 - 128))
          :: utf8DecodeReplace bs := by
  conv_lhs => unfold utf8DecodeReplace
  rw [if_neg (by omega), if_neg (by omega), if_neg (by omega), if_neg (by omega), if_pos h2]
  show (if (if b = 240 then 144 ≤ b2 ∧ b2 ≤ 191
            else if b = 244 then 128 ≤ b2 ∧ b2 ≤ 143
            else isCont b2 = true)
        then match b3 :: b4 :: bs with
             | [] => [Char.ofNat 65533]
             | b3 :: bs3 =>
               if isCont b3 then
                 match bs3 with
                 | [] => [Char.ofNat 65533]
                 | b4 :: bs4 =>
                   if isCont b4 then
                     Char.ofNat ((b - 240) * 262144 + (b2 - 128) * 4096
                       + (b3 - 128) * 64 + (b4 - 128)) :: utf8DecodeReplace bs4
                   else Char.ofNat 65533 :: utf8DecodeReplace (b4 :: bs4)
               else Char.ofNat 65533 :: utf8DecodeReplace (b3 :: bs3)
        else Char.ofNat 65533 :: utf8DecodeReplace (b2 :: b3 :: b4 :: bs)) = _
  rw [if_pos hg]
  show (if isCont b3 = true
        then match b4 :: bs with
             | [] => [Char.ofNat 65533]
             | b4 :: bs4 =>
               if isCont b4 then
                 Char.ofNat ((b - 240) * 262144 + (b2 - 128) * 4096
                   + (b3 - 128) * 64 + (b4 - 128)) :: utf8DecodeReplace bs4
               else Char.ofNat 65533 :: utf8DecodeReplace (b4 :: bs4)
        else Char.ofNat 65533 :: utf8DecodeReplace (b3 :: b4 :: bs)) = _
  rw [if_pos hc3]
  show (if isCont b4 = true
        then Char.ofNat ((b - 240) * 262144 + (b2 - 128) * 4096
               + (b3 - 128) * 64 + (b4 - 128)) :: utf8DecodeReplace bs
        else Char.ofNat 65533 :: utf8DecodeReplace (b4 :: bs)) = _
  rw [if_pos hc4]

theorem utf8Decode_encode_char (c : Char) (bs : List Nat) :
    utf8DecodeReplace (utf8EncodeChar c ++ bs) = c :: utf8DecodeReplace bs := by
  have hv := char_valid_cases c
  by_cases h1 : c.toNat < 128
  · rw [utf8EncodeChar_ascii h1, List.cons_append, List.nil_append, utf8Decode_one bs h1,
      Char.ofNat_toNat]
  · by_cases h2 : c.toNat < 2048
    · rw [utf8EncodeChar_two (by omega) h2]
      show utf8DecodeReplace (_ :: _ :: bs) = _
      rw [utf8Decode_two bs (by omega) (by omega) ((isCont_iff _).mpr (by omega))]
      have harg : (192 + c.toNat / 64 - 192) * 64 + (128 + c.toNat % 64 - 128) = c.toNat := by
        omega
      rw [harg, Char.ofNat_toNat]
    · by_cases h3 : c.toNat < 65536
      · rw [utf8EncodeChar_three (by omega) h3]
        show utf8DecodeReplace (_ :: _ :: _ :: bs) = _
        rw [utf8Decode_three bs (by omega) (by omega) ?hg ((isCont_iff _).mpr (by omega))]
        case hg =>
          by_cases hb224 : 224 + c.toNat / 4096 = 224
          · rw [if_pos hb224]
            omega
          · rw [if_neg hb224]
            by_cases hb237 : 224 + c.toNat / 4096 = 237
            · rw [if_pos hb237]
              omega
            · rw [if_neg hb237]
              exact (isCont_iff _).mpr (by omega)
        have harg : (224 + c.toNat / 4096 - 224) * 4096 + (128 + c.toNat / 64 % 64 - 128) * 64
            + (128 + c.toNat % 64 - 128) = c.toNat := by
          omega
        rw [harg, Char.ofNat_toNat]
      · rw [utf8EncodeChar_four (by omega)]
        show utf8DecodeReplace (_ :: _ :: _ :: _ :: bs) = _
        rw [utf8Decode_four bs (by omega) (by omega) ?hg
          ((isCont_iff _).mpr (by omega)) ((isCont_iff _).mpr (by omega))]
        case hg =>
          by_cases hb240 : 240 + c.toNat / 262144 = 240
          · rw [if_pos hb240]
            omega
          · rw [if_neg hb240]
            by_cases hb244 : 240 + c.toNat / 262144 = 244
            · rw [if_pos hb244]
              omega
            · rw [if_neg hb244]
              exact (isCont_iff _).mpr (by omega)
        have harg : (240 + c.toNat / 262144 - 240) * 262144
            + (128 + c.toNat / 4096 % 64 - 128) * 4096
            + (128 + c.toNat / 64 % 64 - 128) * 64 + (128 + c.toNat % 64 - 128) = c.toNat := by
          omega
        rw [harg, Char.ofNat_toNat]

theorem utf8Decode_encode (ks : Chars) :
    utf8DecodeReplace ((ks.map utf8EncodeChar).join) = ks := by
  induction ks with
  | nil => rfl
  | cons c ks ih =>
    rw [List.map_cons]
    show utf8DecodeReplace (utf8EncodeChar c ++ (List.map utf8EncodeChar ks).join) = c :: ks
    rw [utf8Decode_encode_char, ih]

theorem join_cons_eq {α : Type} (a : List α) (l : List (List α)) :
    (a :: l).join = a ++ l.join := rfl

theorem percentBytes_quoted {c1 c2 : Char} {h1 h2 : Nat} (rest2 : Chars)
    (e1 : hexVal c1 = some h1) (e2 : hexVal c2 = some h2) :
    percentBytes ('%' :: c1 :: c2 :: rest2) = (h1 * 16 + h2) :: percentBytes rest2 := by
  conv_lhs => unfold percentBytes
  rw [if_pos rfl]
  show (match hexVal c1, hexVal c2 with
        | some g1, some g2 => (g1 * 16 + g2) :: percentBytes rest2
        | _, _ => 37 :: percentBytes (c1 :: c2 :: rest2)) = _
  rw [e1, e2]

theorem percentBytes_triples {bs : List Nat} (hbs : ∀ b ∈ bs, b < 256) (rest : Chars) :
    percentBytes
        ((bs.map (fun b => ['%', hexDigitUpper (b / 16), hexDigitUpper (b % 16)])).join ++ rest)
      = bs ++ percentBytes rest := by
  induction bs with
  | nil => rfl
  | cons b bs ih =>
    have hb := hbs b (List.mem_cons_self _ _)
    rw [List.map_cons, join_cons_eq, List.append_assoc]
    rw [List.cons_append, List.cons_append, List.cons_append, List.nil_append]
    rw [percentBytes_quoted _ (hexVal_hexDigitUpper (by omega)) (hexVal_hexDigitUpper (by omega))]
    rw [ih (fun x hx => hbs x (List.mem_cons_of_mem _ hx))]
    have : b / 16 * 16 + b % 16 = b := by omega
    rw [this]
    rfl

theorem plusToSpace_append (a b : Chars) :
    plusToSpace (a ++ b) = plusToSpace a ++ plusToSpace b := by
  unfold plusToSpace
  exact List.map_append _ a b

theorem plusToSpace_eq_self {s : Chars} (h : '+' ∉ s) : plusToSpace s = s := by
  unfold plusToSpace
  have he : ∀ c ∈ s, (if c = '+' then ' ' else c) = c :=
    fun c hc => if_neg (fun hp => h (by rw [← hp]; exact hc))
  rw [List.map_congr_left he]
  exact List.map_id s

theorem plus_not_mem_quoteChar (c : Char) : '+' ∉ quoteChar c := by
  intro hm
  unfold quoteChar at hm
  split_ifs at hm with h
  · simp only [List.mem_singleton] at hm
    rw [← hm] at h
    exact absurd h (by decide)
  · obtain ⟨l, hl, hd⟩ := List.mem_join.mp hm
    obtain ⟨b, hb, rfl⟩ := List.mem_map.mp hl
    have h256 := utf8EncodeChar_lt_256 c b hb
    rcases List.mem_cons.mp hd with he | hd2
    · exact absurd he (by decide)
    rcases List.mem_cons.mp hd2 with he | hd3
    · have : isAlwaysSafe (hexDigitUpper (b / 16)) = true :=
        isAlwaysSafe_hexDigitUpper (by omega)
      rw [← he] at this
      exact absurd this (by decide)
    rcases List.mem_cons.mp hd3 with he | hd4
    · have : isAlwaysSafe (hexDigitUpper (b % 16)) = true :=
        isAlwaysSafe_hexDigitUpper (by omega)
      rw [← he] at this
      exact absurd this (by decide)
    · exact absurd hd4 (List.not_mem_nil _)

theorem plusToSpace_quotePlusChar (c : Char) :
    plusToSpace (quotePlusChar c) = if c = ' ' then [' '] else quoteChar c := by
  by_cases h : c = ' '
  · subst h
    rfl
  · rw [if_neg h]
    unfold quotePlusChar
    rw [if_neg h]
    exact plusToSpace_eq_self (plus_not_mem_quoteChar c)

theorem plusToSpace_quotePlus (k : Chars) :
    plusToSpace (quotePlus k)
      = (k.map (fun c => if c = ' ' then [' '] else quoteChar c)).join := by
  induction k with
  | nil => rfl
  | cons c ks ih =>
    rw [quotePlus_cons, plusToSpace_append, ih, List.map_cons, join_cons_eq,
      plusToSpace_quotePlusChar]

theorem mem_quoteSp_join {k : Chars} {d : Char}
    (h : d ∈ (k.map (fun c => if c = ' ' then [' '] else quoteChar c)).join) :
    isAlwaysSafe d = true ∨ d = '%' ∨ d = ' ' := by
  obtain ⟨l, hl, hd⟩ := List.mem_join.mp h
  obtain ⟨c, _, rfl⟩ := List.mem_map.mp hl
  by_cases hsp : c = ' '
  · rw [if_pos hsp] at hd
    simp only [List.mem_singleton] at hd
    exact Or.inr (Or.inr hd)
  · rw [if_neg hsp] at hd
    unfold quoteChar at hd
    split_ifs at hd with hs
    · simp only [List.mem_singleton] at hd
      subst hd
      exact Or.inl hs
    · obtain ⟨l2, hl2, hd2⟩ := List.mem_join.mp hd
      obtain ⟨b, hb, rfl⟩ := List.mem_map.mp hl2
      have h256 := utf8EncodeChar_lt_256 c b hb
      rcases List.mem_cons.mp hd2 with rfl | hd3
      · exact Or.inr (Or.inl rfl)
      rcases List.mem_cons.mp hd3 with rfl | hd4
      · exact Or.inl (isAlwaysSafe_hexDigitUpper (by omega))
      rcases List.mem_cons.mp hd4 with rfl | hd5
      · exact Or.inl (isAlwaysSafe_hexDigitUpper (by omega))
      · exact absurd hd5 (List.not_mem_nil _)

theorem quoteSp_join_no_percent {k : Chars}
    (hp : '%' ∉ (k.map (fun c => if c = ' ' then [' '] else quoteChar c)).join) :
    (k.map (fun c => if c = ' ' then [' '] else quoteChar c)).join = k := by
  induction k with
  | nil => rfl
  | cons c ks ih =>
    rw [List.map_cons, join_cons_eq] at hp ⊢
    have hp1 : '%' ∉ (if c = ' ' then [' '] else quoteChar c) :=
      fun hm => hp (List.mem_append.mpr (Or.inl hm))
    have hp2 : '%' ∉ (ks.map (fun c => if c = ' ' then [' '] else quoteChar c)).join :=
      fun hm => hp (List.mem_append.mpr (Or.inr hm))
    rw [ih hp2]
    have hone : (if c = ' ' then [' '] else quoteChar c) = [c] := by
      by_cases hsp : c = ' '
      · subst hsp
        rfl
      · rw [if_neg hsp]
        by_cases hsafe : isAlwaysSafe c = true
        · exact quoteChar_safe hsafe
        · exfalso
          have hf : isAlwaysSafe c = false := by
            cases hb : isAlwaysSafe c
            · rfl
            · exact absurd hb hsafe
          rw [if_neg hsp] at hp1
          rw [quoteChar_escaped hf] at hp1
          apply hp1
          cases he : utf8EncodeChar c with
          | nil => exact absurd he (utf8EncodeChar_ne_nil c)
          | cons b bs =>
            rw [List.map_cons, join_cons_eq]
            exact List.mem_append.mpr (Or.inl (List.mem_cons_self _ _))
    rw [hone]
    rfl

theorem spanAscii_all {s : Chars} (hall : ∀ c ∈ s, isAsciiCharB c = true) :
    spanAscii s = (s, []) := by
  induction s with
  | nil => rfl
  | cons c rest ih =>
    show (if isAsciiCharB c then
            let p := spanAscii rest
            (c :: p.1, p.2)
          else ([], c :: rest)) = (c :: rest, [])
    rw [if_pos (hall c (List.mem_cons_self _ _)), ih (fun d hd => hall d (List.mem_cons_of_mem _ hd))]

theorem unquoteRunsF_nil (f : Nat) : unquoteRunsF f [] = [] := by
  cases f with
  | zero => rfl
  | succ g => rfl

theorem unquoteRunsF_ascii {x : Chars} (hx : x ≠ []) (hall : ∀ c ∈ x, isAsciiCharB c = true) :
    unquoteRunsF x.length x = utf8DecodeReplace (percentBytes x) := by
  cases x with
  | nil => exact absurd rfl hx
  | cons c rest =>
    show unquoteRunsF (rest.length + 1) (c :: rest) = _
    conv_lhs => unfold unquoteRunsF
    rw [if_pos (hall c (List.mem_cons_self _ _))]
    rw [spanAscii_all hall]
    show utf8DecodeReplace (percentBytes (c :: rest)) ++ unquoteRunsF rest.length [] = _
    rw [unquoteRunsF_nil]
    exact List.append_nil _

theorem percentBytes_quoteSp_char (c : Char) (rest : Chars) :
    percentBytes ((if c = ' ' then [' '] else quoteChar c) ++ rest)
      = utf8EncodeChar c ++ percentBytes rest := by
  by_cases hsp : c = ' '
  · subst hsp
    rw [if_pos rfl, utf8EncodeChar_ascii (by decide), List.cons_append, List.nil_append]
    rw [percentBytes_cons_ne rest (by decide)]
    rfl
  · by_cases hsafe : isAlwaysSafe c = true
    · rw [if_neg hsp, quoteChar_safe hsafe, List.cons_append, List.nil_append]
      rw [percentBytes_cons_ne rest (fun he => by rw [he] at hsafe; exact absurd hsafe (by decide))]
      rw [utf8EncodeChar_ascii (by have := isAlwaysSafe_toNat hsafe; omega)]
      rfl
    · have hf : isAlwaysSafe c = false := by
        cases hb : isAlwaysSafe c
        · rfl
        · exact absurd hb hsafe
      rw [if_neg hsp, quoteChar_escaped hf]
      exact percentBytes_triples (utf8EncodeChar_lt_256 c) rest

theorem percentBytes_quoteSp (k : Chars) :
    percentBytes ((k.map (fun c => if c = ' ' then [' '] else quoteChar c)).join)
      = (k.map utf8EncodeChar).join := by
  induction k with
  | nil => rfl
  | cons c ks ih =>
    rw [List.map_cons, join_cons_eq, percentBytes_quoteSp_char, ih]
    rw [List.map_cons, join_cons_eq]

theorem unqField_quotePlus (k : Chars) : unqField (quotePlus k) = k := by
  unfold unqField
  rw [plusToSpace_quotePlus]
  unfold unquoteChars
  by_cases hp : '%' ∈ (k.map (fun c => if c = ' ' then [' '] else quoteChar c)).join
  · rw [if_pos hp]
    have hne : (k.map (fun c => if c = ' ' then [' '] else quoteChar c)).join ≠ [] := by
      intro he
      rw [he] at hp
      exact absurd hp (List.not_mem_nil _)
    rw [unquoteRunsF_ascii hne (fun d hd => ?hasc)]
    case hasc =>
      have := mem_quoteSp_join hd
      unfold isAsciiCharB
      refine decide_eq_true ?_
      rcases this with hs | rfl | rfl
      · have := isAlwaysSafe_toNat hs
        omega
      · decide
      · decide
    rw [percentBytes_quoteSp, utf8Decode_encode]
  · rw [if_neg hp]
    exact quoteSp_join_no_percent hp

theorem qslPair_field (k v : Chars) :
    qslPair (quotePlus k ++ '=' :: quotePlus v) = some (k, v) := by
  unfold qslPair
  rw [if_neg (by simp)]
  have hnm : '=' ∉ quotePlus k := fun hm => ((quotePlus_char_ne (mem_quotePlus hm)).2.1) rfl
  rw [splitOnce_append _ hnm]
  show some (unqField (quotePlus k), unqField (quotePlus v)) = some (k, v)
  rw [unqField_quotePlus, unqField_quotePlus]

theorem filterMap_qslPair_fields (m : List (Chars × Chars)) :
    (m.map (fun kv => quotePlus kv.1 ++ '=' :: quotePlus kv.2)).filterMap qslPair = m := by
  induction m with
  | nil => rfl
  | cons kv m' ih =>
    rw [List.map_cons, List.filterMap_cons, qslPair_field kv.1 kv.2]
    show (kv.1, kv.2) :: (m'.map (fun kv => quotePlus kv.1 ++ '=' :: quotePlus kv.2)).filterMap
      qslPair = kv :: m'
    rw [ih]

theorem joinChar_ne_nil {sep : Char} {fs : List Chars} (h1 : fs ≠ [])
    (h2 : ∀ f ∈ fs, f ≠ []) : joinChar sep fs ≠ [] := by
  cases fs with
  | nil => exact absurd rfl h1
  | cons f fs' =>
    cases fs' with
    | nil => exact h2 f (List.mem_cons_self _ _)
    | cons f2 fs2 =>
      rw [joinChar_cons_cons]
      simp

theorem parse_qsl_urlencode (m : List (Chars × Chars)) :
    parse_qsl (urlencode m) = m := by
  cases m with
  | nil => rfl
  | cons kv m' =>
    unfold parse_qsl urlencode
    have hfne : ∀ f ∈ (kv :: m').map (fun kv => quotePlus kv.1 ++ '=' :: quotePlus kv.2),
        f ≠ [] := by
      intro f hf
      obtain ⟨p, _, rfl⟩ := List.mem_map.mp hf
      simp
    have hnoamp : ∀ f ∈ (kv :: m').map (fun kv => quotePlus kv.1 ++ '=' :: quotePlus kv.2),
        '&' ∉ f := by
      intro f hf hm
      obtain ⟨p, _, rfl⟩ := List.mem_map.mp hf
      rcases List.mem_append.mp hm with h1 | h2
      · exact (quotePlus_char_ne (mem_quotePlus h1)).1 rfl
      · rcases List.mem_cons.mp h2 with he | h3
        · exact absurd he (by decide)
        · exact (quotePlus_char_ne (mem_quotePlus h3)).1 rfl
    rw [if_neg (joinChar_ne_nil (by simp) hfne)]
    rw [splitOnChar_joinChar _ (by simp) hnoamp]
    exact filterMap_qslPair_fields (kv :: m')

theorem qdictInsert_fresh {k : Chars} (v : Chars) {acc : List (Chars × Chars)}
    (h : ∀ q ∈ acc, q.1 ≠ k) : qdictInsert k v acc = acc ++ [(k, v)] := by
  induction acc with
  | nil => rfl
  | cons q rest ih =>
    rw [qdictInsert_cons, if_neg (h q (List.mem_cons_self _ _))]
    rw [ih (fun r hr => h r (List.mem_cons_of_mem _ hr))]
    rfl

theorem mem_qdictInsert {k v : Chars} {m : List (Chars × Chars)} {q : Chars × Chars}
    (h : q ∈ qdictInsert k v m) : q.1 = k ∨ q ∈ m := by
  induction m with
  | nil =>
    simp only [qdictInsert, List.mem_singleton] at h
    subst h
    exact Or.inl rfl
  | cons p rest ih =>
    rw [qdictInsert_cons] at h
    split_ifs at h with hp
    · rcases List.mem_cons.mp h with rfl | h1
      · exact Or.inl hp
      · exact Or.inr (List.mem_cons_of_mem _ h1)
    · rcases List.mem_cons.mp h with rfl | h1
      · exact Or.inr (List.mem_cons_self _ _)
      · rcases ih h1 with h2 | h2
        · exact Or.inl h2
        · exact Or.inr (List.mem_cons_of_mem _ h2)

theorem qdictInsert_pairwise {k v : Chars} {m : List (Chars × Chars)}
    (h : m.Pairwise (fun a b => a.1 ≠ b.1)) :
    (qdictInsert k v m).Pairwise (fun a b => a.1 ≠ b.1) := by
  induction m with
  | nil => exact List.pairwise_singleton _ _
  | cons p rest ih =>
    obtain ⟨hhd, htl⟩ := List.pairwise_cons.mp h
    rw [qdictInsert_cons]
    split_ifs with hp
    · exact List.pairwise_cons.mpr ⟨fun b hb => hhd b hb, htl⟩
    · refine List.pairwise_cons.mpr ⟨?_, ih htl⟩
      intro b hb
      rcases mem_qdictInsert hb with h1 | h1
      · rw [h1]
        exact hp
      · exact hhd b h1

theorem toDict_aux_fresh :
    ∀ (m acc : List (Chars × Chars)),
      m.Pairwise (fun a b => a.1 ≠ b.1) →
      (∀ q ∈ acc, ∀ r ∈ m, q.1 ≠ r.1) →
      m.foldl (fun d kv => qdictInsert kv.1 kv.2 d) acc = acc ++ m := by
  intro m
  induction m with
  | nil =>
    intro acc _ _
    simp
  | cons kv m' ih =>
    intro acc hpw hfresh
    rw [List.foldl_cons]
    obtain ⟨hhd, htl⟩ := List.pairwise_cons.mp hpw
    have hq : qdictInsert kv.1 kv.2 acc = acc ++ [kv] :=
      qdictInsert_fresh kv.2 (fun q hq => hfresh q hq kv (List.mem_cons_self _ _))
    rw [hq]
    rw [ih (acc ++ [kv]) htl ?hfr]
    case hfr =>
      intro q hq r hr
      rcases List.mem_append.mp hq with h1 | h1
      · exact hfresh q h1 r (List.mem_cons_of_mem _ hr)
      · simp only [List.mem_singleton] at h1
        subst h1
        exact hhd r hr
    rw [List.append_assoc]
    rfl

theorem toDict_pairwise_id {m : List (Chars × Chars)}
    (h : m.Pairwise (fun a b => a.1 ≠ b.1)) : toDict m = m := by
  unfold toDict
  have := toDict_aux_fresh m [] h (fun q hq => absurd hq (List.not_mem_nil _))
  rw [this]
  rfl

theorem toDict_aux_pairwise :
    ∀ (pairs : List (Chars × Chars)) (acc : List (Chars × Chars)),
      acc.Pairwise (fun a b => a.1 ≠ b.1) →
      (pairs.foldl (fun d kv => qdictInsert kv.1 kv.2 d) acc).Pairwise
        (fun a b => a.1 ≠ b.1) := by
  intro pairs
  induction pairs with
  | nil =>
    intro acc h
    exact h
  | cons kv ps ih =>
    intro acc h
    rw [List.foldl_cons]
    exact ih _ (qdictInsert_pairwise h)

theorem toDict_pairwise (pairs : List (Chars × Chars)) :
    (toDict pairs).Pairwise (fun a b => a.1 ≠ b.1) :=
  toDict_aux_pairwise pairs [] List.Pairwise.nil

theorem dropTracking_pairwise {m : List (Chars × Chars)}
    (h : m.Pairwise (fun a b => a.1 ≠ b.1)) :
    (dropTracking m).Pairwise (fun a b => a.1 ≠ b.1) :=
  List.Pairwise.sublist (List.filter_sublist m) h

theorem dropTracking_no_tracking (m : List (Chars × Chars)) :
    ∀ kv ∈ dropTracking m, ¬ isTrackingKey kv.1 = true := by
  intro kv hkv
  unfold dropTracking at hkv
  have h2 := List.of_mem_filter hkv
  exact of_decide_eq_true h2

theorem dropTracking_eq_self {m : List (Chars × Chars)}
    (h : ∀ kv ∈ m, ¬ isTrackingKey kv.1 = true) : dropTracking m = m := by
  unfold dropTracking
  apply List.filter_eq_self.mpr
  intro a ha
  exact decide_eq_true (h a ha)

theorem mem_joinChar {sep : Char} : ∀ {fs : List Chars} {d : Char},
    d ∈ joinChar sep fs → d = sep ∨ ∃ f ∈ fs, d ∈ f := by
  intro fs
  induction fs with
  | nil =>
    intro d h
    exact absurd h (List.not_mem_nil _)
  | cons f fs' ih =>
    intro d h
    cases fs' with
    | nil => exact Or.inr ⟨f, List.mem_cons_self _ _, h⟩
    | cons f2 fs2 =>
      rw [joinChar_cons_cons] at h
      rcases List.mem_append.mp h with h1 | h2
      · exact Or.inr ⟨f, List.mem_cons_self _ _, h1⟩
      · rcases List.mem_cons.mp h2 with rfl | h3
        · exact Or.inl rfl
        · rcases ih h3 with h4 | ⟨g, hg, hd⟩
          · exact Or.inl h4
          · exact Or.inr ⟨g, List.mem_cons_of_mem _ hg, hd⟩

theorem mem_urlencode {m : List (Chars × Chars)} {d : Char} (h : d ∈ urlencode m) :
    isAlwaysSafe d = true ∨ d = '+' ∨ d = '%' ∨ d = '=' ∨ d = '&' := by
  unfold urlencode at h
  rcases mem_joinChar h with rfl | ⟨f, hf, hd⟩
  · exact Or.inr (Or.inr (Or.inr (Or.inr rfl)))
  · obtain ⟨kv, _, rfl⟩ := List.mem_map.mp hf
    rcases List.mem_append.mp hd with h1 | h2
    · rcases mem_quotePlus h1 with ha | hb | hc
      · exact Or.inl ha
      · exact Or.inr (Or.inl hb)
      · exact Or.inr (Or.inr (Or.inl hc))
    · rcases List.mem_cons.mp h2 with rfl | h3
      · exact Or.inr (Or.inr (Or.inr (Or.inl rfl)))
      · rcases mem_quotePlus h3 with ha | hb | hc
        · exact Or.inl ha
        · exact Or.inr (Or.inl hb)
        · exact Or.inr (Or.inr (Or.inl hc))

theorem mem_processQuery {q : Chars} {d : Char} (h : d ∈ processQuery q) :
    isAlwaysSafe d = true ∨ d = '+' ∨ d = '%' ∨ d = '=' ∨ d = '&' := by
  unfold processQuery at h
  exact mem_urlencode h

theorem processQuery_char_facts {q : Chars} {d : Char} (h : d ∈ processQuery q) :
    32 < d.toNat ∧ d.toNat < 128
      ∧ ¬ d = '#' ∧ ¬ d = '?' ∧ ¬ d = ':' ∧ ¬ d = ';' ∧ ¬ d = '/'
      ∧ ¬ d.toNat = 9 ∧ ¬ d.toNat = 13 ∧ ¬ d.toNat = 10 := by
  rcases mem_processQuery h with hs | rfl | rfl | rfl | rfl
  · have ht := isAlwaysSafe_toNat hs
    refine ⟨by omega, by omega, ?_, ?_, ?_, ?_, ?_, by omega, by omega, by omega⟩ <;>
      · intro he
        subst he
        revert ht
        decide
  · decide
  · decide
  · decide
  · decide

theorem processQuery_idem (q : Chars) : processQuery (processQuery q) = processQuery q := by
  conv_lhs => unfold processQuery
  rw [parse_qsl_urlencode]
  rw [toDict_pairwise_id (dropTracking_pairwise (toDict_pairwise _))]
  rw [dropTracking_eq_self (dropTracking_no_tracking _)]
  rfl

theorem isPrefixB_slash2_iff (x : Chars) :
    isPrefixB ("//".toList) x = true ↔ ∃ y, x = '/' :: '/' :: y := by
  cases x with
  | nil =>
    constructor
    · intro h
      exact absurd h (by decide)
    · rintro ⟨y, hy⟩
      exact List.noConfusion hy
  | cons c x' =>
    cases x' with
    | nil =>
      constructor
      · intro h
        simp only [isPrefixB, Bool.and_eq_true, decide_eq_true_eq] at h
        exact absurd h.2 (by decide)
      · rintro ⟨y, hy⟩
        injection hy with _ h2
        exact List.noConfusion h2
    | cons c2 x'' =>
      simp only [isPrefixB, Bool.and_eq_true, decide_eq_true_eq]
      constructor
      · rintro ⟨h1, h2, _⟩
        exact ⟨x'', by rw [← h1, ← h2]⟩
      · rintro ⟨y, hy⟩
        injection hy with hc hy2
        injection hy2 with hc2 hy3
        subst hc
        subst hc2
        exact ⟨rfl, rfl, trivial⟩

theorem isPrefixB_slash2_false {x : Chars} (h : ∀ y, x ≠ '/' :: '/' :: y) :
    isPrefixB ("//".toList) x = false := by
  cases hb : isPrefixB ("//".toList) x
  · rfl
  · obtain ⟨y, hy⟩ := (isPrefixB_slash2_iff x).mp hb
    exact absurd hy (h y)

theorem isPrefixB_slash1_iff (x : Chars) :
    isPrefixB ("/".toList) x = true ↔ ∃ y, x = '/' :: y := by
  cases x with
  | nil =>
    constructor
    · intro h
      exact absurd h (by decide)
    · rintro ⟨y, hy⟩
      exact List.noConfusion hy
  | cons c x' =>
    simp only [isPrefixB, Bool.and_eq_true, decide_eq_true_eq]
    constructor
    · rintro ⟨h1, _⟩
      exact ⟨x', by rw [← h1]⟩
    · rintro ⟨y, hy⟩
      injection hy with hc hy2
      subst hc
      exact ⟨rfl, trivial⟩

theorem isPrefixB_slash2_append_false {j qf : Chars}
    (hj : isPrefixB ("//".toList) j = false) (hqf : ∀ y, qf ≠ '/' :: y) :
    isPrefixB ("//".toList) (j ++ qf) = false := by
  apply isPrefixB_slash2_false
  intro y hy
  cases j with
  | nil => exact hqf ('/' :: y) hy
  | cons c j' =>
    injection hy with hc hy2
    cases j' with
    | nil => exact hqf y (by simpa using hy2)
    | cons c2 j'' =>
      injection hy2 with hc2 _
      subst hc
      subst hc2
      rw [(isPrefixB_slash2_iff _).mpr ⟨j'', rfl⟩] at hj
      exact Bool.noConfusion hj

theorem lstripC0_cons_of_gt {c : Char} (r : Chars) (h : 32 < c.toNat) :
    lstripC0 (c :: r) = c :: r := by
  unfold lstripC0
  rw [List.dropWhile_cons, if_neg (by simp; omega)]

theorem removeUnsafe_eq_self {s : Chars}
    (h : ∀ c ∈ s, ¬ (c.toNat = 9 ∨ c.toNat = 13 ∨ c.toNat = 10)) :
    removeUnsafe s = s := by
  unfold removeUnsafe
  apply List.filter_eq_self.mpr
  intro a ha
  exact decide_eq_true (h a ha)

theorem mem_removeUnsafe {s : Chars} {c : Char} (h : c ∈ removeUnsafe s) :
    c ∈ s ∧ ¬ (c.toNat = 9 ∨ c.toNat = 13 ∨ c.toNat = 10) := by
  unfold removeUnsafe at h
  have h2 := List.mem_filter.mp h
  exact ⟨h2.1, of_decide_eq_true h2.2⟩

theorem mem_lstripC0 {s : Chars} {c : Char} (h : c ∈ lstripC0 s) : c ∈ s :=
  List.Sublist.mem h (List.dropWhile_sublist _)

theorem mem_splitOnce_fst {sep : Char} {x : Chars} {c : Char}
    (h : c ∈ (splitOnce sep x).1) : c ∈ x := by
  cases hsp2 : (splitOnce sep x).2 with
  | none =>
    obtain ⟨hx, _⟩ := (splitOnce_spec x).2 _ (by rw [← hsp2])
    rw [hx]
    exact h
  | some b =>
    obtain ⟨hx, _⟩ := (splitOnce_spec x).1 _ b (by rw [← hsp2])
    rw [hx]
    exact List.mem_append.mpr (Or.inl h)

theorem mem_splitOnce_snd {sep : Char} {x b : Chars} {c : Char}
    (hsp : (splitOnce sep x).2 = some b) (h : c ∈ b) : c ∈ x := by
  obtain ⟨hx, _⟩ := (splitOnce_spec x).1 _ b (by rw [← hsp])
  rw [hx]
  exact List.mem_append.mpr (Or.inr (List.mem_cons_of_mem _ h))

theorem mem_splitScheme_snd {x : Chars} {c : Char} (h : c ∈ (splitScheme x).2) : c ∈ x := by
  cases hsp2 : (splitOnce ':' x).2 with
  | none =>
    rw [splitScheme_eq_of_none
      (show splitOnce ':' x = ((splitOnce ':' x).1, none) by rw [← hsp2])] at h
    exact h
  | some af =>
    have heq : splitOnce ':' x = ((splitOnce ':' x).1, some af) := by rw [← hsp2]
    by_cases hv : validSchemeStr (splitOnce ':' x).1 = true
    · rw [splitScheme_eq_of_valid heq hv] at h
      exact mem_splitOnce_snd hsp2 h
    · have hvf : validSchemeStr (splitOnce ':' x).1 = false := by
        cases hb : validSchemeStr (splitOnce ':' x).1
        · rfl
        · exact absurd hb hv
      rw [splitScheme_eq_of_invalid heq hvf] at h
      exact h

theorem mem_splitScheme_fst {x : Chars} {c : Char} (h : c ∈ (splitScheme x).1) :
    ∃ c0 ∈ x, c = lowChar c0 := by
  cases hsp2 : (splitOnce ':' x).2 with
  | none =>
    rw [splitScheme_eq_of_none
      (show splitOnce ':' x = ((splitOnce ':' x).1, none) by rw [← hsp2])] at h
    exact absurd h (List.not_mem_nil _)
  | some af =>
    have heq : splitOnce ':' x = ((splitOnce ':' x).1, some af) := by rw [← hsp2]
    by_cases hv : validSchemeStr (splitOnce ':' x).1 = true
    · rw [splitScheme_eq_of_valid heq hv] at h
      rw [lowChar_eq_map] at h
      obtain ⟨c0, hc0, rfl⟩ := List.mem_map.mp h
      exact ⟨c0, mem_splitOnce_fst hc0, rfl⟩
    · have hvf : validSchemeStr (splitOnce ':' x).1 = false := by
        cases hb : validSchemeStr (splitOnce ':' x).1
        · rfl
        · exact absurd hb hv
      rw [splitScheme_eq_of_invalid heq hvf] at h
      exact absurd h (List.not_mem_nil _)

theorem lowChar_clean {c : Char} (h : ¬ (c.toNat = 9 ∨ c.toNat = 13 ∨ c.toNat = 10)) :
    ¬ ((lowChar c).toNat = 9 ∨ (lowChar c).toNat = 13 ∨ (lowChar c).toNat = 10) := by
  rw [lowChar_toNat]
  by_cases hu : 65 ≤ c.toNat ∧ c.toNat ≤ 90
  · rw [if_pos hu]
    omega
  · rw [if_neg hu]
    exact h

theorem addSlash_keep {j : Chars} (h : j = [] ∨ isPrefixB ("/".toList) j = true) :
    addSlash j = j := by
  unfold addSlash
  rcases h with rfl | h
  · rfl
  · rw [if_neg (fun hc => hc.2 h)]

theorem addSlash_add {j : Chars} (h1 : j ≠ []) (h2 : isPrefixB ("/".toList) j = false) :
    addSlash j = '/' :: j := by
  unfold addSlash
  rw [if_pos ⟨h1, by rw [h2]; exact Bool.false_ne_true⟩]

theorem withScheme_nil (u : Chars) : withScheme [] u = u := by
  unfold withScheme
  rw [if_neg (by simp)]

theorem withScheme_pos {s : Chars} (h : s ≠ []) (u : Chars) :
    withScheme s u = s ++ ':' :: u := by
  unfold withScheme
  rw [if_pos h]

theorem unsplitBase_pos {s n j : Chars}
    (h : n ≠ [] ∨ (s ≠ [] ∧ s ∈ uses_netloc ∧ ¬ isPrefixB ("//".toList) j = true)) :
    unsplitBase s n j = '/' :: '/' :: (n ++ addSlash j) := by
  unfold unsplitBase
  rw [if_pos h]

theorem unsplitBase_neg {s n j : Chars}
    (h : ¬ (n ≠ [] ∨ (s ≠ [] ∧ s ∈ uses_netloc ∧ ¬ isPrefixB ("//".toList) j = true))) :
    unsplitBase s n j = j := by
  unfold unsplitBase
  rw [if_neg h]

theorem urlunsplitModel_eq (s n j q f : Chars) :
    urlunsplitModel s n j q f
      = (if f ≠ [] then
           (if q ≠ [] then withScheme s (unsplitBase s n j) ++ '?' :: q
            else withScheme s (unsplitBase s n j)) ++ '#' :: f
         else
           (if q ≠ [] then withScheme s (unsplitBase s n j) ++ '?' :: q
            else withScheme s (unsplitBase s n j))) := rfl

theorem urlsplitModel_def (x : Chars) :
    urlsplitModel x = urlsplitWith (splitScheme (removeUnsafe (lstripC0 x))) := rfl

theorem urlsplitWith_eq {sp : Chars × Chars}
    (hbr : bracketMismatch (netlocSplit sp.2).1 = false) :
    urlsplitWith sp
      = some (sp.1, (netlocSplit sp.2).1, (urlsplitTail (netlocSplit sp.2).2).1,
          (urlsplitTail (netlocSplit sp.2).2).2.1, (urlsplitTail (netlocSplit sp.2).2).2.2) := by
  unfold urlsplitWith
  rw [if_neg (by simp [hbr])]

theorem isNetlocDelim_iff (c : Char) :
    isNetlocDelim c = true ↔ c = '/' ∨ c = '?' ∨ c = '#' := by
  unfold isNetlocDelim
  simp only [decide_eq_true_eq]

theorem splitNetloc_stop {n rest : Chars} (hn : ∀ c ∈ n, isNetlocDelim c = false)
    (hrest : rest = [] ∨ ∃ c r2, rest = c :: r2 ∧ isNetlocDelim c = true) :
    splitNetloc (n ++ rest) = (n, rest) := by
  unfold splitNetloc
  have hp : ∀ c ∈ n, (fun c => decide ¬ isNetlocDelim c = true) c = true := by
    intro c hc
    simp [hn c hc]
  rcases hrest with rfl | ⟨c, r2, rfl, hc⟩
  · rw [List.append_nil, takeWhile_all hp, dropWhile_all hp]
  · have hstop : (fun c => decide ¬ isNetlocDelim c = true) c = false := by
      simp [hc]
    rw [takeWhile_append_stop hstop _ hp, dropWhile_append_stop hstop _ hp]

theorem netlocSplit_neg {r1 : Chars} (h : isPrefixB ("//".toList) r1 = false) :
    netlocSplit r1 = ([], r1) := by
  unfold netlocSplit
  rw [if_neg (by intro hc; rw [h] at hc; exact Bool.noConfusion hc)]

theorem netlocSplit_emitted {n aj X : Chars}
    (hn : ∀ c ∈ n, isNetlocDelim c = false)
    (hrest : aj ++ X = [] ∨ ∃ c r2, aj ++ X = c :: r2 ∧ isNetlocDelim c = true) :
    netlocSplit (('/' :: '/' :: (n ++ aj)) ++ X) = (n, aj ++ X) := by
  unfold netlocSplit
  have hpre : isPrefixB ("//".toList) (('/' :: '/' :: (n ++ aj)) ++ X) = true := by
    rw [List.cons_append, List.cons_append]
    exact (isPrefixB_slash2_iff _).mpr ⟨_, rfl⟩
  rw [if_pos hpre]
  show splitNetloc ((('/' :: '/' :: (n ++ aj)) ++ X).drop 2) = _
  rw [List.cons_append, List.cons_append]
  show splitNetloc ((n ++ aj) ++ X) = _
  rw [List.append_assoc]
  exact splitNetloc_stop hn hrest

theorem urlsplitTail_assemble {B : Chars} (q f : Chars)
    (h1 : '#' ∉ B) (h2 : '#' ∉ q) (h3 : '?' ∉ B) :
    urlsplitTail (if f ≠ [] then
        (if q ≠ [] then B ++ '?' :: q else B) ++ '#' :: f
      else (if q ≠ [] then B ++ '?' :: q else B))
      = (B, q, f) := by
  by_cases hf : f ≠ []
  · rw [if_pos hf]
    by_cases hq : q ≠ []
    · rw [if_pos hq]
      have hnb : '#' ∉ B ++ '?' :: q := by
        intro hm
        rcases List.mem_append.mp hm with hm1 | hm2
        · exact h1 hm1
        · rcases List.mem_cons.mp hm2 with he | hm3
          · exact absurd he (by decide)
          · exact h2 hm3
      have e1a : (splitOnce '#' ((B ++ '?' :: q) ++ '#' :: f)).1 = B ++ '?' :: q := by
        rw [splitOnce_append f hnb]
      have e1b : (splitOnce '#' ((B ++ '?' :: q) ++ '#' :: f)).2 = some f := by
        rw [splitOnce_append f hnb]
      have e2a : (splitOnce '?' (B ++ '?' :: q)).1 = B := by
        rw [splitOnce_append q h3]
      have e2b : (splitOnce '?' (B ++ '?' :: q)).2 = some q := by
        rw [splitOnce_append q h3]
      unfold urlsplitTail
      rw [e1a, e1b, e2a, e2b]
      rfl
    · rw [if_neg hq]
      have hqe : q = [] := by
        by_contra hne
        exact hq hne
      subst hqe
      have e1a : (splitOnce '#' (B ++ '#' :: f)).1 = B := by
        rw [splitOnce_append f h1]
      have e1b : (splitOnce '#' (B ++ '#' :: f)).2 = some f := by
        rw [splitOnce_append f h1]
      have e2a : (splitOnce '?' B).1 = B := by
        rw [splitOnce_no_sep h3]
      have e2b : (splitOnce '?' B).2 = none := by
        rw [splitOnce_no_sep h3]
      unfold urlsplitTail
      rw [e1a, e1b, e2a, e2b]
      rfl
  · rw [if_neg hf]
    have hfe : f = [] := by
      by_contra hne
      exact hf hne
    subst hfe
    by_cases hq : q ≠ []
    · rw [if_pos hq]
      have hnb : '#' ∉ B ++ '?' :: q := by
        intro hm
        rcases List.mem_append.mp hm with hm1 | hm2
        · exact h1 hm1
        · rcases List.mem_cons.mp hm2 with he | hm3
          · exact absurd he (by decide)
          · exact h2 hm3
      have e1a : (splitOnce '#' (B ++ '?' :: q)).1 = B ++ '?' :: q := by
        rw [splitOnce_no_sep hnb]
      have e1b : (splitOnce '#' (B ++ '?' :: q)).2 = none := by
        rw [splitOnce_no_sep hnb]
      have e2a : (splitOnce '?' (B ++ '?' :: q)).1 = B := by
        rw [splitOnce_append q h3]
      have e2b : (splitOnce '?' (B ++ '?' :: q)).2 = some q := by
        rw [splitOnce_append q h3]
      unfold urlsplitTail
      rw [e1a, e1b, e2a, e2b]
      rfl
    · rw [if_neg hq]
      have hqe : q = [] := by
        by_contra hne
        exact hq hne
      subst hqe
      have e1a : (splitOnce '#' B).1 = B := by
        rw [splitOnce_no_sep h1]
      have e1b : (splitOnce '#' B).2 = none := by
        rw [splitOnce_no_sep h1]
      have e2a : (splitOnce '?' B).1 = B := by
        rw [splitOnce_no_sep h3]
      have e2b : (splitOnce '?' B).2 = none := by
        rw [splitOnce_no_sep h3]
      unfold urlsplitTail
      rw [e1a, e1b, e2a, e2b]
      rfl

theorem mem_addSlash {j : Chars} {c : Char} (h : c ∈ addSlash j) : c = '/' ∨ c ∈ j := by
  unfold addSlash at h
  split_ifs at h with h1
  · rcases List.mem_cons.mp h with rfl | h2
    · exact Or.inl rfl
    · exact Or.inr h2
  · exact Or.inr h

theorem addSlash_shape (j : Chars) :
    addSlash j = [] ∨ ∃ r, addSlash j = '/' :: r := by
  cases j with
  | nil => exact Or.inl rfl
  | cons c j' =>
    by_cases hp : isPrefixB ("/".toList) (c :: j') = true
    · obtain ⟨y, hy⟩ := (isPrefixB_slash1_iff _).mp hp
      rw [addSlash_keep (Or.inr hp), hy]
      exact Or.inr ⟨y, rfl⟩
    · have hpf : isPrefixB ("/".toList) (c :: j') = false := by
        cases hb : isPrefixB ("/".toList) (c :: j')
        · rfl
        · exact absurd hb hp
      rw [addSlash_add (List.cons_ne_nil _ _) hpf]
      exact Or.inr ⟨c :: j', rfl⟩

theorem splitScheme_withScheme_append {s B X : Chars}
    (hv : validSchemeStr s = true) (hlow : asciiLower s = s) :
    splitScheme (withScheme s B ++ X) = (s, B ++ X) := by
  have hne : s ≠ [] := by
    intro he
    rw [he] at hv
    exact absurd hv (by decide)
  rw [withScheme_pos hne, List.append_assoc, List.cons_append]
  have hsp := splitOnce_append (B ++ X) (colon_not_mem_of_valid hv)
  rw [splitScheme_eq_of_valid hsp hv, hlow]

theorem mem_withScheme {s u : Chars} {c : Char} (h : c ∈ withScheme s u) :
    c ∈ s ∨ c = ':' ∨ c ∈ u := by
  unfold withScheme at h
  split_ifs at h
  · rcases List.mem_append.mp h with h1 | h2
    · exact Or.inl h1
    · rcases List.mem_cons.mp h2 with rfl | h3
      · exact Or.inr (Or.inl rfl)
      · exact Or.inr (Or.inr h3)
  · exact Or.inr (Or.inr h)

theorem lstripC0_eq_self_shape {x : Chars}
    (h : x = [] ∨ ∃ c r, x = c :: r ∧ 32 < c.toNat) : lstripC0 x = x := by
  rcases h with rfl | ⟨c, r, rfl, hgt⟩
  · rfl
  · exact lstripC0_cons_of_gt _ hgt

theorem urlsplit_core_emitted {s n j X : Chars}
    (hs : s = [] ∨ (validSchemeStr s = true ∧ asciiLower s = s))
    (hcs : ∀ c ∈ s, ¬ (c.toNat = 9 ∨ c.toNat = 13 ∨ c.toNat = 10))
    (hcn : ∀ c ∈ n, ¬ (c.toNat = 9 ∨ c.toNat = 13 ∨ c.toNat = 10))
    (hcj : ∀ c ∈ j, ¬ (c.toNat = 9 ∨ c.toNat = 13 ∨ c.toNat = 10))
    (hcX : ∀ c ∈ X, ¬ (c.toNat = 9 ∨ c.toNat = 13 ∨ c.toNat = 10))
    (hn : ∀ c ∈ n, isNetlocDelim c = false)
    (hbr : bracketMismatch n = false)
    (hrest : addSlash j ++ X = []
      ∨ ∃ c r2, addSlash j ++ X = c :: r2 ∧ isNetlocDelim c = true) :
    urlsplitModel (withScheme s ('/' :: '/' :: (n ++ addSlash j)) ++ X)
      = some (s, n, (urlsplitTail (addSlash j ++ X)).1,
          (urlsplitTail (addSlash j ++ X)).2.1, (urlsplitTail (addSlash j ++ X)).2.2) := by
  have hmem : ∀ c ∈ withScheme s ('/' :: '/' :: (n ++ addSlash j)) ++ X,
      ¬ (c.toNat = 9 ∨ c.toNat = 13 ∨ c.toNat = 10) := by
    intro c hc
    rcases List.mem_append.mp hc with h1 | h2
    · rcases mem_withScheme h1 with hsm | rfl | hB
      · exact hcs c hsm
      · decide
      · rcases List.mem_cons.mp hB with rfl | hB2
        · decide
        rcases List.mem_cons.mp hB2 with rfl | hB3
        · decide
        rcases List.mem_append.mp hB3 with hnm | haj
        · exact hcn c hnm
        · rcases mem_addSlash haj with rfl | hjm
          · decide
          · exact hcj c hjm
    · exact hcX c h2
  have hhead : ∃ c0 r0, withScheme s ('/' :: '/' :: (n ++ addSlash j)) ++ X = c0 :: r0
      ∧ 32 < c0.toNat := by
    rcases hs with rfl | ⟨hv, _⟩
    · rw [withScheme_nil, List.cons_append]
      exact ⟨'/', _, rfl, by decide⟩
    · obtain ⟨⟨c0, cs0, hcs0, hal⟩, _⟩ := validSchemeStr_spec hv
      rw [withScheme_pos (by rw [hcs0]; exact List.cons_ne_nil _ _), hcs0]
      rw [List.cons_append, List.cons_append]
      refine ⟨c0, _, rfl, ?_⟩
      have := (isAsciiAlphaB_iff c0).mp hal
      omega
  obtain ⟨c0, r0, ho, hgt⟩ := hhead
  have hclean : removeUnsafe (lstripC0 (withScheme s ('/' :: '/' :: (n ++ addSlash j)) ++ X))
      = withScheme s ('/' :: '/' :: (n ++ addSlash j)) ++ X := by
    rw [ho, lstripC0_cons_of_gt _ hgt, ← ho]
    exact removeUnsafe_eq_self hmem
  have hss : splitScheme (withScheme s ('/' :: '/' :: (n ++ addSlash j)) ++ X)
      = (s, ('/' :: '/' :: (n ++ addSlash j)) ++ X) := by
    rcases hs with rfl | ⟨hv, hlow⟩
    · rw [withScheme_nil]
      rw [List.cons_append]
      exact splitScheme_of_noSniff (noSchemeSniffB_head _ (by decide))
    · exact splitScheme_withScheme_append hv hlow
  rw [urlsplitModel_def, hclean, hss]
  have hns : netlocSplit (('/' :: '/' :: (n ++ addSlash j)) ++ X) = (n, addSlash j ++ X) :=
    netlocSplit_emitted hn hrest
  have hbr2 : bracketMismatch (netlocSplit (((s, ('/' :: '/' :: (n ++ addSlash j)) ++ X)
      : Chars × Chars)).2).1 = false := by
    show bracketMismatch (netlocSplit (('/' :: '/' :: (n ++ addSlash j)) ++ X)).1 = false
    rw [hns]
    exact hbr
  rw [urlsplitWith_eq hbr2]
  have hp1 : ((s, ('/' :: '/' :: (n ++ addSlash j)) ++ X) : Chars × Chars).1 = s := rfl
  have hp2 : ((s, ('/' :: '/' :: (n ++ addSlash j)) ++ X) : Chars × Chars).2
      = ('/' :: '/' :: (n ++ addSlash j)) ++ X := rfl
  rw [hp1, hp2, hns]

theorem urlsplit_core_plain {s j X : Chars}
    (hs : s = [] ∨ (validSchemeStr s = true ∧ asciiLower s = s))
    (hcs : ∀ c ∈ s, ¬ (c.toNat = 9 ∨ c.toNat = 13 ∨ c.toNat = 10))
    (hcj : ∀ c ∈ j, ¬ (c.toNat = 9 ∨ c.toNat = 13 ∨ c.toNat = 10))
    (hcX : ∀ c ∈ X, ¬ (c.toNat = 9 ∨ c.toNat = 13 ∨ c.toNat = 10))
    (hnopre : isPrefixB ("//".toList) (j ++ X) = false)
    (hsniff : s = [] → noSchemeSniffB (j ++ X) = true)
    (hhead : withScheme s j ++ X = []
      ∨ ∃ c0 r0, withScheme s j ++ X = c0 :: r0 ∧ 32 < c0.toNat) :
    urlsplitModel (withScheme s j ++ X)
      = some (s, [], (urlsplitTail (j ++ X)).1,
          (urlsplitTail (j ++ X)).2.1, (urlsplitTail (j ++ X)).2.2) := by
  have hmem : ∀ c ∈ withScheme s j ++ X,
      ¬ (c.toNat = 9 ∨ c.toNat = 13 ∨ c.toNat = 10) := by
    intro c hc
    rcases List.mem_append.mp hc with h1 | h2
    · rcases mem_withScheme h1 with hsm | rfl | hj
      · exact hcs c hsm
      · decide
      · exact hcj c hj
    · exact hcX c h2
  have hclean : removeUnsafe (lstripC0 (withScheme s j ++ X)) = withScheme s j ++ X := by
    rw [lstripC0_eq_self_shape hhead]
    exact removeUnsafe_eq_self hmem
  have hss : splitScheme (withScheme s j ++ X) = (s, j ++ X) := by
    rcases hs with rfl | ⟨hv, hlow⟩
    · rw [withScheme_nil]
      exact splitScheme_of_noSniff (hsniff rfl)
    · exact splitScheme_withScheme_append hv hlow
  rw [urlsplitModel_def, hclean, hss]
  have hns : netlocSplit (j ++ X) = ([], j ++ X) := netlocSplit_neg hnopre
  have hbr2 : bracketMismatch (netlocSplit (((s, j ++ X) : Chars × Chars)).2).1 = false := by
    show bracketMismatch (netlocSplit (j ++ X)).1 = false
    rw [hns]
    show bracketMismatch ([] : Chars) = false
    decide
  rw [urlsplitWith_eq hbr2]
  have hp1 : ((s, j ++ X) : Chars × Chars).1 = s := rfl
  have hp2 : ((s, j ++ X) : Chars × Chars).2 = j ++ X := rfl
  rw [hp1, hp2, hns]

theorem splitOnce_fst_prefix (sep : Char) (x : Chars) :
    ∃ rest, x = (splitOnce sep x).1 ++ rest := by
  cases hsp2 : (splitOnce sep x).2 with
  | none =>
    obtain ⟨hx, _⟩ := (splitOnce_spec x).2 _
      (show splitOnce sep x = ((splitOnce sep x).1, none) by rw [← hsp2])
    exact ⟨[], by rw [← hx, List.append_nil]⟩
  | some b =>
    obtain ⟨hx, _⟩ := (splitOnce_spec x).1 _ b
      (show splitOnce sep x = ((splitOnce sep x).1, some b) by rw [← hsp2])
    exact ⟨sep :: b, hx⟩

theorem splitOnce_fst_not_mem (sep : Char) (x : Chars) : sep ∉ (splitOnce sep x).1 := by
  cases hsp2 : (splitOnce sep x).2 with
  | none =>
    exact ((splitOnce_spec x).2 _
      (show splitOnce sep x = ((splitOnce sep x).1, none) by rw [← hsp2])).2
  | some b =>
    exact ((splitOnce_spec x).1 _ b
      (show splitOnce sep x = ((splitOnce sep x).1, some b) by rw [← hsp2])).2

theorem splitOnce_some_of_mem {sep : Char} {x : Chars} (h : sep ∈ x) :
    ∃ b, (splitOnce sep x).2 = some b := by
  cases hsp2 : (splitOnce sep x).2 with
  | some b => exact ⟨b, rfl⟩
  | none =>
    obtain ⟨hx, hnm⟩ := (splitOnce_spec x).2 _
      (show splitOnce sep x = ((splitOnce sep x).1, none) by rw [← hsp2])
    rw [← hx] at hnm
    exact absurd h hnm

theorem noSniff_transfer {a y z : Chars} (hmem : ':' ∈ a)
    (h : noSchemeSniffB (a ++ y) = true) : noSchemeSniffB (a ++ z) = true := by
  obtain ⟨b, hb⟩ := splitOnce_some_of_mem hmem
  have heq : splitOnce ':' a = ((splitOnce ':' a).1, some b) := by rw [← hb]
  obtain ⟨hdec, hnm⟩ := (splitOnce_spec a).1 _ b heq
  have hsp_y : splitOnce ':' (a ++ y) = ((splitOnce ':' a).1, some (b ++ y)) := by
    conv_lhs => rw [hdec]
    rw [List.append_assoc, List.cons_append]
    exact splitOnce_append _ hnm
  have c1 : (splitOnce ':' (a ++ y)).1 = (splitOnce ':' a).1 := by rw [hsp_y]
  have c2 : (splitOnce ':' (a ++ y)).2 = some (b ++ y) := by rw [hsp_y]
  have heq' : splitOnce ':' (a ++ y) = ((splitOnce ':' (a ++ y)).1, some (b ++ y)) := by
    rw [← c2]
  have hv := noSchemeSniff_invalid_extract heq' h
  rw [c1] at hv
  have hsp_z : splitOnce ':' (a ++ z) = ((splitOnce ':' a).1, some (b ++ z)) := by
    conv_lhs => rw [hdec]
    rw [List.append_assoc, List.cons_append]
    exact splitOnce_append _ hnm
  exact noSchemeSniffB_eq_true_of_invalid hsp_z hv

theorem splitScheme_fst_shape (x : Chars) :
    (splitScheme x).1 = [] ∨ (validSchemeStr (splitScheme x).1 = true
      ∧ asciiLower (splitScheme x).1 = (splitScheme x).1) := by
  cases hsp2 : (splitOnce ':' x).2 with
  | none =>
    rw [splitScheme_eq_of_none
      (show splitOnce ':' x = ((splitOnce ':' x).1, none) by rw [← hsp2])]
    exact Or.inl rfl
  | some af =>
    have heq : splitOnce ':' x = ((splitOnce ':' x).1, some af) := by rw [← hsp2]
    by_cases hv : validSchemeStr (splitOnce ':' x).1 = true
    · rw [splitScheme_eq_of_valid heq hv]
      exact Or.inr ⟨validSchemeStr_asciiLower hv, asciiLower_idem _⟩
    · have hvf : validSchemeStr (splitOnce ':' x).1 = false := by
        cases hb : validSchemeStr (splitOnce ':' x).1
        · rfl
        · exact absurd hb hv
      rw [splitScheme_eq_of_invalid heq hvf]
      exact Or.inl rfl

theorem splitScheme_snd_of_fst_nil {x : Chars} (h : (splitScheme x).1 = []) :
    (splitScheme x).2 = x := by
  cases hsp2 : (splitOnce ':' x).2 with
  | none =>
    rw [splitScheme_eq_of_none
      (show splitOnce ':' x = ((splitOnce ':' x).1, none) by rw [← hsp2])]
  | some af =>
    have heq : splitOnce ':' x = ((splitOnce ':' x).1, some af) := by rw [← hsp2]
    by_cases hv : validSchemeStr (splitOnce ':' x).1 = true
    · exfalso
      rw [splitScheme_eq_of_valid heq hv] at h
      have hpre : (splitOnce ':' x).1 = [] :=
        List.map_eq_nil.mp (by rw [← lowChar_eq_map]; exact h)
      rw [hpre] at hv
      exact absurd hv (by decide)
    · have hvf : validSchemeStr (splitOnce ':' x).1 = false := by
        cases hb : validSchemeStr (splitOnce ':' x).1
        · rfl
        · exact absurd hb hv
      rw [splitScheme_eq_of_invalid heq hvf]

theorem cleaned_head (u0 : Chars) :
    removeUnsafe (lstripC0 u0) = []
    ∨ ∃ c r, removeUnsafe (lstripC0 u0) = c :: r ∧ 32 < c.toNat := by
  cases hl : lstripC0 u0 with
  | nil => exact Or.inl rfl
  | cons c r =>
    have hpf : (fun c : Char => decide (c.toNat ≤ 32)) c = false := by
      have := dropWhile_head_false (show List.dropWhile (fun c => decide (c.toNat ≤ 32)) u0
        = c :: r from hl)
      exact this
    have hgt : 32 < c.toNat := by
      have h2 := of_decide_eq_false hpf
      omega
    unfold removeUnsafe
    rw [List.filter_cons, if_pos (decide_eq_true (show ¬ (c.toNat = 9 ∨ c.toNat = 13
      ∨ c.toNat = 10) by omega))]
    exact Or.inr ⟨c, _, rfl, hgt⟩

theorem splitNetloc_fst_facts (x : Chars) :
    ∀ c ∈ (splitNetloc x).1, isNetlocDelim c = false := by
  intro c hc
  unfold splitNetloc at hc
  have h1 := List.mem_takeWhile_imp hc
  have h2 := of_decide_eq_true h1
  cases hb : isNetlocDelim c
  · rfl
  · exact absurd hb h2

theorem splitNetloc_snd_shape (x : Chars) :
    (splitNetloc x).2 = [] ∨ ∃ c r2, (splitNetloc x).2 = c :: r2 ∧ isNetlocDelim c = true := by
  cases hd : (splitNetloc x).2 with
  | nil => exact Or.inl rfl
  | cons c r2 =>
    unfold splitNetloc at hd
    have hpf := dropWhile_head_false hd
    have h2 := of_decide_eq_false hpf
    cases hb : isNetlocDelim c
    · exact absurd (by rw [hb]; exact fun hx => Bool.noConfusion hx) h2
    · exact Or.inr ⟨c, r2, rfl, hb⟩

theorem splitNetloc_append_eq (x : Chars) : (splitNetloc x).1 ++ (splitNetloc x).2 = x := by
  unfold splitNetloc
  exact List.takeWhile_append_dropWhile _ _

theorem netlocSplit_pos {r1 : Chars} (h : isPrefixB ("//".toList) r1 = true) :
    netlocSplit r1 = splitNetloc (r1.drop 2) := by
  unfold netlocSplit
  rw [if_pos h]

theorem tail_X (q f : Chars) :
    ∃ X, (∀ W : Chars,
        (if f ≠ [] then (if q ≠ [] then W ++ '?' :: q else W) ++ '#' :: f
         else (if q ≠ [] then W ++ '?' :: q else W)) = W ++ X)
      ∧ (∀ B : Chars, '#' ∉ B → '#' ∉ q → '?' ∉ B → urlsplitTail (B ++ X) = (B, q, f))
      ∧ (∀ c ∈ X, c = '?' ∨ c = '#' ∨ c ∈ q ∨ c ∈ f)
      ∧ (X = [] ∨ ∃ r, X = '?' :: r ∨ X = '#' :: r)
      ∧ (∀ y, X ≠ '/' :: y) := by
  by_cases hq : q ≠ []
  · by_cases hf : f ≠ []
    · refine ⟨'?' :: (q ++ '#' :: f), ?_, ?_, ?_, ?_, ?_⟩
      · intro W
        rw [if_pos hf, if_pos hq, List.append_assoc, List.cons_append]
      · intro B h1 h2 h3
        have hh := urlsplitTail_assemble q f h1 h2 h3
        rw [if_pos hf, if_pos hq] at hh
        rw [List.append_assoc, List.cons_append] at hh
        exact hh
      · intro c hc
        rcases List.mem_cons.mp hc with rfl | hc2
        · exact Or.inl rfl
        rcases List.mem_append.mp hc2 with h4 | h5
        · exact Or.inr (Or.inr (Or.inl h4))
        rcases List.mem_cons.mp h5 with rfl | h6
        · exact Or.inr (Or.inl rfl)
        · exact Or.inr (Or.inr (Or.inr h6))
      · exact Or.inr ⟨q ++ '#' :: f, Or.inl rfl⟩
      · intro y hy
        injection hy with h1 _
        exact absurd h1 (by decide)
    · have hfe : f = [] := by
        by_contra hne
        exact hf hne
      subst hfe
      refine ⟨'?' :: q, ?_, ?_, ?_, ?_, ?_⟩
      · intro W
        rw [if_neg (by simp), if_pos hq]
      · intro B h1 h2 h3
        have hh := urlsplitTail_assemble q [] h1 h2 h3
        rw [if_neg (by simp), if_pos hq] at hh
        exact hh
      · intro c hc
        rcases List.mem_cons.mp hc with rfl | hc2
        · exact Or.inl rfl
        · exact Or.inr (Or.inr (Or.inl hc2))
      · exact Or.inr ⟨q, Or.inl rfl⟩
      · intro y hy
        injection hy with h1 _
        exact absurd h1 (by decide)
  · have hqe : q = [] := by
      by_contra hne
      exact hq hne
    subst hqe
    by_cases hf : f ≠ []
    · refine ⟨'#' :: f, ?_, ?_, ?_, ?_, ?_⟩
      · intro W
        rw [if_pos hf, if_neg (by simp)]
      · intro B h1 h2 h3
        have hh := urlsplitTail_assemble [] f h1 h2 h3
        rw [if_pos hf, if_neg (by simp)] at hh
        exact hh
      · intro c hc
        rcases List.mem_cons.mp hc with rfl | hc2
        · exact Or.inr (Or.inl rfl)
        · exact Or.inr (Or.inr (Or.inr hc2))
      · exact Or.inr ⟨f, Or.inr rfl⟩
      · intro y hy
        injection hy with h1 _
        exact absurd h1 (by decide)
    · have hfe : f = [] := by
        by_contra hne
        exact hf hne
      subst hfe
      refine ⟨[], ?_, ?_, ?_, ?_, ?_⟩
      · intro W
        rw [if_neg (by simp), if_neg (by simp), List.append_nil]
      · intro B h1 h2 h3
        have hh := urlsplitTail_assemble [] [] h1 h2 h3
        rw [if_neg (by simp), if_neg (by simp)] at hh
        rw [List.append_nil]
        exact hh
      · intro c hc
        exact absurd hc (List.not_mem_nil _)
      · exact Or.inl rfl
      · intro y hy
        exact List.noConfusion hy

theorem mem_splitNetloc_snd {x : Chars} {c : Char} (h : c ∈ (splitNetloc x).2) : c ∈ x := by
  unfold splitNetloc at h
  exact List.Sublist.mem h (List.dropWhile_sublist _)

theorem mem_splitNetloc_fst {x : Chars} {c : Char} (h : c ∈ (splitNetloc x).1) : c ∈ x := by
  unfold splitNetloc at h
  exact List.Sublist.mem h (List.takeWhile_sublist _)

theorem urlsplitModel_inv {u0 s n path0 q f : Chars}
    (h : urlsplitModel u0 = some (s, n, path0, q, f)) :
    (s = [] ∨ (validSchemeStr s = true ∧ asciiLower s = s))
    ∧ (∀ c ∈ n, isNetlocDelim c = false)
    ∧ bracketMismatch n = false
    ∧ '#' ∉ path0 ∧ '?' ∉ path0 ∧ '#' ∉ q
    ∧ (∀ c ∈ s, ¬ (c.toNat = 9 ∨ c.toNat = 13 ∨ c.toNat = 10))
    ∧ (∀ c ∈ n, ¬ (c.toNat = 9 ∨ c.toNat = 13 ∨ c.toNat = 10))
    ∧ (∀ c ∈ path0, ¬ (c.toNat = 9 ∨ c.toNat = 13 ∨ c.toNat = 10))
    ∧ (∀ c ∈ q, ¬ (c.toNat = 9 ∨ c.toNat = 13 ∨ c.toNat = 10))
    ∧ (∀ c ∈ f, ¬ (c.toNat = 9 ∨ c.toNat = 13 ∨ c.toNat = 10))
    ∧ (s = [] → n = [] →
        ((noSchemeSniffB (removeUnsafe (lstripC0 u0)) = true
          ∧ ∃ rest0, removeUnsafe (lstripC0 u0) = path0 ++ rest0)
         ∨ (path0 = [] ∨ ∃ r, path0 = '/' :: r))
        ∧ (path0 = [] ∨ ∃ c r, path0 = c :: r ∧ 32 < c.toNat)) := by
  rw [urlsplitModel_def] at h
  by_cases hbr : bracketMismatch (netlocSplit (splitScheme (removeUnsafe (lstripC0 u0))).2).1
      = true
  · exfalso
    unfold urlsplitWith at h
    rw [if_pos hbr] at h
    exact Option.noConfusion h
  · have hbrf : bracketMismatch (netlocSplit (splitScheme (removeUnsafe (lstripC0 u0))).2).1
        = false := by
      cases hb : bracketMismatch (netlocSplit (splitScheme (removeUnsafe (lstripC0 u0))).2).1
      · rfl
      · exact absurd hb hbr
    rw [urlsplitWith_eq hbrf] at h
    injection h with h
    injection h with h1 h
    injection h with h2 h
    injection h with h3 h
    injection h with h4 h5
    subst h1
    subst h2
    subst h3
    subst h4
    subst h5
    have hhw : ∀ c ∈ removeUnsafe (lstripC0 u0),
        ¬ (c.toNat = 9 ∨ c.toNat = 13 ∨ c.toNat = 10) :=
      fun c hc => (mem_removeUnsafe hc).2
    have hr1w : ∀ c ∈ (splitScheme (removeUnsafe (lstripC0 u0))).2,
        c ∈ removeUnsafe (lstripC0 u0) := fun c hc => mem_splitScheme_snd hc
    have hr2r1 : ∀ c ∈ (netlocSplit (splitScheme (removeUnsafe (lstripC0 u0))).2).2,
        c ∈ (splitScheme (removeUnsafe (lstripC0 u0))).2 := by
      intro c hc
      by_cases hpre : isPrefixB ("//".toList) (splitScheme (removeUnsafe (lstripC0 u0))).2
          = true
      · rw [netlocSplit_pos hpre] at hc
        exact List.Sublist.mem (mem_splitNetloc_snd hc) (List.drop_sublist 2 _)
      · have hpf : isPrefixB ("//".toList) (splitScheme (removeUnsafe (lstripC0 u0))).2
            = false := by
          cases hb : isPrefixB ("//".toList) (splitScheme (removeUnsafe (lstripC0 u0))).2
          · rfl
          · exact absurd hb hpre
        rw [netlocSplit_neg hpf] at hc
        exact hc
    have hnr1 : ∀ c ∈ (netlocSplit (splitScheme (removeUnsafe (lstripC0 u0))).2).1,
        c ∈ (splitScheme (removeUnsafe (lstripC0 u0))).2 := by
      intro c hc
      by_cases hpre : isPrefixB ("//".toList) (splitScheme (removeUnsafe (lstripC0 u0))).2
          = true
      · rw [netlocSplit_pos hpre] at hc
        exact List.Sublist.mem (mem_splitNetloc_fst hc) (List.drop_sublist 2 _)
      · have hpf : isPrefixB ("//".toList) (splitScheme (removeUnsafe (lstripC0 u0))).2
            = false := by
          cases hb : isPrefixB ("//".toList) (splitScheme (removeUnsafe (lstripC0 u0))).2
          · rfl
          · exact absurd hb hpre
        rw [netlocSplit_neg hpf] at hc
        exact absurd hc (List.not_mem_nil _)
    have hndelim : ∀ c ∈ (netlocSplit (splitScheme (removeUnsafe (lstripC0 u0))).2).1,
        isNetlocDelim c = false := by
      intro c hc
      by_cases hpre : isPrefixB ("//".toList) (splitScheme (removeUnsafe (lstripC0 u0))).2
          = true
      · rw [netlocSplit_pos hpre] at hc
        exact splitNetloc_fst_facts _ c hc
      · have hpf : isPrefixB ("//".toList) (splitScheme (removeUnsafe (lstripC0 u0))).2
            = false := by
          cases hb : isPrefixB ("//".toList) (splitScheme (removeUnsafe (lstripC0 u0))).2
          · rfl
          · exact absurd hb hpre
        rw [netlocSplit_neg hpf] at hc
        exact absurd hc (List.not_mem_nil _)
    have hp0r2 : ∀ c ∈ (urlsplitTail (netlocSplit
          (splitScheme (removeUnsafe (lstripC0 u0))).2).2).1,
        c ∈ (netlocSplit (splitScheme (removeUnsafe (lstripC0 u0))).2).2 := by
      intro c hc
      exact mem_splitOnce_fst (mem_splitOnce_fst hc)
    have hhash3 : '#' ∉ (splitOnce '#'
        (netlocSplit (splitScheme (removeUnsafe (lstripC0 u0))).2).2).1 :=
      splitOnce_fst_not_mem _ _
    have hhashp0 : '#' ∉ (urlsplitTail (netlocSplit
        (splitScheme (removeUnsafe (lstripC0 u0))).2).2).1 :=
      fun hm => hhash3 (mem_splitOnce_fst hm)
    have hqp0 : '?' ∉ (urlsplitTail (netlocSplit
        (splitScheme (removeUnsafe (lstripC0 u0))).2).2).1 :=
      splitOnce_fst_not_mem _ _
    have hqmem : ∀ c ∈ (urlsplitTail (netlocSplit
          (splitScheme (removeUnsafe (lstripC0 u0))).2).2).2.1,
        c ∈ (splitOnce '#' (netlocSplit (splitScheme (removeUnsafe (lstripC0 u0))).2).2).1 := by
      intro c hc
      cases hsp2 : (splitOnce '?' (splitOnce '#'
          (netlocSplit (splitScheme (removeUnsafe (lstripC0 u0))).2).2).1).2 with
      | none =>
        show c ∈ _
        have : (urlsplitTail (netlocSplit
            (splitScheme (removeUnsafe (lstripC0 u0))).2).2).2.1 = [] := by
          show ((splitOnce '?' (splitOnce '#' _).1).2).getD [] = ([] : Chars)
          rw [hsp2]
          rfl
        rw [this] at hc
        exact absurd hc (List.not_mem_nil _)
      | some b =>
        have hb2 : (urlsplitTail (netlocSplit
            (splitScheme (removeUnsafe (lstripC0 u0))).2).2).2.1 = b := by
          show ((splitOnce '?' (splitOnce '#' _).1).2).getD [] = b
          rw [hsp2]
          rfl
        rw [hb2] at hc
        exact mem_splitOnce_snd hsp2 hc
    have hfmem : ∀ c ∈ (urlsplitTail (netlocSplit
          (splitScheme (removeUnsafe (lstripC0 u0))).2).2).2.2,
        c ∈ (netlocSplit (splitScheme (removeUnsafe (lstripC0 u0))).2).2 := by
      intro c hc
      cases hsp2 : (splitOnce '#'
          (netlocSplit (splitScheme (removeUnsafe (lstripC0 u0))).2).2).2 with
      | none =>
        have : (urlsplitTail (netlocSplit
            (splitScheme (removeUnsafe (lstripC0 u0))).2).2).2.2 = [] := by
          show ((splitOnce '#' _).2).getD [] = ([] : Chars)
          rw [hsp2]
          rfl
        rw [this] at hc
        exact absurd hc (List.not_mem_nil _)
      | some b =>
        have hb2 : (urlsplitTail (netlocSplit
            (splitScheme (removeUnsafe (lstripC0 u0))).2).2).2.2 = b := by
          show ((splitOnce '#' _).2).getD [] = b
          rw [hsp2]
          rfl
        rw [hb2] at hc
        exact mem_splitOnce_snd hsp2 hc
    refine ⟨splitScheme_fst_shape _, hndelim, hbrf, hhashp0, hqp0, ?_, ?_, ?_, ?_, ?_, ?_, ?_⟩
    · intro hm
      exact hhash3 (hqmem _ hm)
    · intro c hc
      obtain ⟨c0, hc0, rfl⟩ := mem_splitScheme_fst hc
      exact lowChar_clean (hhw c0 hc0)
    · intro c hc
      exact hhw c (hr1w c (hnr1 c hc))
    · intro c hc
      exact hhw c (hr1w c (hr2r1 c (hp0r2 c hc)))
    · intro c hc
      exact hhw c (hr1w c (hr2r1 c (mem_splitOnce_fst (hqmem c hc))))
    · intro c hc
      exact hhw c (hr1w c (hr2r1 c (hfmem c hc)))
    · intro hs0 hn0
      have hr1 : (splitScheme (removeUnsafe (lstripC0 u0))).2 = removeUnsafe (lstripC0 u0) :=
        splitScheme_snd_of_fst_nil hs0
      by_cases hpre : isPrefixB ("//".toList) (splitScheme (removeUnsafe (lstripC0 u0))).2
          = true
      · -- // branch with empty netloc: the path is empty or starts with a slash
        have hr2sh := splitNetloc_snd_shape ((splitScheme (removeUnsafe (lstripC0 u0))).2.drop 2)
        have hr2eq : (netlocSplit (splitScheme (removeUnsafe (lstripC0 u0))).2).2
            = (splitNetloc ((splitScheme (removeUnsafe (lstripC0 u0))).2.drop 2)).2 := by
          rw [netlocSplit_pos hpre]
        have hshape : (urlsplitTail (netlocSplit
              (splitScheme (removeUnsafe (lstripC0 u0))).2).2).1 = []
            ∨ ∃ r, (urlsplitTail (netlocSplit
              (splitScheme (removeUnsafe (lstripC0 u0))).2).2).1 = '/' :: r := by
          rcases hr2sh with hnil | ⟨c, r2, hcr, hdel⟩
          · rw [hr2eq, hnil]
            exact Or.inl rfl
          · rw [hr2eq, hcr]
            rcases (isNetlocDelim_iff c).mp hdel with rfl | rfl | rfl
            · -- '/': path keeps the slash
              refine Or.inr ?_
              have e3 : (splitOnce '#' ('/' :: r2)).1 = '/' :: (splitOnce '#' r2).1 := by
                rw [splitOnce_cons_ne _ (by decide)]
              show ∃ r, (splitOnce '?' (splitOnce '#' ('/' :: r2)).1).1 = '/' :: r
              rw [e3, splitOnce_cons_ne _ (by decide)]
              exact ⟨_, rfl⟩
            · -- '?': path is empty
              refine Or.inl ?_
              show (splitOnce '?' (splitOnce '#' ('?' :: r2)).1).1 = []
              rfl
            · -- '#': path is empty
              refine Or.inl ?_
              show (splitOnce '?' (splitOnce '#' ('#' :: r2)).1).1 = []
              rfl
        refine ⟨Or.inr hshape, ?_⟩
        rcases hshape with hnil | ⟨r, hr⟩
        · exact Or.inl hnil
        · exact Or.inr ⟨'/', r, hr, by decide⟩
      · -- plain branch: the path is a prefix of the cleaned input
        have hpf : isPrefixB ("//".toList) (splitScheme (removeUnsafe (lstripC0 u0))).2
            = false := by
          cases hb : isPrefixB ("//".toList) (splitScheme (removeUnsafe (lstripC0 u0))).2
          · rfl
          · exact absurd hb hpre
        have hr2 : (netlocSplit (splitScheme (removeUnsafe (lstripC0 u0))).2).2
            = removeUnsafe (lstripC0 u0) := by
          rw [netlocSplit_neg hpf]
          exact hr1
        obtain ⟨ra, hra⟩ := splitOnce_fst_prefix '#'
          (netlocSplit (splitScheme (removeUnsafe (lstripC0 u0))).2).2
        obtain ⟨rb, hrb⟩ := splitOnce_fst_prefix '?'
          (splitOnce '#' (netlocSplit (splitScheme (removeUnsafe (lstripC0 u0))).2).2).1
        have hwpre : removeUnsafe (lstripC0 u0)
            = (urlsplitTail (netlocSplit
                (splitScheme (removeUnsafe (lstripC0 u0))).2).2).1 ++ (rb ++ ra) := by
          rw [← List.append_assoc]
          show _ = ((splitOnce '?' (splitOnce '#' _).1).1 ++ rb) ++ ra
          rw [← hrb, ← hra, hr2]
        refine ⟨Or.inl ⟨noSchemeSniffB_of_fst_nil hs0, ⟨rb ++ ra, hwpre⟩⟩, ?_⟩
        rcases cleaned_head u0 with hwn | ⟨c, r, hcr, hgt⟩
        · have hnil2 : (urlsplitTail (netlocSplit
              (splitScheme (removeUnsafe (lstripC0 u0))).2).2).1 ++ (rb ++ ra) = [] := by
            rw [← hwpre, hwn]
          exact Or.inl (List.append_eq_nil.mp hnil2).1
        · have hw2 : (urlsplitTail (netlocSplit
              (splitScheme (removeUnsafe (lstripC0 u0))).2).2).1 ++ (rb ++ ra) = c :: r := by
            rw [← hwpre]
            exact hcr
          cases hp0 : (urlsplitTail (netlocSplit
              (splitScheme (removeUnsafe (lstripC0 u0))).2).2).1 with
          | nil => exact Or.inl rfl
          | cons p0 ps =>
            rw [hp0, List.cons_append] at hw2
            injection hw2 with hh _
            exact Or.inr ⟨p0, ps, rfl, by rw [hh]; exact hgt⟩

theorem addSlash_idem (j : Chars) : addSlash (addSlash j) = addSlash j := by
  rcases addSlash_shape j with h | ⟨r, h⟩
  · rw [h]
    rfl
  · rw [h]
    exact addSlash_keep (Or.inr ((isPrefixB_slash1_iff _).mpr ⟨r, rfl⟩))

theorem isPrefixB_slash2_addSlash {j : Chars}
    (h2 : isPrefixB ("//".toList) (addSlash j) = true) :
    isPrefixB ("//".toList) j = true := by
  unfold addSlash at h2
  split_ifs at h2 with hcnd
  · obtain ⟨y, hy⟩ := (isPrefixB_slash2_iff _).mp h2
    injection hy with _ hy2
    exact absurd ((isPrefixB_slash1_iff _).mpr ⟨y, hy2⟩) hcnd.2
  · exact h2

theorem isPrefixB_slash2_joinParams (pa pb : Chars) :
    isPrefixB ("//".toList) (joinParams pa pb) = isPrefixB ("//".toList) pa := by
  unfold joinParams
  split_ifs with h
  · cases pa with
    | nil => simp [isPrefixB]
    | cons c pa' =>
      cases pa' with
      | nil => simp [isPrefixB]
      | cons c2 pa'' =>
        rw [List.cons_append, List.cons_append]
        simp [isPrefixB]
  · rfl

theorem urlparseModel_eq (url : Chars) :
    urlparseModel url
      = match urlsplitModel url with
        | none => none
        | some (scheme, netloc, path0, query, fragment) =>
          some ⟨scheme, netloc, (pathParams scheme path0).1, (pathParams scheme path0).2,
                query, fragment⟩ := by
  unfold urlparseModel
  cases hsp : urlsplitModel url with
  | none => rfl
  | some t =>
    obtain ⟨s, n, p0, q, f⟩ := t
    show (if s ∈ uses_params ∧ ';' ∈ p0 then
            let pp := splitParams p0
            some (⟨s, n, pp.1, pp.2, q, f⟩ : UrlParts)
          else some ⟨s, n, p0, [], q, f⟩)
        = some ⟨s, n, (pathParams s p0).1, (pathParams s p0).2, q, f⟩
    by_cases h : s ∈ uses_params ∧ ';' ∈ p0
    · rw [if_pos h, pathParams_pos h]
    · rw [if_neg h, pathParams_neg h]

theorem canon_unsplit_emitted {s n j q : Chars} (f : Chars)
    (hs : s = [] ∨ (validSchemeStr s = true ∧ asciiLower s = s))
    (hcs : ∀ c ∈ s, ¬ (c.toNat = 9 ∨ c.toNat = 13 ∨ c.toNat = 10))
    (hcn : ∀ c ∈ n, ¬ (c.toNat = 9 ∨ c.toNat = 13 ∨ c.toNat = 10))
    (hcj : ∀ c ∈ j, ¬ (c.toNat = 9 ∨ c.toNat = 13 ∨ c.toNat = 10))
    (hcf : ∀ c ∈ f, ¬ (c.toNat = 9 ∨ c.toNat = 13 ∨ c.toNat = 10))
    (hn : ∀ c ∈ n, isNetlocDelim c = false)
    (hbr : bracketMismatch n = false)
    (hjh : '#' ∉ j) (hjq : '?' ∉ j)
    (hstab : ∀ u, (u = j ∨ u = '/' :: j)
        → joinParams (pathParams s u).1 (pathParams s u).2 = u)
    (hcond : n ≠ [] ∨ (s ≠ [] ∧ s ∈ uses_netloc ∧ ¬ isPrefixB ("//".toList) j = true)) :
    canonicalize_url (urlunsplitModel s n j (processQuery q) f)
      = urlunsplitModel s n j (processQuery q) f := by
  obtain ⟨X, hWX, hTail, hXmem, hXshape, hXslash⟩ := tail_X (processQuery q) f
  have hq'h : '#' ∉ processQuery q := by
    intro hm
    exact (processQuery_char_facts hm).2.2.1 rfl
  have hcq' : ∀ c ∈ processQuery q, ¬ (c.toNat = 9 ∨ c.toNat = 13 ∨ c.toNat = 10) := by
    intro c hc
    obtain ⟨_, _, _, _, _, _, _, h9, h13, h10⟩ := processQuery_char_facts hc
    intro hor
    rcases hor with h | h | h
    · exact h9 h
    · exact h13 h
    · exact h10 h
  have haj1 : '#' ∉ addSlash j := by
    intro hm
    rcases mem_addSlash hm with he | hm2
    · exact absurd he (by decide)
    · exact hjh hm2
  have haj2 : '?' ∉ addSlash j := by
    intro hm
    rcases mem_addSlash hm with he | hm2
    · exact absurd he (by decide)
    · exact hjq hm2
  have hcX : ∀ c ∈ X, ¬ (c.toNat = 9 ∨ c.toNat = 13 ∨ c.toNat = 10) := by
    intro c hc
    rcases hXmem c hc with rfl | rfl | hcq2 | hcf2
    · decide
    · decide
    · exact hcq' c hcq2
    · exact hcf c hcf2
  have hrest : addSlash j ++ X = []
      ∨ ∃ c r2, addSlash j ++ X = c :: r2 ∧ isNetlocDelim c = true := by
    rcases addSlash_shape j with haj | ⟨r, haj⟩
    · rw [haj, List.nil_append]
      rcases hXshape with rfl | ⟨r, hX1 | hX1⟩
      · exact Or.inl rfl
      · exact Or.inr ⟨'?', r, by rw [hX1], by decide⟩
      · exact Or.inr ⟨'#', r, by rw [hX1], by decide⟩
    · rw [haj, List.cons_append]
      exact Or.inr ⟨'/', _, rfl, by decide⟩
  have ho : urlunsplitModel s n j (processQuery q) f
      = withScheme s ('/' :: '/' :: (n ++ addSlash j)) ++ X := by
    rw [urlunsplitModel_eq, hWX, unsplitBase_pos hcond]
  have hsplit2 := urlsplit_core_emitted hs hcs hcn hcj hcX hn hbr hrest
  have ht := hTail (addSlash j) haj1 hq'h haj2
  have t1 : (urlsplitTail (addSlash j ++ X)).1 = addSlash j := by rw [ht]
  have t2 : (urlsplitTail (addSlash j ++ X)).2.1 = processQuery q := by rw [ht]
  have t3 : (urlsplitTail (addSlash j ++ X)).2.2 = f := by rw [ht]
  rw [t1, t2, t3] at hsplit2
  have hparse2 : urlparseModel (withScheme s ('/' :: '/' :: (n ++ addSlash j)) ++ X)
      = some ⟨s, n, (pathParams s (addSlash j)).1, (pathParams s (addSlash j)).2,
          processQuery q, f⟩ := by
    rw [urlparseModel_eq, hsplit2]
  rw [ho]
  unfold canonicalize_url
  rw [hparse2]
  show urlunparseModel ⟨s, n, (pathParams s (addSlash j)).1, (pathParams s (addSlash j)).2,
      processQuery (processQuery q), f⟩ = withScheme s ('/' :: '/' :: (n ++ addSlash j)) ++ X
  have hj2 := hstab (addSlash j) (by
    unfold addSlash
    split_ifs with hcnd
    · exact Or.inr rfl
    · exact Or.inl rfl)
  have hstep : urlunparseModel ⟨s, n, (pathParams s (addSlash j)).1,
      (pathParams s (addSlash j)).2, processQuery (processQuery q), f⟩
      = urlunsplitModel s n (addSlash j) (processQuery q) f := by
    show urlunsplitModel s n (joinParams (pathParams s (addSlash j)).1
        (pathParams s (addSlash j)).2) (processQuery (processQuery q)) f
      = urlunsplitModel s n (addSlash j) (processQuery q) f
    rw [hj2, processQuery_idem]
  rw [hstep]
  have hcond2 : n ≠ [] ∨ (s ≠ [] ∧ s ∈ uses_netloc
      ∧ ¬ isPrefixB ("//".toList) (addSlash j) = true) := by
    rcases hcond with h1 | ⟨a, b, c⟩
    · exact Or.inl h1
    · exact Or.inr ⟨a, b, fun h2 => c (isPrefixB_slash2_addSlash h2)⟩
  rw [urlunsplitModel_eq, hWX, unsplitBase_pos hcond2, addSlash_idem]

theorem canon_unsplit_plain {s j q : Chars} (f : Chars)
    (hs : s = [] ∨ (validSchemeStr s = true ∧ asciiLower s = s))
    (hcs : ∀ c ∈ s, ¬ (c.toNat = 9 ∨ c.toNat = 13 ∨ c.toNat = 10))
    (hcj : ∀ c ∈ j, ¬ (c.toNat = 9 ∨ c.toNat = 13 ∨ c.toNat = 10))
    (hcf : ∀ c ∈ f, ¬ (c.toNat = 9 ∨ c.toNat = 13 ∨ c.toNat = 10))
    (hjh : '#' ∉ j) (hjq : '?' ∉ j)
    (hstab : ∀ u, (u = j ∨ u = '/' :: j)
        → joinParams (pathParams s u).1 (pathParams s u).2 = u)
    (hnopre : isPrefixB ("//".toList) j = false)
    (hncond : ¬ (s ≠ [] ∧ s ∈ uses_netloc ∧ ¬ isPrefixB ("//".toList) j = true))
    (hsniffsrc : s = [] →
        ((∃ w, noSchemeSniffB w = true ∧ ∃ rest0, w = j ++ rest0)
         ∨ (j = [] ∨ ∃ r, j = '/' :: r)))
    (hheadj : s = [] → (j = [] ∨ ∃ c r, j = c :: r ∧ 32 < c.toNat)) :
    canonicalize_url (urlunsplitModel s [] j (processQuery q) f)
      = urlunsplitModel s [] j (processQuery q) f := by
  obtain ⟨X, hWX, hTail, hXmem, hXshape, hXslash⟩ := tail_X (processQuery q) f
  have hq'h : '#' ∉ processQuery q := by
    intro hm
    exact (processQuery_char_facts hm).2.2.1 rfl
  have hcq' : ∀ c ∈ processQuery q, ¬ (c.toNat = 9 ∨ c.toNat = 13 ∨ c.toNat = 10) := by
    intro c hc
    obtain ⟨_, _, _, _, _, _, _, h9, h13, h10⟩ := processQuery_char_facts hc
    intro hor
    rcases hor with h | h | h
    · exact h9 h
    · exact h13 h
    · exact h10 h
  have hcX : ∀ c ∈ X, ¬ (c.toNat = 9 ∨ c.toNat = 13 ∨ c.toNat = 10) := by
    intro c hc
    rcases hXmem c hc with rfl | rfl | hcq2 | hcf2
    · decide
    · decide
    · exact hcq' c hcq2
    · exact hcf c hcf2
  have hcond : ¬ (([] : Chars) ≠ [] ∨ (s ≠ [] ∧ s ∈ uses_netloc
      ∧ ¬ isPrefixB ("//".toList) j = true)) := by
    intro hor
    rcases hor with h1 | h2
    · exact h1 rfl
    · exact hncond h2
  have ho : urlunsplitModel s [] j (processQuery q) f = withScheme s j ++ X := by
    rw [urlunsplitModel_eq, hWX, unsplitBase_neg hcond]
  have hnopreJX : isPrefixB ("//".toList) (j ++ X) = false :=
    isPrefixB_slash2_append_false hnopre hXslash
  have hsniffJX : s = [] → noSchemeSniffB (j ++ X) = true := by
    intro hs0
    rcases hsniffsrc hs0 with ⟨w, hw, rest0, hwdec⟩ | hj0
    · by_cases hcin : ':' ∈ j
      · have hww : noSchemeSniffB (j ++ rest0) = true := by
          rw [← hwdec]
          exact hw
        exact noSniff_transfer hcin hww
      · have hnsj : noSchemeSniffB j = true :=
          noSchemeSniffB_eq_true_of_none (splitOnce_no_sep hcin)
        rcases hXshape with rfl | ⟨r, hX1 | hX1⟩
        · rw [List.append_nil]
          exact hnsj
        · rw [hX1]
          exact noSchemeSniffB_append_sep r (by decide) (by decide) hnsj
        · rw [hX1]
          exact noSchemeSniffB_append_sep r (by decide) (by decide) hnsj
    · rcases hj0 with rfl | ⟨r, rfl⟩
      · rw [List.nil_append]
        rcases hXshape with rfl | ⟨r, hX1 | hX1⟩
        · exact noSchemeSniffB_eq_true_of_none (show splitOnce ':' [] = ([], none) from rfl)
        · rw [hX1]
          exact noSchemeSniffB_head _ (by decide)
        · rw [hX1]
          exact noSchemeSniffB_head _ (by decide)
      · rw [List.cons_append]
        exact noSchemeSniffB_head _ (by decide)
  have hhead : withScheme s j ++ X = []
      ∨ ∃ c0 r0, withScheme s j ++ X = c0 :: r0 ∧ 32 < c0.toNat := by
    rcases hs with rfl | ⟨hv, _⟩
    · rw [withScheme_nil]
      rcases hheadj rfl with rfl | ⟨c, r, rfl, hgt⟩
      · rw [List.nil_append]
        rcases hXshape with rfl | ⟨r, hX1 | hX1⟩
        · exact Or.inl rfl
        · rw [hX1]
          exact Or.inr ⟨'?', r, rfl, by decide⟩
        · rw [hX1]
          exact Or.inr ⟨'#', r, rfl, by decide⟩
      · rw [List.cons_append]
        exact Or.inr ⟨c, _, rfl, hgt⟩
    · obtain ⟨⟨c0, cs0, hcs0, hal⟩, _⟩ := validSchemeStr_spec hv
      rw [withScheme_pos (by rw [hcs0]; exact List.cons_ne_nil _ _), hcs0,
        List.cons_append, List.cons_append]
      refine Or.inr ⟨c0, _, rfl, ?_⟩
      have := (isAsciiAlphaB_iff c0).mp hal
      omega
  have hsplit2 := urlsplit_core_plain hs hcs hcj hcX hnopreJX hsniffJX hhead
  have ht := hTail j hjh hq'h hjq
  have t1 : (urlsplitTail (j ++ X)).1 = j := by rw [ht]
  have t2 : (urlsplitTail (j ++ X)).2.1 = processQuery q := by rw [ht]
  have t3 : (urlsplitTail (j ++ X)).2.2 = f := by rw [ht]
  rw [t1, t2, t3] at hsplit2
  have hparse2 : urlparseModel (withScheme s j ++ X)
      = some ⟨s, [], (pathParams s j).1, (pathParams s j).2, processQuery q, f⟩ := by
    rw [urlparseModel_eq, hsplit2]
  rw [ho]
  unfold canonicalize_url
  rw [hparse2]
  show urlunparseModel ⟨s, [], (pathParams s j).1, (pathParams s j).2,
      processQuery (processQuery q), f⟩ = withScheme s j ++ X
  have hj2 := hstab j (Or.inl rfl)
  have hstep : urlunparseModel ⟨s, [], (pathParams s j).1, (pathParams s j).2,
      processQuery (processQuery q), f⟩
      = urlunsplitModel s [] j (processQuery q) f := by
    show urlunsplitModel s [] (joinParams (pathParams s j).1 (pathParams s j).2)
        (processQuery (processQuery q)) f
      = urlunsplitModel s [] j (processQuery q) f
    rw [hj2, processQuery_idem]
  rw [hstep, ho]

theorem prefix_semi_decomp {j path0 w : Chars} (h : j = path0 ∨ j ++ [';'] = path0)
    (hd : ∃ rest0, w = path0 ++ rest0) : ∃ rest1, w = j ++ rest1 := by
  obtain ⟨rest0, hdec⟩ := hd
  rcases h with rfl | h
  · exact ⟨rest0, hdec⟩
  · refine ⟨[';'] ++ rest0, ?_⟩
    rw [← List.append_assoc, h]
    exact hdec

theorem prefix_semi_slash {j path0 : Chars} (h : j = path0 ∨ j ++ [';'] = path0)
    (hp : path0 = [] ∨ ∃ r, path0 = '/' :: r) :
    j = [] ∨ ∃ r, j = '/' :: r := by
  rcases h with rfl | h
  · exact hp
  · cases j with
    | nil => exact Or.inl rfl
    | cons c0 j' =>
      rcases hp with hp0 | ⟨r, hp0⟩
      · rw [← h] at hp0
        exact absurd hp0 (by simp)
      · rw [← h] at hp0
        injection hp0 with h1 h2
        refine Or.inr ⟨j', ?_⟩
        rw [h1]

theorem prefix_semi_head {j path0 : Chars} (h : j = path0 ∨ j ++ [';'] = path0)
    (hp : path0 = [] ∨ ∃ c r, path0 = c :: r ∧ 32 < c.toNat) :
    j = [] ∨ ∃ c r, j = c :: r ∧ 32 < c.toNat := by
  rcases h with rfl | h
  · exact hp
  · cases j with
    | nil => exact Or.inl rfl
    | cons c0 j' =>
      rcases hp with hp0 | ⟨c, r, hp0, hgt⟩
      · rw [← h] at hp0
        exact absurd hp0 (by simp)
      · rw [← h] at hp0
        injection hp0 with h1 h2
        refine Or.inr ⟨c0, j', rfl, ?_⟩
        rw [h1]
        exact hgt

theorem canonicalize_idempotent_of_parse {u0 : Chars} {p : UrlParts}
    (hp : urlparseModel u0 = some p)
    (hdeg : ¬ (p.netloc = [] ∧ isPrefixB ("//".toList) p.path = true)) :
    canonicalize_url (canonicalize_url u0) = canonicalize_url u0 := by
  cases hsp : urlsplitModel u0 with
  | none =>
    rw [urlparseModel_eq, hsp] at hp
    have hp2 : (none : Option UrlParts) = some p := hp
    exact Option.noConfusion hp2
  | some t =>
    obtain ⟨s, n, path0, q, f⟩ := t
    rw [urlparseModel_eq, hsp] at hp
    have hp2 : some (⟨s, n, (pathParams s path0).1, (pathParams s path0).2, q, f⟩ : UrlParts)
        = some p := hp
    injection hp2 with hp3
    subst hp3
    have hdeg2 : ¬ (n = [] ∧ isPrefixB ("//".toList) (pathParams s path0).1 = true) := hdeg
    obtain ⟨hs, hn, hbr, hph, hpq, hqh, hcs, hcn, hcp0, hcq, hcf, hW5⟩ := urlsplitModel_inv hsp
    have hparse : urlparseModel u0
        = some ⟨s, n, (pathParams s path0).1, (pathParams s path0).2, q, f⟩ := by
      rw [urlparseModel_eq, hsp]
    have hc1 : canonicalize_url u0
        = urlunparseModel ⟨s, n, (pathParams s path0).1, (pathParams s path0).2,
            processQuery q, f⟩ := by
      unfold canonicalize_url
      rw [hparse]
    have hunp : urlunparseModel ⟨s, n, (pathParams s path0).1, (pathParams s path0).2,
          processQuery q, f⟩
        = urlunsplitModel s n
            (joinParams (pathParams s path0).1 (pathParams s path0).2)
            (processQuery q) f := rfl
    have hjp := joinParams_pathParams_prefix s path0
    have hjmem : ∀ c, c ∈ joinParams (pathParams s path0).1 (pathParams s path0).2
        → c ∈ path0 := by
      intro c hc
      rcases hjp with h | h
      · rw [h] at hc
        exact hc
      · rw [← h]
        exact List.mem_append_left _ hc
    have hjh : '#' ∉ joinParams (pathParams s path0).1 (pathParams s path0).2 :=
      fun hm => hph (hjmem _ hm)
    have hjq2 : '?' ∉ joinParams (pathParams s path0).1 (pathParams s path0).2 :=
      fun hm => hpq (hjmem _ hm)
    have hcj : ∀ c ∈ joinParams (pathParams s path0).1 (pathParams s path0).2,
        ¬ (c.toNat = 9 ∨ c.toNat = 13 ∨ c.toNat = 10) :=
      fun c hc => hcp0 c (hjmem c hc)
    have hstab : ∀ u,
        (u = joinParams (pathParams s path0).1 (pathParams s path0).2
         ∨ u = '/' :: joinParams (pathParams s path0).1 (pathParams s path0).2)
        → joinParams (pathParams s u).1 (pathParams s u).2 = u :=
      fun u hu => pathParams_stable s path0 u hu
    by_cases hcond : n ≠ [] ∨ (s ≠ [] ∧ s ∈ uses_netloc
        ∧ ¬ isPrefixB ("//".toList)
            (joinParams (pathParams s path0).1 (pathParams s path0).2) = true)
    · rw [hc1, hunp]
      exact canon_unsplit_emitted f hs hcs hcn hcj hcf hn hbr hjh hjq2 hstab hcond
    · have hn0 : n = [] := by
        by_contra hne
        exact hcond (Or.inl hne)
      subst hn0
      have hncond : ¬ (s ≠ [] ∧ s ∈ uses_netloc
          ∧ ¬ isPrefixB ("//".toList)
              (joinParams (pathParams s path0).1 (pathParams s path0).2) = true) :=
        fun h => hcond (Or.inr h)
      have hnopre : isPrefixB ("//".toList)
          (joinParams (pathParams s path0).1 (pathParams s path0).2) = false := by
        rw [isPrefixB_slash2_joinParams]
        cases hb : isPrefixB ("//".toList) (pathParams s path0).1
        · rfl
        · exact absurd ⟨rfl, hb⟩ hdeg2
      have hsniffsrc : s = [] →
          ((∃ w, noSchemeSniffB w = true
              ∧ ∃ rest1, w = joinParams (pathParams s path0).1 (pathParams s path0).2
                  ++ rest1)
           ∨ (joinParams (pathParams s path0).1 (pathParams s path0).2 = []
              ∨ ∃ r, joinParams (pathParams s path0).1 (pathParams s path0).2
                  = '/' :: r)) := by
        intro hs0
        obtain ⟨hW5a, _⟩ := hW5 hs0 rfl
        rcases hW5a with ⟨hsniff, hdec⟩ | hshape
        · exact Or.inl ⟨removeUnsafe (lstripC0 u0), hsniff, prefix_semi_decomp hjp hdec⟩
        · exact Or.inr (prefix_semi_slash hjp hshape)
      have hheadj : s = [] →
          (joinParams (pathParams s path0).1 (pathParams s path0).2 = []
           ∨ ∃ c r, joinParams (pathParams s path0).1 (pathParams s path0).2
               = c :: r ∧ 32 < c.toNat) :=
        fun hs0 => prefix_semi_head hjp (hW5 hs0 rfl).2
      rw [hc1, hunp]
      exact canon_unsplit_plain f hs hcs hcj hcf hjh hjq2 hstab hnopre hncond
        hsniffsrc hheadj

/-- C6 (amended): canonicalization is idempotent for every URL except the
degenerate family where the parse has an empty netloc and a path beginning
with `//` (there Python 3.11's `urlunsplit` drops the implicit `//` marker,
so each pass strips two leading slashes).  Concretely: if parsing fails, or
the parsed result has a nonempty netloc or a path not starting with `//`,
then `canonicalize_url (canonicalize_url u) = canonicalize_url u`. -/
theorem C6_idempotent_amended (u : Chars)
    (h : urlparseModel u = none
       ∨ ∃ p, urlparseModel u = some p
           ∧ ¬ (p.netloc = [] ∧ isPrefixB ("//".toList) p.path = true)) :
    canonicalize_url (canonicalize_url u) = canonicalize_url u := by
  rcases h with hnone | ⟨p, hp, hdeg⟩
  · have hc : canonicalize_url u = u := by
      unfold canonicalize_url
      rw [hnone]
    rw [hc, hc]
  · exact canonicalize_idempotent_of_parse hp hdeg

theorem C6_idempotent_amended_witness :
    canonicalize_url (canonicalize_url ("http://e.com/p?a=1&utm_x=2".toList))
      = canonicalize_url ("http://e.com/p?a=1&utm_x=2".toList) :=
  C6_idempotent_amended ("http://e.com/p?a=1&utm_x=2".toList)
    (Or.inr ⟨⟨"http".toList, "e.com".toList, "/p".toList, [],
        "a=1&utm_x=2".toList, []⟩, by decide, by decide⟩)

end DedupeDigest
